import Mathlib

/-!
# CEpollion: key-value store, command parser and command executor

A shallow embedding of `src/server/hashmap.c`, `src/server/parser.c`,
`src/server/utils.c`, `src/server/command_handler.c` and the read path and
the connection counters of `src/server/server.c`.

Conventions of the embedding

* A C string is the list of its bytes (`List Nat`, every byte taken as an
  `unsigned char` value), the terminating NUL left out.  A `char *` that may be
  `NULL` is an `Option (List Nat)`.
* A bucket chain (`KVPair *` linked through `next`) is the list of its pairs,
  head of the chain first; `buckets` is the list of the chains by index.
* `malloc`, `calloc`, `realloc` and `strdup` are taken to succeed.
* The global `HashMap *map` of `command_handler.c` is passed explicitly.
-/

namespace CEpollion

/-- Bytes of an ASCII string literal of the source. -/
def cstr (s : String) : List Nat := s.toList.map Char.toNat

/-! ## hashmap.h / hashmap.c -/

/-- The struct `KVPair` of hashmap.h; the `next` pointer is the tail of the chain list. -/
structure KVPair where
  key : List Nat
  value : List Nat
deriving DecidableEq, Repr

/-- The struct `HashMap` of hashmap.h.  `size` is a `size_t` counter of live pairs; every
pair occupies at least `sizeof(KVPair)` bytes of the address space, so the
counter stays far below `2^64` and is kept as a natural number. -/
structure HashMap where
  capacity : Nat
  size : Nat
  buckets : List (List KVPair)
deriving DecidableEq, Repr

/-- The `while (*key)` loop of `hash`: `hash_value += (unsigned char)(*key)` on
a 32-bit `unsigned int`. -/
def hash_loop : List Nat → Nat → Nat
  | [], hash_value => hash_value
  | c :: key, hash_value => hash_loop key ((hash_value + c % 256) % 2 ^ 32)

/-- The function `unsigned int hash(const char *key, size_t capacity)`: the remainder is
taken in `size_t` and converted back to `unsigned int`. -/
def hash (key : List Nat) (capacity : Nat) : Nat :=
  (hash_loop key 0 % capacity) % 2 ^ 32

/-- The function `create_hash_map`: `capacity` empty buckets (`calloc`), `size = 0`. -/
def create_hash_map (capacity : Nat) : HashMap :=
  { capacity := capacity, size := 0, buckets := List.replicate capacity [] }

/-- The search loop of `hash_map_set` over one chain: when an entry with the
key is found its value is replaced in place (`some` of the new chain);
`none` when the loop runs off the end of the chain. -/
def chain_set : List KVPair → List Nat → List Nat → Option (List KVPair)
  | [], _, _ => none
  | entry :: next, key, value =>
    if entry.key = key then some ({ entry with value := value } :: next)
    else (chain_set next key value).map (fun rest => entry :: rest)

/-- The function `hash_map_set`: update in place, or link a new pair at the head of the
bucket and count it.  Returns the `bool` result and the map afterwards. -/
def hash_map_set (map : HashMap) (key value : List Nat) : Bool × HashMap :=
  let index := hash key map.capacity
  let entry := map.buckets.getD index []
  match chain_set entry key value with
  | some chain => (true, { map with buckets := map.buckets.set index chain })
  | none =>
    let new_pair : KVPair := { key := key, value := value }
    (true, { map with buckets := map.buckets.set index (new_pair :: entry),
                      size := map.size + 1 })

/-- The search loop of `hash_map_get` over one chain. -/
def chain_get : List KVPair → List Nat → Option (List Nat)
  | [], _ => none
  | entry :: next, key => if entry.key = key then some entry.value else chain_get next key

/-- The function `hash_map_get`: `NULL` at once when `size == 0`, else the value of the
first entry of the bucket whose key compares equal. -/
def hash_map_get (map : HashMap) (key : List Nat) : Option (List Nat) :=
  if map.size = 0 then none
  else chain_get (map.buckets.getD (hash key map.capacity) []) key

/-- The loop of `hash_map_remove` over one chain: the first entry with the key
is unlinked (`some` of the remaining chain); `none` when no entry has it. -/
def chain_remove : List KVPair → List Nat → Option (List KVPair)
  | [], _ => none
  | entry :: next, key =>
    if entry.key = key then some next
    else (chain_remove next key).map (fun rest => entry :: rest)

/-- The function `hash_map_remove`: unlink the entry and decrement `size`, or report
`false` and leave the map alone.  The entry found is one of the `size` counted
pairs, so the decrement does not wrap. -/
def hash_map_remove (map : HashMap) (key : List Nat) : Bool × HashMap :=
  let index := hash key map.capacity
  match chain_remove (map.buckets.getD index []) key with
  | some chain => (true, { map with buckets := map.buckets.set index chain,
                                    size := map.size - 1 })
  | none => (false, map)

/-- Maps built by the public interface: `create_hash_map` with a positive
bucket count, then any calls of `hash_map_set` and `hash_map_remove`. -/
inductive Reachable : HashMap → Prop
  | create (capacity : Nat) (h : 0 < capacity) : Reachable (create_hash_map capacity)
  | set (map : HashMap) (key value : List Nat) :
      Reachable map → Reachable (hash_map_set map key value).2
  | remove (map : HashMap) (key : List Nat) :
      Reachable map → Reachable (hash_map_remove map key).2

/-- State of the rendering loop of `hash_map_get_all`: the size of the
`result` buffer, the write position `pos`, the bytes `result[0 .. pos)` and the
flag `has_entries`. -/
structure GetAllState where
  buffer_size : Nat
  pos : Nat
  result : List Nat
  has_entries : Bool
deriving DecidableEq, Repr

/-- The text `snprintf` renders for one pair with the format `"\"%s\":\"%s\","`. -/
def entry_text (entry : KVPair) : List Nat :=
  cstr "\"" ++ entry.key ++ cstr "\":\"" ++ entry.value ++ cstr "\","

/-- One turn of the `while (entry)` loop of `hash_map_get_all`: the buffer is
doubled once when `required_size >= buffer_size`, then `snprintf` writes at
`result + pos` with room `buffer_size - pos` and `pos` advances by its return
value, the full length of the text.  When the text and its terminator do not
fit in that room `snprintf` cuts the text and `pos` ends at or beyond
`buffer_size`, so the buffer no longer holds the rendering and the writes that
follow are not inside it: that outcome is `none`. -/
def get_all_entry (st : GetAllState) (entry : KVPair) : Option GetAllState :=
  let required_size := st.pos + entry.key.length + entry.value.length + 6
  let buffer_size := if required_size ≥ st.buffer_size then st.buffer_size * 2 else st.buffer_size
  let text := entry_text entry
  if text.length < buffer_size - st.pos then
    some { buffer_size := buffer_size, pos := st.pos + text.length,
           result := st.result ++ text, has_entries := true }
  else none

/-- The `while (entry)` loop of `hash_map_get_all` over one chain. -/
def get_all_chain : GetAllState → List KVPair → Option GetAllState
  | st, [] => some st
  | st, entry :: next =>
    match get_all_entry st entry with
    | some st2 => get_all_chain st2 next
    | none => none

/-- The `for (i = 0; i < map->capacity; i++)` loop of `hash_map_get_all`,
`todo` being the bucket indices still to visit. -/
def get_all_buckets (map : HashMap) : GetAllState → List Nat → Option GetAllState
  | st, [] => some st
  | st, i :: todo =>
    match get_all_chain st (map.buckets.getD i []) with
    | some st2 => get_all_buckets map st2 todo
    | none => none

/-- The constant `BUFFER_SIZE` of hashmap.c. -/
def BUFFER_SIZE : Nat := 1024

/-- The function `hash_map_get_all`: `{`, the pairs of every bucket in index order, then the
last comma overwritten by `}` (or `}` appended when nothing was written).
`none` is the outcome described at `get_all_entry`. -/
def hash_map_get_all (map : HashMap) : Option (List Nat) :=
  let st0 : GetAllState :=
    { buffer_size := BUFFER_SIZE, pos := 1, result := [123], has_entries := false }
  match get_all_buckets map st0 (List.range map.capacity) with
  | none => none
  | some st =>
    if st.has_entries then some (st.result.set (st.pos - 1) 125)
    else some (st.result ++ [125])

/-! ## utils.c -/

/-- The function `remove_trailing_newline` on a non-NULL string: a final `\n` is cut off. -/
def remove_trailing_newline (str : List Nat) : List Nat :=
  if 0 < str.length ∧ str.getLast? = some 10 then str.dropLast else str

/-! ## parser.h / parser.c -/

/-- The enum `CommandType` of parser.h. -/
inductive CommandType where
  | CMD_INVALID
  | CMD_SET
  | CMD_GET
  | CMD_REMOVE
  | CMD_GET_ALL
deriving DecidableEq, Repr

/-- The struct `Command` of parser.h.  `key` is `none` for a NULL pointer; `args` is
`none` for a NULL pointer and otherwise the tokens stored in the array before
its terminating NULL. -/
structure Command where
  type : CommandType
  key : Option (List Nat)
  args : Option (List (List Nat))
deriving DecidableEq, Repr

/-- The constant `COMMAND_MAX_SIZE` of parser.c. -/
def COMMAND_MAX_SIZE : Nat := 16

/-- The function `isspace` of the C locale: space, `\t`, `\n`, `\v`, `\f`, `\r`. -/
def isspace (c : Nat) : Bool := c = 32 || (9 ≤ c && c ≤ 13)

/-- The function `toupper` of the C locale. -/
def toupper (c : Nat) : Nat := if 97 ≤ c ∧ c ≤ 122 then c - 32 else c

/-- The function `strtok` with the delimiter string `" "`, on the text still to scan:
leading spaces are skipped; at the end of the text the result is `NULL`
(`none`); otherwise the token runs up to the next space and scanning resumes
behind that space. -/
def strtok (s : List Nat) : Option (List Nat × List Nat) :=
  let start := s.dropWhile (fun c => c = 32)
  if start = [] then none
  else some (start.takeWhile (fun c => c ≠ 32), (start.dropWhile (fun c => c ≠ 32)).drop 1)

/-- The copy loop of `string_to_command`; `n` counts the iterations left of
`i < COMMAND_MAX_SIZE - 1`.  It stops at the end of the string and at `\n`. -/
def command_str_loop : Nat → List Nat → List Nat
  | 0, _ => []
  | _ + 1, [] => []
  | n + 1, c :: str => if c = 10 then [] else toupper c :: command_str_loop n str

/-- The function `string_to_command`: the first 15 bytes of the token up to a
newline, in upper case, compared with the four keywords in turn. -/
def string_to_command (str : List Nat) : CommandType :=
  let command_str := command_str_loop (COMMAND_MAX_SIZE - 1) str
  if command_str = cstr "SET" then .CMD_SET
  else if command_str = cstr "GET" then .CMD_GET
  else if command_str = cstr "DEL" then .CMD_REMOVE
  else if command_str = cstr "GETALL" then .CMD_GET_ALL
  else .CMD_INVALID

/-- The loop `while (cmd->key && (cmd->args[i] = strtok(NULL, " ")) != NULL) i++`
of `parse_client_input`: the tokens stored in `args[0]`, `args[1]`, ...
Every token takes at least one byte of the text, so `fuel` above the length of
the text never runs out.  The list is not bounded by the size of the array;
`args_writes` gives the indices of the stores. -/
def parse_args : Nat → List Nat → List (List Nat)
  | 0, _ => []
  | fuel + 1, s =>
    match strtok s with
    | none => []
    | some (token, rest) => token :: parse_args fuel rest

/-- The function `parse_client_input(input, cmd)`.  `cmd` comes from `malloc` and is not
initialised: the argument `cmd` stands for its arbitrary contents and the
fields the function does not assign keep them. -/
def parse_client_input (input : List Nat) (cmd : Command) : Command :=
  let input := input.dropWhile isspace
  match strtok input with
  | none => { cmd with type := .CMD_INVALID }
  | some (command_str, rest) =>
    let type := string_to_command command_str
    if type = .CMD_INVALID then { cmd with type := type }
    else
      match strtok rest with
      | none => { cmd with type := type, key := none }
      | some (key, rest) =>
        { type := type, key := some key, args := some (parse_args (rest.length + 1) rest) }

/-! ## command_handler.c -/

/-- The constant `DEFAULT_HASHMAP_SIZE` of command_handler.c. -/
def DEFAULT_HASHMAP_SIZE : Nat := 1024

/-- The constant `RESP_BUFF_SIZE` of command_handler.c. -/
def RESP_BUFF_SIZE : Nat := 256

/-- The store after `initialize_command_handler`. -/
def initial_map : HashMap := create_hash_map DEFAULT_HASHMAP_SIZE

/-- The string `snprintf(buf, size, ...)` leaves in `buf` when the formatted
text is `text`: at most `size - 1` bytes of it. -/
def snprintf (size : Nat) (text : List Nat) : List Nat := text.take (size - 1)

/-- The function `execute_command` with the global store passed in and out.  The response
of `GET` for an absent key is the `%p` rendering of `NULL`, `(nil)` with
glibc.  `none` only when `hash_map_get_all` is `none`. -/
def execute_command (cmd : Command) (map : HashMap) : Option (List Nat × HashMap) :=
  match cmd.type with
  | .CMD_SET =>
    match cmd.key with
    | none => some (snprintf RESP_BUFF_SIZE (cstr "MISSING_KEY" ++ [10]), map)
    | some key =>
      match cmd.args with
      | none => some (snprintf RESP_BUFF_SIZE (cstr "MISSING_ARG" ++ [10]), map)
      | some [] => some (snprintf RESP_BUFF_SIZE (cstr "MISSING_ARG" ++ [10]), map)
      | some (arg0 :: _) =>
        let r := hash_map_set map (remove_trailing_newline key) (remove_trailing_newline arg0)
        if r.1 then some (snprintf RESP_BUFF_SIZE (cstr "OK" ++ [10]), r.2)
        else some (snprintf RESP_BUFF_SIZE (cstr "FAILED" ++ [10]), r.2)
  | .CMD_GET =>
    match cmd.key with
    | none => some (snprintf RESP_BUFF_SIZE (cstr "MISSING_KEY" ++ [10]), map)
    | some key =>
      match hash_map_get map (remove_trailing_newline key) with
      | some value => some (snprintf RESP_BUFF_SIZE (value ++ [10]), map)
      | none => some (snprintf RESP_BUFF_SIZE (cstr "(nil)" ++ [10]), map)
  | .CMD_REMOVE =>
    match cmd.key with
    | none => some (snprintf RESP_BUFF_SIZE (cstr "MISSING_KEY" ++ [10]), map)
    | some key =>
      let r := hash_map_remove map (remove_trailing_newline key)
      some (snprintf RESP_BUFF_SIZE ((if r.1 then cstr "1" else cstr "0") ++ [10]), r.2)
  | .CMD_GET_ALL =>
    match hash_map_get_all map with
    | none => none
    | some all_entries =>
      let len := all_entries.length + 2
      some (snprintf len (all_entries ++ [10]), map)
  | .CMD_INVALID => some (snprintf RESP_BUFF_SIZE (cstr "INVALID_COMMAND" ++ [10]), map)

/-! ## server.c -/

/-- The constant `READ_BUFFER_SIZE` of server.c. -/
def READ_BUFFER_SIZE : Nat := 1024

/-- The read buffer of `main` behind `memset(buffer, 0, READ_BUFFER_SIZE)` and
`read(fd, buffer, READ_BUFFER_SIZE)` when the read delivers the bytes `data`
(at most `READ_BUFFER_SIZE` of them are taken): the bytes read, then the
zeros that are left of the fill. -/
def read_buffer (data : List Nat) : List Nat :=
  data.take READ_BUFFER_SIZE ++ List.replicate (READ_BUFFER_SIZE - data.length) 0

/-- The C string that starts at the first byte of an array: the bytes in front
of the first 0. -/
def c_string (buffer : List Nat) : List Nat := buffer.takeWhile (fun c => c ≠ 0)

/-- The data path of `main` for one read that delivered the bytes `data`
(`bytes_read > 0`); `cmd` is the contents of the fresh `Command`.  The
functions are handed the read buffer and work on the string that starts
there.  The result is the response written back and the store afterwards;
`none` when no byte of the buffer is 0, as `strlen` in
`remove_trailing_newline` and the scans of the parser then run past the end
of the array, and when `execute_command` is `none`. -/
def handle_read (data : List Nat) (cmd : Command) (map : HashMap) :
    Option (List Nat × HashMap) :=
  let buffer := read_buffer data
  if 0 ∈ buffer then
    execute_command (parse_client_input (remove_trailing_newline (c_string buffer)) cmd) map
  else none

/-! ## The store invariant -/

/-- Number of pairs linked in all the chains. -/
def entry_count (buckets : List (List KVPair)) : Nat := (buckets.map List.length).sum

/-- The store invariant: a positive bucket count, one chain per bucket, `size`
counts the linked pairs, every pair sits in the bucket its key hashes to and
no chain holds a key twice. -/
structure WF (map : HashMap) : Prop where
  cap_pos : 0 < map.capacity
  len : map.buckets.length = map.capacity
  size_eq : map.size = entry_count map.buckets
  placed : ∀ i, ∀ e ∈ map.buckets.getD i [], hash e.key map.capacity = i
  nodup : ∀ i, ((map.buckets.getD i []).map KVPair.key).Nodup

/-- What the loop keeps true while every text fits. -/
structure GetAllState.Good (st : GetAllState) : Prop where
  pos_eq : st.pos = st.result.length
  pos_lt : st.pos < st.buffer_size
  size_ge : 1024 ≤ st.buffer_size

/-! ## Sequences of store calls -/

/-- One call of the mutating interface of the store. -/
inductive StoreOp where
  | set (key value : List Nat)
  | remove (key : List Nat)
deriving DecidableEq, Repr

/-- The map after one call. -/
def apply_op (map : HashMap) : StoreOp → HashMap
  | .set key value => (hash_map_set map key value).2
  | .remove key => (hash_map_remove map key).2

/-- The map after a sequence of calls, first call first. -/
def run_ops (map : HashMap) (ops : List StoreOp) : HashMap := ops.foldl apply_op map

/-- Reading the calls from the latest to the earliest: the first call on `key`
decides, a set giving its value and a remove giving nothing. -/
def last_write_rev (key : List Nat) : List StoreOp → Option (List Nat)
  | [] => none
  | .set key2 value :: earlier => if key2 = key then some value else last_write_rev key earlier
  | .remove key2 :: earlier => if key2 = key then none else last_write_rev key earlier

/-- The value of the last set on `key` when no remove of `key` follows it in
`ops`, and nothing otherwise. -/
def last_write (key : List Nat) (ops : List StoreOp) : Option (List Nat) :=
  last_write_rev key ops.reverse

/-! ## Lines, tokens and keywords, as the specification speaks of them -/

/-- The space-delimited tokens of a line: the pieces between spaces, empty
pieces left out. -/
def tokens (line : List Nat) : List (List Nat) :=
  (line.splitOn 32).filter (fun t => t ≠ [])

/-- The first space-delimited token of a line, `[]` when it has none. -/
def first_token (line : List Nat) : List Nat := (tokens line).headD []

/-- Two strings are equal when ASCII letter case is ignored. -/
abbrev eq_ignore_case (a b : List Nat) : Prop := a.map toupper = b.map toupper

/-- A key or value token: not empty, no space, no newline. -/
abbrev is_token (t : List Nat) : Prop := t ≠ [] ∧ 32 ∉ t ∧ 10 ∉ t

/-- Parsing a line into a fresh `Command` and executing it on the store. -/
def process (line : List Nat) (cmd : Command) (map : HashMap) : Option (List Nat × HashMap) :=
  execute_command (parse_client_input line cmd) map

/-- The line `SET k v`. -/
def set_line (k v : List Nat) : List Nat := cstr "SET " ++ k ++ cstr " " ++ v

/-- The line `GET k`. -/
def get_line (k : List Nat) : List Nat := cstr "GET " ++ k

/-- The line `DEL k`. -/
def del_line (k : List Nat) : List Nat := cstr "DEL " ++ k

/-- The token that selects the command in `parse_client_input`: the first
space-delimited token of the line behind its leading whitespace, cut at its
first newline. -/
def keyword_token (line : List Nat) : List Nat :=
  (first_token (line.dropWhile isspace)).takeWhile (fun c => c ≠ 10)

/-! ## The snapshot, as the specification speaks of it -/

/-- The live entries in the order in which `hash_map_get_all` visits them:
bucket 0 first, within a bucket from the head of the chain. -/
def entries (map : HashMap) : List KVPair :=
  (List.range map.capacity).flatMap (fun i => map.buckets.getD i [])

/-- One item `"key":"value"` of the snapshot. -/
def item_text (entry : KVPair) : List Nat :=
  cstr "\"" ++ entry.key ++ cstr "\":\"" ++ entry.value ++ cstr "\""

/-- The snapshot of a list of entries: an opening brace, the items joined by single
commas, a closing brace. -/
def snapshot_text (es : List KVPair) : List Nat :=
  [123] ++ (cstr ",").intercalate (es.map item_text) ++ [125]

/-- The longest pair a `SET` line of at most 1023 bytes can carry:
`strlen(key) + strlen(value) <= 1018`. -/
abbrev wire_sized (entry : KVPair) : Prop := entry.key.length + entry.value.length ≤ 1018

/-! ## Sessions -/

/-- Serving reads one after the other: every read is a line and the contents
of its fresh `Command`.  The result is the list of responses, in order, and
the store at the end. -/
def serve : HashMap → List (List Nat × Command) → Option (List (List Nat) × HashMap)
  | map, [] => some ([], map)
  | map, (line, cmd) :: rest =>
    match process line cmd map with
    | none => none
    | some (response, map2) =>
      match serve map2 rest with
      | none => none
      | some (responses, map3) => some (response :: responses, map3)

/-- One `SET` command of a session: key, value and the contents of the fresh
`Command` it is parsed into. -/
structure SetCommand where
  key : List Nat
  value : List Nat
  cmd : Command

/-- The read that carries a `SET` command. -/
def SetCommand.read (s : SetCommand) : List Nat × Command := (set_line s.key s.value, s.cmd)

/-- The store call a `SET` command stands for. -/
def SetCommand.op (s : SetCommand) : StoreOp := .set s.key s.value

/-- A `SET` command a client can send: key and value are tokens and the line
fits the read buffer with its terminator. -/
abbrev SetCommand.sendable (s : SetCommand) : Prop :=
  is_token s.key ∧ is_token s.value ∧ (set_line s.key s.value).length < READ_BUFFER_SIZE

/-! ## The argument array of the parser -/

/-- The number of `char *` slots `parse_client_input` allocates for `cmd->args`:
the `10` of `malloc(sizeof(char *) * 10)`. -/
def ARGS_SLOTS : Nat := 10

/-- The indices `i` at which `parse_client_input` stores into `cmd->args[i]`, in
the order of the stores, from the loop
`while (cmd->key && (cmd->args[i] = strtok(NULL, " ")) != NULL) i++` and the
statement `cmd->args[i] = NULL` behind it: one store per token, then the store
of the `NULL` that ends the loop, then the final store at the same index.
`fuel` is as in `parse_args`. -/
def parse_args_writes : Nat → List Nat → Nat → List Nat
  | 0, _, _ => []
  | fuel + 1, s, i =>
    match strtok s with
    | none => [i, i]
    | some (_, rest) => i :: parse_args_writes fuel rest (i + 1)

/-- The indices at which `parse_client_input(input, cmd)` stores into
`cmd->args`; none when the function returns before it allocates the array. -/
def args_writes (input : List Nat) : List Nat :=
  let input := input.dropWhile isspace
  match strtok input with
  | none => []
  | some (command_str, rest) =>
    if string_to_command command_str = .CMD_INVALID then []
    else
      match strtok rest with
      | none => []
      | some (_, rest) => parse_args_writes (rest.length + 1) rest 0

/-- The line `SET k v t1 ... tn`: the line `SET k v` and behind it every
further token with one space before it. -/
def set_line_extra (k v : List Nat) (ts : List (List Nat)) : List Nat :=
  set_line k v ++ (ts.map (fun t => cstr " " ++ t)).flatten

/-! ## The states of the store of the server -/

/-- The states the store of the server can be in: the store as initialised by
`initialize_command_handler`, and the store after the data path of `main`
handled, in such a state, a read that left its string terminated inside the
read buffer and was answered. -/
inductive ServerState : HashMap → Prop
  | init : ServerState initial_map
  | read (map map2 : HashMap) (data : List Nat) (cmd : Command) (response : List Nat) :
      ServerState map →
      handle_read data cmd map = some (response, map2) → ServerState map2

/-! ## server.c: the connection counters of the event loop -/

/-- The constant `MAX_CLIENTS` of server.c. -/
def MAX_CLIENTS : Int := 10000

/-- The connection state of the event loop of `main`: the globals
`active_clients`, `total_clients_connected` and `total_queries_processed`
(C `int`s; the two totals only ever grow by one per event and are kept as
unbounded integers), and the client descriptors registered with epoll. -/
structure LoopState where
  active_clients : Int
  total_clients_connected : Int
  total_queries_processed : Int
  registered : List Nat
deriving DecidableEq, Repr

/-- What one turn of the loop `for (int i = 0; i < nfds; i++)` meets: an event
on `server_fd`, with the result of `accept` (`none` for `-1`) and whether
`epoll_ctl(EPOLL_CTL_ADD)` succeeds, or an event on a client descriptor, with
the result of `read`. -/
inductive LoopEvent where
  | accept (client_fd : Option Nat) (epoll_add_ok : Bool)
  | read (fd : Nat) (bytes_read : Int)
deriving DecidableEq, Repr

/-- One turn of the loop body of `main` on the connection state. -/
def loop_step (st : LoopState) : LoopEvent → LoopState
  | .accept client_fd epoll_add_ok =>
    if st.active_clients ≥ MAX_CLIENTS then st
    else
      match client_fd with
      | none => st
      | some fd =>
        if epoll_add_ok then
          { st with active_clients := st.active_clients + 1,
                    total_clients_connected := st.total_clients_connected + 1,
                    registered := fd :: st.registered }
        else st
  | .read fd bytes_read =>
    if bytes_read ≤ 0 then
      { st with active_clients := st.active_clients - 1, registered := st.registered.erase fd }
    else { st with total_queries_processed := st.total_queries_processed + 1 }

/-- The events the system can deliver in a state: `accept` returns a
descriptor that is not open yet, hence not registered, and epoll reports
client events only for registered descriptors. -/
def LoopEvent.possible (st : LoopState) : LoopEvent → Prop
  | .accept (some fd) _ => fd ∉ st.registered
  | .accept none _ => True
  | .read fd _ => fd ∈ st.registered

instance LoopEvent.decidablePossible (st : LoopState) :
    (ev : LoopEvent) → Decidable (ev.possible st)
  | .accept (some fd) _ => inferInstanceAs (Decidable (fd ∉ st.registered))
  | .accept none _ => isTrue trivial
  | .read fd _ => inferInstanceAs (Decidable (fd ∈ st.registered))

/-- The connection state when the loop is entered. -/
def loop_start : LoopState :=
  { active_clients := 0, total_clients_connected := 0, total_queries_processed := 0,
    registered := [] }

/-- The connection states the loop can reach. -/
inductive LoopReachable : LoopState → Prop
  | start : LoopReachable loop_start
  | step (st : LoopState) (ev : LoopEvent) :
      LoopReachable st → ev.possible st → LoopReachable (loop_step st ev)

/-- The connection state after `n` clients with the descriptors `0`, ...,
`n - 1` were accepted in turn and none was closed. -/
def loop_with_clients (n : Nat) : LoopState :=
  { active_clients := n, total_clients_connected := n, total_queries_processed := 0,
    registered := (List.range n).reverse }

/-! ## The turns of the rendering loop -/

/-- The state in which `hash_map_get_all` enters its loops: a buffer of
`BUFFER_SIZE` bytes with the opening brace stored at index 0, `pos = 1`. -/
def get_all_start : GetAllState :=
  { buffer_size := BUFFER_SIZE, pos := 1, result := [123], has_entries := false }

/-- The size of the buffer of `hash_map_get_all` behind the step
`if (required_size >= buffer_size) buffer_size *= 2` for one pair. -/
def buffer_size_after_doubling (st : GetAllState) (entry : KVPair) : Nat :=
  if st.pos + entry.key.length + entry.value.length + 6 ≥ st.buffer_size then st.buffer_size * 2
  else st.buffer_size

/-- The turns of the rendering loop of `hash_map_get_all` over a list of
pairs: every pair the loop meets, with the state in which it meets it.  The
list ends at a pair whose text is cut. -/
def get_all_steps : GetAllState → List KVPair → List (GetAllState × KVPair)
  | _, [] => []
  | st, entry :: next =>
    (st, entry) ::
      (match get_all_entry st entry with
        | some st2 => get_all_steps st2 next
        | none => [])

/-! ## Lines with runs of spaces -/

/-- The tokens of a list, each followed by its own run of spaces: `p.1` is the
token and `p.2` the number of spaces behind it. -/
def spaced (pairs : List (List Nat × Nat)) : List Nat :=
  pairs.flatMap (fun p => p.1 ++ List.replicate p.2 32)

/-- The tokens of a list joined by single spaces. -/
def single_spaced (toks : List (List Nat)) : List Nat := (cstr " ").intercalate toks

/-! ## The order of insertion -/

/-- An entry with its value replaced when its key is `key`, else unchanged. -/
def overwrite (key value : List Nat) (entry : KVPair) : KVPair :=
  if entry.key = key then { entry with value := value } else entry

/-- The keys that are in the map, oldest insertion first, followed through one
call: a set of a key that is in the map keeps the order, a set of a key that
is not puts it last (newest), a remove takes the key out. -/
def track_key (live : List (List Nat)) : StoreOp → List (List Nat)
  | .set key _ => if key ∈ live then live else live ++ [key]
  | .remove key => live.filter (fun k => k ≠ key)

/-- The keys that are in the map after the calls `ops` on an empty map, in the
order of the insertions that put them there, oldest first. -/
def live_keys (ops : List StoreOp) : List (List Nat) := ops.foldl track_key []

/-! ## Lemmas on chains -/

theorem hash_lt (key : List Nat) (capacity : Nat) (h : 0 < capacity) :
    hash key capacity < capacity :=
  lt_of_le_of_lt (Nat.mod_le _ _) (Nat.mod_lt _ h)

theorem chain_get_eq_none_iff (c : List KVPair) (k : List Nat) :
    chain_get c k = none ↔ k ∉ c.map KVPair.key := by
  induction c with
  | nil => simp [chain_get]
  | cons e c ih =>
    by_cases h : e.key = k
    · simp [chain_get, h]
    · have h2 : ¬ k = e.key := fun h3 => h h3.symm
      simp [chain_get, h, h2, ih]

theorem chain_set_eq_none_iff (c : List KVPair) (k v : List Nat) :
    chain_set c k v = none ↔ chain_get c k = none := by
  induction c with
  | nil => simp [chain_set, chain_get]
  | cons e c ih =>
    by_cases h : e.key = k
    · simp [chain_set, chain_get, h]
    · simp [chain_set, chain_get, h, ih]

theorem chain_set_some (c c2 : List KVPair) (k v : List Nat) (h : chain_set c k v = some c2) :
    c2.length = c.length ∧ c2.map KVPair.key = c.map KVPair.key ∧ chain_get c2 k = some v ∧
      (∀ k2, k2 ≠ k → chain_get c2 k2 = chain_get c k2) ∧ chain_get c k ≠ none := by
  induction c generalizing c2 with
  | nil => simp [chain_set] at h
  | cons e c ih =>
    by_cases hk : e.key = k
    · simp [chain_set, hk] at h
      subst h
      refine ⟨by simp, by simp [hk], by simp [chain_get, hk], ?_, by simp [chain_get, hk]⟩
      intro k2 hk2
      have : ¬ k = k2 := fun h3 => hk2 h3.symm
      simp [chain_get, hk, this]
    · simp only [chain_set, hk, if_false, Option.map_eq_some'] at h
      obtain ⟨rest, hrest, rfl⟩ := h
      obtain ⟨h1, h2, h3, h4, h5⟩ := ih rest hrest
      refine ⟨by simp [h1], by simp [h2], by simp [chain_get, hk, h3], ?_, by simp [chain_get, hk, h5]⟩
      intro k2 hk2
      by_cases hk3 : e.key = k2
      · simp [chain_get, hk3]
      · simp [chain_get, hk3, h4 k2 hk2]

theorem chain_remove_eq_none_iff (c : List KVPair) (k : List Nat) :
    chain_remove c k = none ↔ chain_get c k = none := by
  induction c with
  | nil => simp [chain_remove, chain_get]
  | cons e c ih =>
    by_cases h : e.key = k
    · simp [chain_remove, chain_get, h]
    · simp [chain_remove, chain_get, h, ih]

theorem chain_remove_some (c c2 : List KVPair) (k : List Nat) (h : chain_remove c k = some c2) :
    c2.length + 1 = c.length ∧ (c2.map KVPair.key).Sublist (c.map KVPair.key) ∧
      (∀ e ∈ c2, e ∈ c) ∧
      ((c.map KVPair.key).Nodup → chain_get c2 k = none) ∧
      (∀ k2, k2 ≠ k → chain_get c2 k2 = chain_get c k2) := by
  induction c generalizing c2 with
  | nil => simp [chain_remove] at h
  | cons e c ih =>
    by_cases hk : e.key = k
    · simp [chain_remove, hk] at h
      subst h
      refine ⟨rfl, by simp, fun e he => List.mem_cons_of_mem _ he, ?_, ?_⟩
      · intro hnd
        rw [chain_get_eq_none_iff]
        simp only [List.map_cons, List.nodup_cons] at hnd
        rw [← hk]; exact hnd.1
      · intro k2 hk2
        have : ¬ k = k2 := fun h3 => hk2 h3.symm
        simp [chain_get, hk, this]
    · simp only [chain_remove, hk, if_false, Option.map_eq_some'] at h
      obtain ⟨rest, hrest, rfl⟩ := h
      obtain ⟨h1, h2, h3, h4, h5⟩ := ih rest hrest
      refine ⟨by simp [h1], by simpa using h2.cons₂ e.key, ?_, ?_, ?_⟩
      · intro x hx
        rcases List.mem_cons.1 hx with rfl | hx
        · exact List.mem_cons_self _ _
        · exact List.mem_cons_of_mem _ (h3 x hx)
      · intro hnd
        simp only [List.map_cons, List.nodup_cons] at hnd
        simp [chain_get, hk, h4 hnd.2]
      · intro k2 hk2
        by_cases hk3 : e.key = k2
        · simp [chain_get, hk3]
        · simp [chain_get, hk3, h5 k2 hk2]

/-! ## Lemmas on the bucket array -/

theorem getD_set_self (l : List (List KVPair)) (i : Nat) (c : List KVPair) (h : i < l.length) :
    (l.set i c).getD i [] = c := by
  simp [List.getD_eq_getElem?_getD, List.getElem?_set, h]

theorem getD_set_ne (l : List (List KVPair)) (i j : Nat) (c : List KVPair) (h : i ≠ j) :
    (l.set i c).getD j [] = l.getD j [] := by
  simp [List.getD_eq_getElem?_getD, List.getElem?_set, h]

theorem entry_count_set (l : List (List KVPair)) (i : Nat) (c : List KVPair) (h : i < l.length) :
    entry_count (l.set i c) + (l.getD i []).length = entry_count l + c.length := by
  induction l generalizing i with
  | nil => simp at h
  | cons a l ih =>
    cases i with
    | zero => simp [entry_count]; omega
    | succ i =>
      have := ih i (by simpa using h)
      simp [entry_count] at this ⊢
      omega

theorem entry_count_pos_of_mem (l : List (List KVPair)) (i : Nat) (h : l.getD i [] ≠ []) :
    0 < entry_count l := by
  induction l generalizing i with
  | nil => simp at h
  | cons a l ih =>
    cases i with
    | zero =>
      simp at h
      have : 0 < a.length := List.length_pos.2 h
      simp [entry_count]; omega
    | succ i =>
      have := ih i (by simpa using h)
      simp [entry_count] at this ⊢
      omega

/-! ## The two outcomes of each operation -/

theorem hash_map_set_of_some (map : HashMap) (key value : List Nat) (chain : List KVPair)
    (h : chain_set (map.buckets.getD (hash key map.capacity) []) key value = some chain) :
    hash_map_set map key value =
      (true, { map with buckets := map.buckets.set (hash key map.capacity) chain }) := by
  simp only [hash_map_set, h]

theorem hash_map_set_of_none (map : HashMap) (key value : List Nat)
    (h : chain_set (map.buckets.getD (hash key map.capacity) []) key value = none) :
    hash_map_set map key value =
      (true, { map with
        buckets := map.buckets.set (hash key map.capacity)
          ({ key := key, value := value } :: map.buckets.getD (hash key map.capacity) []),
        size := map.size + 1 }) := by
  simp only [hash_map_set, h]

theorem hash_map_remove_of_some (map : HashMap) (key : List Nat) (chain : List KVPair)
    (h : chain_remove (map.buckets.getD (hash key map.capacity) []) key = some chain) :
    hash_map_remove map key =
      (true, { map with buckets := map.buckets.set (hash key map.capacity) chain,
                        size := map.size - 1 }) := by
  simp only [hash_map_remove, h]

theorem hash_map_remove_of_none (map : HashMap) (key : List Nat)
    (h : chain_remove (map.buckets.getD (hash key map.capacity) []) key = none) :
    hash_map_remove map key = (false, map) := by
  simp only [hash_map_remove, h]

/-! ## The invariant is kept by every operation -/

theorem WF_create (capacity : Nat) (h : 0 < capacity) : WF (create_hash_map capacity) := by
  refine ⟨h, by simp [create_hash_map], ?_, ?_, ?_⟩
  · simp [create_hash_map, entry_count]
  · intro i e he
    simp [create_hash_map, List.getD_eq_getElem?_getD, List.getElem?_replicate] at he
    split at he <;> simp at he
  · intro i
    simp [create_hash_map, List.getD_eq_getElem?_getD, List.getElem?_replicate]
    split <;> simp

theorem WF_set (map : HashMap) (key value : List Nat) (h : WF map) :
    WF (hash_map_set map key value).2 := by
  have hi : hash key map.capacity < map.buckets.length := by
    rw [h.len]; exact hash_lt _ _ h.cap_pos
  cases hc : chain_set (map.buckets.getD (hash key map.capacity) []) key value with
  | some chain =>
    rw [hash_map_set_of_some _ _ _ _ hc]
    obtain ⟨h1, h2, -, -, -⟩ := chain_set_some _ _ _ _ hc
    refine ⟨h.cap_pos, by simpa using h.len, ?_, ?_, ?_⟩
    · have := entry_count_set map.buckets _ chain hi
      simp only []
      rw [h.size_eq]; omega
    · intro i e he
      simp only [] at he ⊢
      by_cases hii : hash key map.capacity = i
      · subst hii
        rw [getD_set_self _ _ _ hi] at he
        have : e.key ∈ chain.map KVPair.key := List.mem_map_of_mem _ he
        rw [h2] at this
        obtain ⟨e2, he2, hk⟩ := List.mem_map.1 this
        rw [← hk]; exact h.placed _ e2 he2
      · rw [getD_set_ne _ _ _ _ hii] at he
        exact h.placed i e he
    · intro i
      simp only []
      by_cases hii : hash key map.capacity = i
      · subst hii
        rw [getD_set_self _ _ _ hi, h2]; exact h.nodup _
      · rw [getD_set_ne _ _ _ _ hii]; exact h.nodup i
  | none =>
    rw [hash_map_set_of_none _ _ _ hc]
    have hnone := (chain_get_eq_none_iff _ _).1 ((chain_set_eq_none_iff _ _ _).1 hc)
    refine ⟨h.cap_pos, by simpa using h.len, ?_, ?_, ?_⟩
    · have := entry_count_set map.buckets _
        (({ key := key, value := value } : KVPair) :: map.buckets.getD (hash key map.capacity) []) hi
      simp only [List.length_cons] at this ⊢
      rw [h.size_eq]; omega
    · intro i e he
      simp only [] at he ⊢
      by_cases hii : hash key map.capacity = i
      · subst hii
        rw [getD_set_self _ _ _ hi] at he
        rcases List.mem_cons.1 he with rfl | he
        · rfl
        · exact h.placed _ e he
      · rw [getD_set_ne _ _ _ _ hii] at he
        exact h.placed i e he
    · intro i
      simp only []
      by_cases hii : hash key map.capacity = i
      · subst hii
        rw [getD_set_self _ _ _ hi]
        simp only [List.map_cons, List.nodup_cons]
        exact ⟨hnone, h.nodup _⟩
      · rw [getD_set_ne _ _ _ _ hii]; exact h.nodup i

theorem WF_remove (map : HashMap) (key : List Nat) (h : WF map) :
    WF (hash_map_remove map key).2 := by
  have hi : hash key map.capacity < map.buckets.length := by
    rw [h.len]; exact hash_lt _ _ h.cap_pos
  cases hc : chain_remove (map.buckets.getD (hash key map.capacity) []) key with
  | none => rw [hash_map_remove_of_none _ _ hc]; exact h
  | some chain =>
    rw [hash_map_remove_of_some _ _ _ hc]
    obtain ⟨h1, h2, h3, -, -⟩ := chain_remove_some _ _ _ hc
    refine ⟨h.cap_pos, by simpa using h.len, ?_, ?_, ?_⟩
    · have := entry_count_set map.buckets _ chain hi
      simp only []
      rw [h.size_eq]; omega
    · intro i e he
      simp only [] at he ⊢
      by_cases hii : hash key map.capacity = i
      · subst hii
        rw [getD_set_self _ _ _ hi] at he
        exact h.placed _ e (h3 e he)
      · rw [getD_set_ne _ _ _ _ hii] at he
        exact h.placed i e he
    · intro i
      simp only []
      by_cases hii : hash key map.capacity = i
      · subst hii
        rw [getD_set_self _ _ _ hi]; exact (h.nodup _).sublist h2
      · rw [getD_set_ne _ _ _ _ hii]; exact h.nodup i

theorem Reachable.wf {map : HashMap} (h : Reachable map) : WF map := by
  induction h with
  | create capacity h => exact WF_create capacity h
  | set map key value _ ih => exact WF_set map key value ih
  | remove map key _ ih => exact WF_remove map key ih

/-! ## Lookup after an operation -/

/-- Under the invariant the `size == 0` shortcut of `hash_map_get` agrees with
the search of the bucket. -/
theorem hash_map_get_eq_chain_get (map : HashMap) (key : List Nat) (h : WF map) :
    hash_map_get map key = chain_get (map.buckets.getD (hash key map.capacity) []) key := by
  unfold hash_map_get
  split
  · next h0 =>
    by_cases hc : map.buckets.getD (hash key map.capacity) [] = []
    · rw [hc]; rfl
    · have := entry_count_pos_of_mem _ _ hc
      have := h.size_eq
      omega
  · rfl

theorem hash_map_set_fst (map : HashMap) (key value : List Nat) :
    (hash_map_set map key value).1 = true := by
  cases hc : chain_set (map.buckets.getD (hash key map.capacity) []) key value with
  | some chain => rw [hash_map_set_of_some _ _ _ _ hc]
  | none => rw [hash_map_set_of_none _ _ _ hc]

theorem hash_map_set_capacity (map : HashMap) (key value : List Nat) :
    (hash_map_set map key value).2.capacity = map.capacity := by
  cases hc : chain_set (map.buckets.getD (hash key map.capacity) []) key value with
  | some chain => rw [hash_map_set_of_some _ _ _ _ hc]
  | none => rw [hash_map_set_of_none _ _ _ hc]

theorem hash_map_remove_capacity (map : HashMap) (key : List Nat) :
    (hash_map_remove map key).2.capacity = map.capacity := by
  cases hc : chain_remove (map.buckets.getD (hash key map.capacity) []) key with
  | some chain => rw [hash_map_remove_of_some _ _ _ hc]
  | none => rw [hash_map_remove_of_none _ _ hc]

/-- The chain of bucket `i` after `hash_map_set`. -/
theorem hash_map_set_bucket (map : HashMap) (key value : List Nat) (h : WF map) (i : Nat) :
    (hash_map_set map key value).2.buckets.getD i [] =
      if i = hash key map.capacity then
        (match chain_set (map.buckets.getD i []) key value with
          | some chain => chain
          | none => { key := key, value := value } :: map.buckets.getD i [])
      else map.buckets.getD i [] := by
  have hi : hash key map.capacity < map.buckets.length := by
    rw [h.len]; exact hash_lt _ _ h.cap_pos
  by_cases hii : i = hash key map.capacity
  · subst hii
    rw [if_pos rfl]
    cases hc : chain_set (map.buckets.getD (hash key map.capacity) []) key value with
    | some chain => rw [hash_map_set_of_some _ _ _ _ hc]; exact getD_set_self _ _ _ hi
    | none => rw [hash_map_set_of_none _ _ _ hc]; exact getD_set_self _ _ _ hi
  · rw [if_neg hii]
    cases hc : chain_set (map.buckets.getD (hash key map.capacity) []) key value with
    | some chain =>
      rw [hash_map_set_of_some _ _ _ _ hc]; exact getD_set_ne _ _ _ _ (Ne.symm hii)
    | none => rw [hash_map_set_of_none _ _ _ hc]; exact getD_set_ne _ _ _ _ (Ne.symm hii)

/-- The chain of bucket `i` after `hash_map_remove`. -/
theorem hash_map_remove_bucket (map : HashMap) (key : List Nat) (h : WF map) (i : Nat) :
    (hash_map_remove map key).2.buckets.getD i [] =
      if i = hash key map.capacity then
        (match chain_remove (map.buckets.getD i []) key with
          | some chain => chain
          | none => map.buckets.getD i [])
      else map.buckets.getD i [] := by
  have hi : hash key map.capacity < map.buckets.length := by
    rw [h.len]; exact hash_lt _ _ h.cap_pos
  by_cases hii : i = hash key map.capacity
  · subst hii
    rw [if_pos rfl]
    cases hc : chain_remove (map.buckets.getD (hash key map.capacity) []) key with
    | some chain => rw [hash_map_remove_of_some _ _ _ hc]; exact getD_set_self _ _ _ hi
    | none => rw [hash_map_remove_of_none _ _ hc]
  · rw [if_neg hii]
    cases hc : chain_remove (map.buckets.getD (hash key map.capacity) []) key with
    | some chain =>
      rw [hash_map_remove_of_some _ _ _ hc]; exact getD_set_ne _ _ _ _ (Ne.symm hii)
    | none => rw [hash_map_remove_of_none _ _ hc]

theorem hash_map_get_set_self (map : HashMap) (key value : List Nat) (h : WF map) :
    hash_map_get (hash_map_set map key value).2 key = some value := by
  rw [hash_map_get_eq_chain_get _ _ (WF_set _ _ _ h), hash_map_set_capacity,
    hash_map_set_bucket _ _ _ h, if_pos rfl]
  cases hc : chain_set (map.buckets.getD (hash key map.capacity) []) key value with
  | some chain => exact (chain_set_some _ _ _ _ hc).2.2.1
  | none => simp [chain_get]

theorem hash_map_get_set_ne (map : HashMap) (key value key2 : List Nat) (h : WF map)
    (hne : key2 ≠ key) :
    hash_map_get (hash_map_set map key value).2 key2 = hash_map_get map key2 := by
  rw [hash_map_get_eq_chain_get _ _ (WF_set _ _ _ h), hash_map_get_eq_chain_get _ _ h,
    hash_map_set_capacity, hash_map_set_bucket _ _ _ h]
  split
  · next hi =>
    rw [hi]
    cases hc : chain_set (map.buckets.getD (hash key map.capacity) []) key value with
    | some chain => exact (chain_set_some _ _ _ _ hc).2.2.2.1 key2 hne
    | none => simp [chain_get, Ne.symm hne]
  · rfl

theorem hash_map_get_remove_self (map : HashMap) (key : List Nat) (h : WF map) :
    hash_map_get (hash_map_remove map key).2 key = none := by
  rw [hash_map_get_eq_chain_get _ _ (WF_remove _ _ h), hash_map_remove_capacity,
    hash_map_remove_bucket _ _ h, if_pos rfl]
  cases hc : chain_remove (map.buckets.getD (hash key map.capacity) []) key with
  | some chain => exact (chain_remove_some _ _ _ hc).2.2.2.1 (h.nodup _)
  | none => exact (chain_remove_eq_none_iff _ _).1 hc

theorem hash_map_get_remove_ne (map : HashMap) (key key2 : List Nat) (h : WF map)
    (hne : key2 ≠ key) :
    hash_map_get (hash_map_remove map key).2 key2 = hash_map_get map key2 := by
  rw [hash_map_get_eq_chain_get _ _ (WF_remove _ _ h), hash_map_get_eq_chain_get _ _ h,
    hash_map_remove_capacity, hash_map_remove_bucket _ _ h]
  split
  · next hi =>
    rw [hi]
    cases hc : chain_remove (map.buckets.getD (hash key map.capacity) []) key with
    | some chain => exact (chain_remove_some _ _ _ hc).2.2.2.2 key2 hne
    | none => rfl
  · rfl

theorem hash_map_remove_fst (map : HashMap) (key : List Nat) (h : WF map) :
    (hash_map_remove map key).1 = true ↔ hash_map_get map key ≠ none := by
  rw [hash_map_get_eq_chain_get _ _ h]
  cases hc : chain_remove (map.buckets.getD (hash key map.capacity) []) key with
  | some chain =>
    rw [hash_map_remove_of_some _ _ _ hc]
    have : chain_get (map.buckets.getD (hash key map.capacity) []) key ≠ none := by
      intro h2
      rw [← chain_remove_eq_none_iff, hc] at h2
      exact Option.some_ne_none _ h2
    exact ⟨fun _ => this, fun _ => rfl⟩
  | none =>
    rw [hash_map_remove_of_none _ _ hc]
    exact ⟨fun h2 => by simp at h2, fun h2 => absurd ((chain_remove_eq_none_iff _ _).1 hc) h2⟩

theorem hash_map_remove_false (map : HashMap) (key : List Nat)
    (hf : (hash_map_remove map key).1 = false) : (hash_map_remove map key).2 = map := by
  cases hc : chain_remove (map.buckets.getD (hash key map.capacity) []) key with
  | some chain => rw [hash_map_remove_of_some _ _ _ hc] at hf; simp at hf
  | none => rw [hash_map_remove_of_none _ _ hc]

theorem hash_map_set_size (map : HashMap) (key value : List Nat) (h : WF map) :
    (hash_map_set map key value).2.size =
      if hash_map_get map key = none then map.size + 1 else map.size := by
  rw [hash_map_get_eq_chain_get _ _ h]
  cases hc : chain_set (map.buckets.getD (hash key map.capacity) []) key value with
  | some chain =>
    rw [hash_map_set_of_some _ _ _ _ hc, if_neg (chain_set_some _ _ _ _ hc).2.2.2.2]
  | none =>
    rw [hash_map_set_of_none _ _ _ hc, if_pos ((chain_set_eq_none_iff _ _ _).1 hc)]

theorem run_ops_append (map : HashMap) (ops : List StoreOp) (op : StoreOp) :
    run_ops map (ops ++ [op]) = apply_op (run_ops map ops) op := by
  simp [run_ops, List.foldl_append]

theorem Reachable.apply_op {map : HashMap} (h : Reachable map) (op : StoreOp) :
    Reachable (CEpollion.apply_op map op) := by
  cases op with
  | set key value => exact Reachable.set map key value h
  | remove key => exact Reachable.remove map key h

theorem Reachable.run_ops {map : HashMap} (h : Reachable map) (ops : List StoreOp) :
    Reachable (CEpollion.run_ops map ops) := by
  induction ops generalizing map with
  | nil => exact h
  | cons op ops ih => exact ih (h.apply_op op)

theorem hash_map_get_create (capacity : Nat) (key : List Nat) :
    hash_map_get (create_hash_map capacity) key = none := by
  simp [hash_map_get, create_hash_map]

theorem hash_map_get_run_ops (capacity : Nat) (hc : 0 < capacity) (ops : List StoreOp)
    (key : List Nat) :
    hash_map_get (run_ops (create_hash_map capacity) ops) key = last_write key ops := by
  induction ops using List.reverseRecOn with
  | nil => simp [run_ops, last_write, last_write_rev, hash_map_get_create]
  | append_singleton ops op ih =>
    have hwf : WF (run_ops (create_hash_map capacity) ops) :=
      ((Reachable.create capacity hc).run_ops ops).wf
    rw [run_ops_append]
    unfold last_write at ih ⊢
    rw [List.reverse_append, List.reverse_singleton, List.singleton_append]
    cases op with
    | set key2 value =>
      by_cases hk : key2 = key
      · subst hk
        simp only [apply_op, last_write_rev, if_true]
        exact hash_map_get_set_self _ _ _ hwf
      · simp only [apply_op, last_write_rev, hk, if_false]
        rw [hash_map_get_set_ne _ _ _ _ hwf (Ne.symm hk)]; exact ih
    | remove key2 =>
      by_cases hk : key2 = key
      · subst hk
        simp only [apply_op, last_write_rev, if_true]
        exact hash_map_get_remove_self _ _ hwf
      · simp only [apply_op, last_write_rev, hk, if_false]
        rw [hash_map_get_remove_ne _ _ _ hwf (Ne.symm hk)]; exact ih

/-! ## Tokens and `strtok` -/

theorem tokens_nil : tokens [] = [] := by
  simp [tokens, List.splitOn, List.splitOnP_nil]

theorem tokens_space (s : List Nat) : tokens (32 :: s) = tokens s := by
  simp [tokens, List.splitOn, List.splitOnP_cons]

theorem tokens_dropWhile (s : List Nat) : tokens (s.dropWhile (fun c => c = 32)) = tokens s := by
  induction s with
  | nil => rfl
  | cons c s ih =>
    by_cases h : c = 32
    · subst h; simp only [List.dropWhile_cons, decide_True, if_true]; rw [ih, tokens_space]
    · simp [List.dropWhile_cons, h]

theorem tokens_word (tok : List Nat) (h1 : tok ≠ []) (h2 : 32 ∉ tok) : tokens tok = [tok] := by
  have : tok.splitOnP (fun x => x == 32) = [tok] := by
    apply List.splitOnP_eq_single
    intro x hx; simp; rintro rfl; exact h2 hx
  simp [tokens, List.splitOn, this, h1]

theorem tokens_word_space (tok rest : List Nat) (h1 : tok ≠ []) (h2 : 32 ∉ tok) :
    tokens (tok ++ 32 :: rest) = tok :: tokens rest := by
  have : (tok ++ 32 :: rest).splitOnP (fun x => x == 32) = tok :: rest.splitOnP (fun x => x == 32) := by
    apply List.splitOnP_first
    · intro x hx; simp; rintro rfl; exact h2 hx
    · simp
  simp [tokens, List.splitOn, this, h1]

theorem strtok_tokens (s : List Nat) :
    tokens s = match strtok s with
      | none => []
      | some (tok, rest) => tok :: tokens rest := by
  rw [← tokens_dropWhile]
  unfold strtok
  simp only []
  by_cases h : s.dropWhile (fun c => c = 32) = []
  · simp [h, tokens_nil]
  · simp only [h, if_false]
    generalize hst : s.dropWhile (fun c => decide (c = 32)) = start at h
    have hhead : ∀ c ∈ start.head?, c ≠ 32 := by
      intro c hc
      have := List.head?_dropWhile_not (fun c => decide (c = 32)) s
      rw [hst] at this
      rw [Option.mem_def] at hc
      rw [hc] at this
      simpa using this
    have hsplit := List.takeWhile_append_dropWhile (fun c => decide (c ≠ 32)) start
    have htok1 : start.takeWhile (fun c => decide (c ≠ 32)) ≠ [] := by
      cases start with
      | nil => exact absurd rfl h
      | cons a t =>
        have : a ≠ 32 := hhead a (by simp)
        simp [List.takeWhile_cons, this]
    have htok2 : 32 ∉ start.takeWhile (fun c => decide (c ≠ 32)) := by
      intro hm
      have := List.mem_takeWhile_imp hm
      simp at this
    cases hd : start.dropWhile (fun c => decide (c ≠ 32)) with
    | nil =>
      rw [hd, List.append_nil] at hsplit
      simp only [List.drop_nil, tokens_nil]
      rw [hsplit]
      exact tokens_word start (by rw [← hsplit]; exact htok1) (by rw [← hsplit]; exact htok2)
    | cons a rest =>
      have ha : a = 32 := by
        have := List.head?_dropWhile_not (fun c => decide (c ≠ 32)) start
        rw [hd] at this
        simpa using this
      subst ha
      rw [hd] at hsplit
      simp only [List.drop_succ_cons, List.drop_zero]
      conv_lhs => rw [← hsplit]
      exact tokens_word_space _ rest htok1 htok2

theorem strtok_rest_length (s tok rest : List Nat) (h : strtok s = some (tok, rest)) :
    rest.length < s.length := by
  unfold strtok at h
  simp only [] at h
  split at h
  · simp at h
  · next hne =>
    simp only [Option.some.injEq, Prod.mk.injEq] at h
    obtain ⟨-, rfl⟩ := h
    generalize hst : s.dropWhile (fun c => decide (c = 32)) = start at hne
    have h1 : start.length ≤ s.length := by
      rw [← hst]; exact (List.dropWhile_sublist _).length_le
    have hhead : ∀ c ∈ start.head?, c ≠ 32 := by
      intro c hc
      have := List.head?_dropWhile_not (fun c => decide (c = 32)) s
      rw [hst] at this
      rw [Option.mem_def] at hc
      rw [hc] at this
      simpa using this
    cases start with
    | nil => exact absurd rfl hne
    | cons a t =>
      have ha : a ≠ 32 := hhead a (by simp)
      have h2 : ((a :: t).dropWhile (fun c => decide (c ≠ 32))).length ≤ t.length := by
        simp only [List.dropWhile_cons, ha, ne_eq, not_false_eq_true, decide_True, if_true]
        exact (List.dropWhile_sublist _).length_le
      simp only [List.length_drop, List.length_cons] at h1 ⊢
      omega

theorem parse_args_eq_tokens (fuel : Nat) (s : List Nat) (h : s.length < fuel) :
    parse_args fuel s = tokens s := by
  induction fuel generalizing s with
  | zero => omega
  | succ fuel ih =>
    rw [strtok_tokens s]
    unfold parse_args
    cases hs : strtok s with
    | none => rfl
    | some p =>
      obtain ⟨tok, rest⟩ := p
      have := strtok_rest_length s tok rest hs
      simp only []
      rw [ih rest (by omega)]

/-- The result of `parse_client_input` in terms of the tokens of the line behind its leading
whitespace. -/
theorem parse_client_input_eq (input : List Nat) (cmd : Command) :
    parse_client_input input cmd =
      match tokens (input.dropWhile isspace) with
      | [] => { cmd with type := .CMD_INVALID }
      | command_str :: rest =>
        if string_to_command command_str = .CMD_INVALID then { cmd with type := .CMD_INVALID }
        else
          match rest with
          | [] => { cmd with type := string_to_command command_str, key := none }
          | key :: args =>
            { type := string_to_command command_str, key := some key, args := some args } := by
  unfold parse_client_input
  simp only []
  rw [strtok_tokens (input.dropWhile isspace)]
  cases h1 : strtok (input.dropWhile isspace) with
  | none => rfl
  | some p =>
    obtain ⟨command_str, rest⟩ := p
    simp only []
    by_cases ht : string_to_command command_str = .CMD_INVALID
    · simp only [ht, if_true]
    · simp only [ht, if_false]
      rw [strtok_tokens rest]
      cases h2 : strtok rest with
      | none => rfl
      | some q =>
        obtain ⟨key, rest2⟩ := q
        simp only []
        rw [parse_args_eq_tokens _ _ (Nat.lt_succ_self _)]

/-! ## Keyword selection -/

theorem command_str_loop_eq (n : Nat) (s : List Nat) :
    command_str_loop n s = ((s.takeWhile (fun c => c ≠ 10)).take n).map toupper := by
  induction n generalizing s with
  | zero => simp [command_str_loop]
  | succ n ih =>
    cases s with
    | nil => simp [command_str_loop]
    | cons c s =>
      by_cases hc : c = 10
      · simp [command_str_loop, hc]
      · simp [command_str_loop, hc, ih, List.takeWhile_cons]

theorem take_map_toupper_eq_iff (n : Nat) (l kw : List Nat) (h : kw.length < n) :
    (l.take n).map toupper = kw ↔ l.map toupper = kw := by
  by_cases hl : l.length ≤ n
  · rw [List.take_of_length_le hl]
  · constructor
    · intro h2
      have := congrArg List.length h2
      simp at this
      omega
    · intro h2
      have := congrArg List.length h2
      simp at this
      omega

theorem string_to_command_iff (str : List Nat) :
    (string_to_command str = .CMD_SET ↔
      eq_ignore_case (str.takeWhile (fun c => c ≠ 10)) (cstr "SET")) ∧
    (string_to_command str = .CMD_GET ↔
      eq_ignore_case (str.takeWhile (fun c => c ≠ 10)) (cstr "GET")) ∧
    (string_to_command str = .CMD_REMOVE ↔
      eq_ignore_case (str.takeWhile (fun c => c ≠ 10)) (cstr "DEL")) ∧
    (string_to_command str = .CMD_GET_ALL ↔
      eq_ignore_case (str.takeWhile (fun c => c ≠ 10)) (cstr "GETALL")) := by
  have e1 : (cstr "SET").map toupper = cstr "SET" := by decide
  have e2 : (cstr "GET").map toupper = cstr "GET" := by decide
  have e3 : (cstr "DEL").map toupper = cstr "DEL" := by decide
  have e4 : (cstr "GETALL").map toupper = cstr "GETALL" := by decide
  have d12 : cstr "SET" ≠ cstr "GET" := by decide
  have d13 : cstr "SET" ≠ cstr "DEL" := by decide
  have d14 : cstr "SET" ≠ cstr "GETALL" := by decide
  have d23 : cstr "GET" ≠ cstr "DEL" := by decide
  have d24 : cstr "GET" ≠ cstr "GETALL" := by decide
  have d34 : cstr "DEL" ≠ cstr "GETALL" := by decide
  unfold eq_ignore_case
  rw [e1, e2, e3, e4]
  rw [← take_map_toupper_eq_iff 15 _ (cstr "SET") (by decide),
    ← take_map_toupper_eq_iff 15 _ (cstr "GET") (by decide),
    ← take_map_toupper_eq_iff 15 _ (cstr "DEL") (by decide),
    ← take_map_toupper_eq_iff 15 _ (cstr "GETALL") (by decide), ← command_str_loop_eq]
  unfold string_to_command
  simp only [show COMMAND_MAX_SIZE - 1 = 15 from rfl]
  generalize command_str_loop 15 str = command_str
  refine ⟨?_, ?_, ?_, ?_⟩
  · split_ifs <;> simp_all
  · split_ifs <;> simp_all
  · split_ifs <;> simp_all
  · split_ifs <;> simp_all

theorem parse_client_input_type (input : List Nat) (cmd : Command) :
    (parse_client_input input cmd).type =
      string_to_command (first_token (input.dropWhile isspace)) := by
  rw [parse_client_input_eq]
  unfold first_token
  cases tokens (input.dropWhile isspace) with
  | nil => simp only [List.headD_nil]; decide
  | cons t rest =>
    simp only [List.headD_cons]
    by_cases ht : string_to_command t = .CMD_INVALID
    · simp only [ht, if_true]
    · simp only [ht, if_false]
      cases rest <;> rfl

/-! ## Executing the four commands -/

theorem remove_trailing_newline_of_not_mem (t : List Nat) (h : 10 ∉ t) :
    remove_trailing_newline t = t := by
  unfold remove_trailing_newline
  split
  · next h2 => exact absurd (List.mem_of_getLast?_eq_some h2.2) h
  · rfl

theorem tokens_set_line (k v : List Nat) (hk : is_token k) (hv : is_token v) :
    tokens ((set_line k v).dropWhile isspace) = [cstr "SET", k, v] := by
  have e : set_line k v = cstr "SET" ++ 32 :: (k ++ 32 :: v) := by
    simp [set_line, cstr]
  have e2 : (set_line k v).dropWhile isspace = set_line k v := by
    rw [e]; rfl
  rw [e2, e, tokens_word_space _ _ (by decide) (by decide),
    tokens_word_space _ _ hk.1 hk.2.1, tokens_word _ hv.1 hv.2.1]

theorem tokens_get_line (k : List Nat) (hk : is_token k) :
    tokens ((get_line k).dropWhile isspace) = [cstr "GET", k] := by
  have e : get_line k = cstr "GET" ++ 32 :: k := by
    simp [get_line, cstr]
  have e2 : (get_line k).dropWhile isspace = get_line k := by
    rw [e]; rfl
  rw [e2, e, tokens_word_space _ _ (by decide) (by decide), tokens_word _ hk.1 hk.2.1]

theorem tokens_del_line (k : List Nat) (hk : is_token k) :
    tokens ((del_line k).dropWhile isspace) = [cstr "DEL", k] := by
  have e : del_line k = cstr "DEL" ++ 32 :: k := by
    simp [del_line, cstr]
  have e2 : (del_line k).dropWhile isspace = del_line k := by
    rw [e]; rfl
  rw [e2, e, tokens_word_space _ _ (by decide) (by decide), tokens_word _ hk.1 hk.2.1]

theorem parse_set_line (k v : List Nat) (hk : is_token k) (hv : is_token v) (cmd : Command) :
    parse_client_input (set_line k v) cmd =
      { type := .CMD_SET, key := some k, args := some [v] } := by
  rw [parse_client_input_eq, tokens_set_line k v hk hv]
  rfl

theorem parse_get_line (k : List Nat) (hk : is_token k) (cmd : Command) :
    parse_client_input (get_line k) cmd = { type := .CMD_GET, key := some k, args := some [] } := by
  rw [parse_client_input_eq, tokens_get_line k hk]
  rfl

theorem parse_del_line (k : List Nat) (hk : is_token k) (cmd : Command) :
    parse_client_input (del_line k) cmd =
      { type := .CMD_REMOVE, key := some k, args := some [] } := by
  rw [parse_client_input_eq, tokens_del_line k hk]
  rfl

theorem parse_getall_line (cmd : Command) :
    parse_client_input (cstr "GETALL") cmd = { cmd with type := .CMD_GET_ALL, key := none } := by
  rw [parse_client_input_eq]
  rfl

theorem process_set_line (k v : List Nat) (hk : is_token k) (hv : is_token v) (cmd : Command)
    (map : HashMap) :
    process (set_line k v) cmd map = some (cstr "OK\n", (hash_map_set map k v).2) := by
  unfold process
  rw [parse_set_line k v hk hv]
  simp only [execute_command, remove_trailing_newline_of_not_mem k hk.2.2,
    remove_trailing_newline_of_not_mem v hv.2.2, hash_map_set_fst, if_true]
  rfl

theorem process_get_line (k : List Nat) (hk : is_token k) (cmd : Command) (map : HashMap) :
    process (get_line k) cmd map =
      match hash_map_get map k with
      | some value => some (snprintf RESP_BUFF_SIZE (value ++ [10]), map)
      | none => some (cstr "(nil)\n", map) := by
  unfold process
  rw [parse_get_line k hk]
  simp only [execute_command, remove_trailing_newline_of_not_mem k hk.2.2]
  cases hash_map_get map k <;> rfl

theorem process_del_line (k : List Nat) (hk : is_token k) (cmd : Command) (map : HashMap) :
    process (del_line k) cmd map =
      some (if (hash_map_remove map k).1 then cstr "1\n" else cstr "0\n",
        (hash_map_remove map k).2) := by
  unfold process
  rw [parse_del_line k hk]
  simp only [execute_command, remove_trailing_newline_of_not_mem k hk.2.2]
  cases (hash_map_remove map k).1 <;> rfl

theorem snprintf_of_short (size : Nat) (text : List Nat) (h : text.length < size) :
    snprintf size text = text := by
  unfold snprintf
  exact List.take_of_length_le (by omega)

theorem process_getall_line (cmd : Command) (map : HashMap) :
    process (cstr "GETALL") cmd map =
      match hash_map_get_all map with
      | none => none
      | some all_entries => some (all_entries ++ [10], map) := by
  unfold process
  rw [parse_getall_line]
  simp only [execute_command]
  cases hash_map_get_all map with
  | none => rfl
  | some s =>
    simp only []
    rw [snprintf_of_short _ _ (by simp)]

theorem process_invalid (line : List Nat) (cmd : Command) (map : HashMap)
    (h : (parse_client_input line cmd).type = .CMD_INVALID) :
    process line cmd map = some (cstr "INVALID_COMMAND\n", map) := by
  unfold process execute_command
  rw [h]
  rfl

/-- The round trip of C1 for values of at most 254 bytes. -/
theorem set_then_get_short (map : HashMap) (h : Reachable map) (k v : List Nat)
    (hk : is_token k) (hv : is_token v) (hlen : v.length < 255) (c1 c2 : Command) :
    process (set_line k v) c1 map = some (cstr "OK\n", (hash_map_set map k v).2) ∧
    process (get_line k) c2 (hash_map_set map k v).2 =
      some (v ++ [10], (hash_map_set map k v).2) := by
  refine ⟨process_set_line k v hk hv c1 map, ?_⟩
  rw [process_get_line k hk, hash_map_get_set_self map k v h.wf]
  simp only []
  rw [snprintf_of_short _ _ (by simp [RESP_BUFF_SIZE]; omega)]

theorem initial_map_reachable : Reachable initial_map :=
  Reachable.create DEFAULT_HASHMAP_SIZE (by decide)

theorem set_line_length (k v : List Nat) : (set_line k v).length = 5 + k.length + v.length := by
  simp [set_line, cstr]; omega

/-- A `GET` of a stored value of 255 bytes or more answers its first 255 bytes
and nothing else. -/
theorem get_long_value (map : HashMap) (h : Reachable map) (k v : List Nat)
    (hk : is_token k) (hlen : 255 ≤ v.length) (c : Command) :
    process (get_line k) c (hash_map_set map k v).2 =
      some (v.take 255, (hash_map_set map k v).2) := by
  rw [process_get_line k hk, hash_map_get_set_self map k v h.wf]
  simp only [snprintf, RESP_BUFF_SIZE]
  rw [List.take_append_of_le_length hlen]

/-! ## The rendering loop of `hash_map_get_all` -/

theorem entry_text_eq (e : KVPair) : entry_text e = item_text e ++ cstr "," := by
  simp [entry_text, item_text, cstr]

theorem entry_text_length (e : KVPair) :
    (entry_text e).length = e.key.length + e.value.length + 6 := by
  simp [entry_text, cstr]; omega

theorem get_all_entry_of_wire_sized (st : GetAllState) (e : KVPair) (hst : st.Good)
    (he : wire_sized e) :
    ∃ st2, get_all_entry st e = some st2 ∧ st2.Good ∧
      st2.result = st.result ++ entry_text e ∧ st2.has_entries = true := by
  have hlen := entry_text_length e
  have h1 := hst.pos_eq
  have h2 := hst.pos_lt
  have h3 := hst.size_ge
  have h4 : e.key.length + e.value.length ≤ 1018 := he
  unfold get_all_entry
  simp only []
  by_cases hreq : st.pos + e.key.length + e.value.length + 6 ≥ st.buffer_size
  · rw [if_pos hreq, if_pos (by omega)]
    exact ⟨_, rfl, ⟨by simp [h1], by simp only []; omega, by simp only []; omega⟩, rfl, rfl⟩
  · rw [if_neg hreq, if_pos (by omega)]
    exact ⟨_, rfl, ⟨by simp [h1], by simp only []; omega, h3⟩, rfl, rfl⟩

theorem get_all_chain_of_wire_sized (st : GetAllState) (es : List KVPair) (hst : st.Good)
    (hes : ∀ e ∈ es, wire_sized e) :
    ∃ st2, get_all_chain st es = some st2 ∧ st2.Good ∧
      st2.result = st.result ++ (es.map entry_text).flatten ∧
      st2.has_entries = (st.has_entries || !es.isEmpty) := by
  induction es generalizing st with
  | nil => exact ⟨st, rfl, hst, by simp, by simp⟩
  | cons e es ih =>
    obtain ⟨st1, h1, g1, r1, b1⟩ :=
      get_all_entry_of_wire_sized st e hst (hes e (List.mem_cons_self _ _))
    obtain ⟨st2, h2, g2, r2, b2⟩ := ih st1 g1 (fun x hx => hes x (List.mem_cons_of_mem _ hx))
    refine ⟨st2, ?_, g2, ?_, ?_⟩
    · simp only [get_all_chain, h1, h2]
    · rw [r2, r1]; simp
    · rw [b2, b1]; simp

theorem get_all_buckets_of_wire_sized (map : HashMap) (st : GetAllState) (todo : List Nat)
    (hst : st.Good) (hes : ∀ i ∈ todo, ∀ e ∈ map.buckets.getD i [], wire_sized e) :
    ∃ st2, get_all_buckets map st todo = some st2 ∧ st2.Good ∧
      st2.result = st.result ++
        ((todo.flatMap (fun i => map.buckets.getD i [])).map entry_text).flatten ∧
      st2.has_entries =
        (st.has_entries || !(todo.flatMap (fun i => map.buckets.getD i [])).isEmpty) := by
  induction todo generalizing st with
  | nil => exact ⟨st, rfl, hst, by simp, by simp⟩
  | cons i todo ih =>
    obtain ⟨st1, h1, g1, r1, b1⟩ :=
      get_all_chain_of_wire_sized st (map.buckets.getD i []) hst (hes i (List.mem_cons_self _ _))
    obtain ⟨st2, h2, g2, r2, b2⟩ := ih st1 g1 (fun j hj => hes j (List.mem_cons_of_mem _ hj))
    refine ⟨st2, ?_, g2, ?_, ?_⟩
    · simp only [get_all_buckets, h1, h2]
    · rw [r2, r1]; simp
    · rw [b2, b1, List.flatMap_cons]
      generalize map.buckets.getD i [] = a
      generalize todo.flatMap (fun i => map.buckets.getD i []) = rest
      cases st.has_entries <;> cases a <;> simp

theorem flatten_entry_text (e : KVPair) (es : List KVPair) :
    (((e :: es).map entry_text).flatten) =
      (cstr ",").intercalate ((e :: es).map item_text) ++ cstr "," := by
  induction es generalizing e with
  | nil => simp [entry_text_eq, List.intercalate, List.intersperse]
  | cons e2 es ih =>
    have := ih e2
    simp only [List.map_cons, List.flatten_cons] at this ⊢
    rw [this, entry_text_eq]
    simp [List.intercalate, List.intersperse]

theorem set_last (l : List Nat) (a b : Nat) : (l ++ [a]).set ((l ++ [a]).length - 1) b = l ++ [b] := by
  simp

/-- The result of `hash_map_get_all` on a map whose pairs all fit a `SET` line: the whole
snapshot, whatever the number of pairs. -/
theorem hash_map_get_all_of_wire_sized (map : HashMap)
    (hes : ∀ e ∈ entries map, wire_sized e) :
    hash_map_get_all map = some (snapshot_text (entries map)) := by
  have hes2 : ∀ i ∈ List.range map.capacity, ∀ e ∈ map.buckets.getD i [], wire_sized e :=
    fun i hi e he => hes e (List.mem_flatMap.2 ⟨i, hi, he⟩)
  obtain ⟨st, h1, g, r, b⟩ := get_all_buckets_of_wire_sized map
    { buffer_size := BUFFER_SIZE, pos := 1, result := [123], has_entries := false }
    (List.range map.capacity) ⟨rfl, by decide, by decide⟩ hes2
  unfold hash_map_get_all
  simp only [h1]
  change st.result = [123] ++ ((entries map).map entry_text).flatten at r
  change st.has_entries = (false || !(entries map).isEmpty) at b
  cases hent : entries map with
  | nil =>
    rw [hent] at r b
    simp only [List.isEmpty_nil, Bool.not_true, Bool.or_self] at b
    simp only [b, Bool.false_eq_true, if_false, r]
    rfl
  | cons e es =>
    rw [hent] at r b
    simp only [List.isEmpty_cons, Bool.not_false, Bool.or_true] at b
    simp only [b, if_true]
    rw [g.pos_eq, r, flatten_entry_text, ← List.append_assoc]
    exact congrArg some (set_last _ 44 125)

/-! ## The entries of a map -/

theorem chain_get_of_mem (c : List KVPair) (e : KVPair) (hnd : (c.map KVPair.key).Nodup)
    (he : e ∈ c) : chain_get c e.key = some e.value := by
  induction c with
  | nil => simp at he
  | cons a c ih =>
    simp only [List.map_cons, List.nodup_cons] at hnd
    rcases List.mem_cons.1 he with rfl | he
    · simp [chain_get]
    · have hne : a.key ≠ e.key := by
        intro h
        exact hnd.1 (h ▸ List.mem_map_of_mem _ he)
      simp [chain_get, hne, ih hnd.2 he]

theorem mem_of_chain_get (c : List KVPair) (k v : List Nat) (h : chain_get c k = some v) :
    ({ key := k, value := v } : KVPair) ∈ c := by
  induction c with
  | nil => simp [chain_get] at h
  | cons a c ih =>
    by_cases hk : a.key = k
    · simp only [chain_get, hk, if_true, Option.some.injEq] at h
      subst hk; subst h
      exact List.mem_cons_self _ _
    · simp only [chain_get, hk, if_false] at h
      exact List.mem_cons_of_mem _ (ih h)

theorem chain_set_mem (c c2 : List KVPair) (k v : List Nat) (h : chain_set c k v = some c2) :
    ∀ e ∈ c2, e ∈ c ∨ e = { key := k, value := v } := by
  induction c generalizing c2 with
  | nil => simp [chain_set] at h
  | cons a c ih =>
    by_cases hk : a.key = k
    · simp only [chain_set, hk, if_true, Option.some.injEq] at h
      subst h
      intro e he
      rcases List.mem_cons.1 he with rfl | he
      · right; rw [← hk]
      · left; exact List.mem_cons_of_mem _ he
    · simp only [chain_set, hk, if_false, Option.map_eq_some'] at h
      obtain ⟨rest, hrest, rfl⟩ := h
      intro e he
      rcases List.mem_cons.1 he with rfl | he
      · left; exact List.mem_cons_self _ _
      · rcases ih rest hrest e he with h1 | h1
        · left; exact List.mem_cons_of_mem _ h1
        · right; exact h1

theorem mem_entries_iff (map : HashMap) (e : KVPair) :
    e ∈ entries map ↔ ∃ i, i < map.capacity ∧ e ∈ map.buckets.getD i [] := by
  simp [entries, List.mem_flatMap]

theorem hash_map_get_of_mem_entries (map : HashMap) (h : WF map) (e : KVPair)
    (he : e ∈ entries map) : hash_map_get map e.key = some e.value := by
  obtain ⟨i, -, hi⟩ := (mem_entries_iff map e).1 he
  rw [hash_map_get_eq_chain_get _ _ h, h.placed i e hi]
  exact chain_get_of_mem _ e (h.nodup i) hi

theorem mem_entries_of_hash_map_get (map : HashMap) (h : WF map) (k v : List Nat)
    (hg : hash_map_get map k = some v) : ({ key := k, value := v } : KVPair) ∈ entries map := by
  rw [hash_map_get_eq_chain_get _ _ h] at hg
  exact (mem_entries_iff map _).2 ⟨_, hash_lt k _ h.cap_pos, mem_of_chain_get _ k v hg⟩

theorem mem_entries_keys_iff (map : HashMap) (h : WF map) (k : List Nat) :
    k ∈ (entries map).map KVPair.key ↔ hash_map_get map k ≠ none := by
  constructor
  · intro hk
    obtain ⟨e, he, rfl⟩ := List.mem_map.1 hk
    rw [hash_map_get_of_mem_entries map h e he]
    exact Option.some_ne_none _
  · intro hk
    cases hg : hash_map_get map k with
    | none => exact absurd hg hk
    | some v => exact List.mem_map.2 ⟨_, mem_entries_of_hash_map_get map h k v hg, rfl⟩

theorem entries_keys_nodup (map : HashMap) (h : WF map) :
    ((entries map).map KVPair.key).Nodup := by
  unfold entries
  rw [List.map_flatMap, List.nodup_flatMap]
  refine ⟨fun i _ => h.nodup i, ?_⟩
  refine (List.nodup_range map.capacity).imp ?_
  intro i j hij k hki hkj
  obtain ⟨e1, he1, hk1⟩ := List.mem_map.1 hki
  obtain ⟨e2, he2, hk2⟩ := List.mem_map.1 hkj
  have h1 := h.placed i e1 he1
  have h2 := h.placed j e2 he2
  rw [hk1] at h1
  rw [hk2] at h2
  exact hij (h1.symm.trans h2)

theorem mem_entries_set (map : HashMap) (h : WF map) (k v : List Nat) (e : KVPair)
    (he : e ∈ entries (hash_map_set map k v).2) :
    e ∈ entries map ∨ e = { key := k, value := v } := by
  obtain ⟨i, hi, hmem⟩ := (mem_entries_iff _ e).1 he
  rw [hash_map_set_capacity] at hi
  rw [hash_map_set_bucket _ _ _ h] at hmem
  split at hmem
  · next hih =>
    cases hc : chain_set (map.buckets.getD i []) k v with
    | some chain =>
      rw [hc] at hmem
      rcases chain_set_mem _ _ _ _ hc e hmem with h1 | h1
      · left; exact (mem_entries_iff map e).2 ⟨i, hi, h1⟩
      · right; exact h1
    | none =>
      rw [hc] at hmem
      rcases List.mem_cons.1 hmem with h1 | h1
      · right; exact h1
      · left; exact (mem_entries_iff map e).2 ⟨i, hi, h1⟩
  · left; exact (mem_entries_iff map e).2 ⟨i, hi, hmem⟩

theorem entries_create (capacity : Nat) : entries (create_hash_map capacity) = [] := by
  have : ∀ e, e ∉ entries (create_hash_map capacity) := by
    intro e he
    obtain ⟨i, hi, hmem⟩ := (mem_entries_iff _ e).1 he
    simp [create_hash_map, List.getD_eq_getElem?_getD, List.getElem?_replicate] at hmem
    split at hmem <;> simp at hmem
  exact List.eq_nil_iff_forall_not_mem.2 this

theorem single_entry_map (k v : List Nat) :
    (hash_map_set (create_hash_map 1) k v).2 =
      { capacity := 1, size := 1, buckets := [[{ key := k, value := v }]] } := by
  have h0 : hash k 1 = 0 := by simp [hash, Nat.mod_one]
  rw [hash_map_set_of_none _ _ _ (by simp [create_hash_map, h0, chain_set])]
  simp [create_hash_map, h0]

/-- A single pair whose text needs 2047 bytes or more is cut by
`hash_map_get_all`: one doubling gives 2048 bytes, of which `snprintf` may
use 2047 behind the opening brace, terminator included. -/
theorem get_all_single_long (k v : List Nat) (h : 2041 ≤ k.length + v.length) :
    get_all_entry { buffer_size := BUFFER_SIZE, pos := 1, result := [123], has_entries := false }
      { key := k, value := v } = none ∧
    hash_map_get_all (hash_map_set (create_hash_map 1) k v).2 = none := by
  have he : get_all_entry
      { buffer_size := BUFFER_SIZE, pos := 1, result := [123], has_entries := false }
      { key := k, value := v } = none := by
    unfold get_all_entry
    have hb : (if 1 + k.length + v.length + 6 ≥ 1024 then 1024 * 2 else 1024) = 2048 :=
      if_pos (by omega)
    simp only [entry_text_length, BUFFER_SIZE, hb]
    rw [if_neg (by omega)]
  refine ⟨he, ?_⟩
  rw [single_entry_map]
  unfold hash_map_get_all
  simp only [show List.range 1 = [0] from rfl, get_all_buckets, List.getD_cons_zero,
    get_all_chain, he]


/-! ## Sessions of `SET` commands -/

theorem serve_sets (map : HashMap) (sets : List SetCommand) (h : ∀ s ∈ sets, s.sendable) :
    serve map (sets.map SetCommand.read) =
      some (sets.map (fun _ => cstr "OK\n"), run_ops map (sets.map SetCommand.op)) := by
  induction sets generalizing map with
  | nil => rfl
  | cons s sets ih =>
    have hs := h s (List.mem_cons_self _ _)
    simp only [List.map_cons, serve, SetCommand.read,
      process_set_line s.key s.value hs.1 hs.2.1 s.cmd map]
    have := ih (hash_map_set map s.key s.value).2 (fun x hx => h x (List.mem_cons_of_mem _ hx))
    simp only [SetCommand.read] at this
    rw [this]
    rfl

theorem entries_run_sets (P : KVPair → Prop) (map : HashMap) (hwf : WF map)
    (sets : List SetCommand) (hmap : ∀ e ∈ entries map, P e)
    (hsets : ∀ s ∈ sets, P { key := s.key, value := s.value }) :
    ∀ e ∈ entries (run_ops map (sets.map SetCommand.op)), P e := by
  induction sets generalizing map with
  | nil => exact hmap
  | cons s sets ih =>
    simp only [List.map_cons, run_ops, List.foldl_cons]
    refine ih (apply_op map s.op) (WF_set map s.key s.value hwf) ?_
      (fun x hx => hsets x (List.mem_cons_of_mem _ hx))
    intro e he
    rcases mem_entries_set map hwf s.key s.value e he with h1 | h1
    · exact hmap e h1
    · rw [h1]; exact hsets s (List.mem_cons_self _ _)

theorem last_write_rev_sets (k : List Nat) (sets : List SetCommand) :
    last_write_rev k (sets.map SetCommand.op) ≠ none ↔ k ∈ sets.map SetCommand.key := by
  induction sets with
  | nil => simp [last_write_rev]
  | cons s sets ih =>
    by_cases hk : s.key = k
    · simp [last_write_rev, SetCommand.op, hk]
    · have hk2 : ¬ k = s.key := fun h => hk h.symm
      simp only [List.map_cons, SetCommand.op, last_write_rev, hk, if_false, List.mem_cons, hk2,
        false_or]
      exact ih

theorem last_write_sets (k : List Nat) (sets : List SetCommand) :
    last_write k (sets.map SetCommand.op) ≠ none ↔ k ∈ sets.map SetCommand.key := by
  unfold last_write
  rw [← List.map_reverse, last_write_rev_sets]
  simp

theorem not_mem_intercalate (c : Nat) (sep : List Nat) (xs : List (List Nat)) (hsep : c ∉ sep)
    (hxs : ∀ x ∈ xs, c ∉ x) : c ∉ sep.intercalate xs := by
  induction xs with
  | nil => simp [List.intercalate]
  | cons x xs ih =>
    cases xs with
    | nil => simpa [List.intercalate, List.intersperse] using hxs x (List.mem_cons_self _ _)
    | cons y ys =>
      have h1 := hxs x (List.mem_cons_self _ _)
      have h2 := ih (fun z hz => hxs z (List.mem_cons_of_mem _ hz))
      simp only [List.intercalate, List.intersperse, List.flatten_cons, List.mem_append,
        not_or] at h2 ⊢
      exact ⟨h1, hsep, h2⟩

theorem not_mem_snapshot_text (es : List KVPair)
    (h : ∀ e ∈ es, 10 ∉ e.key ∧ 10 ∉ e.value) : 10 ∉ snapshot_text es := by
  unfold snapshot_text
  simp only [List.mem_append, not_or]
  refine ⟨⟨by decide, ?_⟩, by decide⟩
  apply not_mem_intercalate 10 _ _ (by decide)
  intro x hx
  obtain ⟨e, he, rfl⟩ := List.mem_map.1 hx
  have := h e he
  simp only [item_text, List.mem_append, not_or]
  exact ⟨⟨⟨⟨by decide, this.1⟩, by decide⟩, this.2⟩, by decide⟩

theorem range_map_getD (l : List (List KVPair)) :
    (List.range l.length).map (fun i => l.getD i []) = l := by
  apply List.ext_getElem
  · simp
  · intro i h1 h2
    simp [List.getD_eq_getElem?_getD, h2]

theorem entries_eq_flatten (map : HashMap) (h : WF map) : entries map = map.buckets.flatten := by
  unfold entries
  rw [← h.len, List.flatMap_def, range_map_getD]


theorem hash_map_get_all_create (capacity : Nat) :
    hash_map_get_all (create_hash_map capacity) = some (cstr "\x7b\x7d") := by
  rw [hash_map_get_all_of_wire_sized _ (by rw [entries_create]; intro e he; simp at he),
    entries_create]
  rfl

theorem serve_cons (map map2 map3 : HashMap) (line : List Nat) (cmd : Command)
    (rest : List (List Nat × Command)) (response : List Nat) (responses : List (List Nat))
    (h1 : process line cmd map = some (response, map2))
    (h2 : serve map2 rest = some (responses, map3)) :
    serve map ((line, cmd) :: rest) = some (response :: responses, map3) := by
  simp only [serve, h1, h2]

set_option maxRecDepth 100000 in
theorem entries_a_b :
    (run_ops initial_map
      [.set (cstr "a") (cstr "1"), .set (cstr "b") (cstr "2")]).buckets.flatten =
      [{ key := cstr "a", value := cstr "1" }, { key := cstr "b", value := cstr "2" }] := by
  decide

/-- The session `SET a 1`, `SET b 2`, `GETALL` on the store as initialised. -/
theorem serve_a_b (c1 c2 c3 : Command) :
    serve initial_map [(cstr "SET a 1", c1), (cstr "SET b 2", c2), (cstr "GETALL", c3)] =
      some ([cstr "OK\n", cstr "OK\n", cstr "\x7b\"a\":\"1\",\"b\":\"2\"\x7d\n"],
        run_ops initial_map [.set (cstr "a") (cstr "1"), .set (cstr "b") (cstr "2")]) := by
  have e1 : cstr "SET a 1" = set_line (cstr "a") (cstr "1") := by decide
  have e2 : cstr "SET b 2" = set_line (cstr "b") (cstr "2") := by decide
  have hwf2 : WF (run_ops initial_map [.set (cstr "a") (cstr "1"), .set (cstr "b") (cstr "2")]) :=
    (initial_map_reachable.run_ops _).wf
  have hent : entries (run_ops initial_map
      [.set (cstr "a") (cstr "1"), .set (cstr "b") (cstr "2")]) =
      [{ key := cstr "a", value := cstr "1" }, { key := cstr "b", value := cstr "2" }] := by
    rw [entries_eq_flatten _ hwf2]
    exact entries_a_b
  have hall : hash_map_get_all (run_ops initial_map
      [.set (cstr "a") (cstr "1"), .set (cstr "b") (cstr "2")]) =
      some (cstr "\x7b\"a\":\"1\",\"b\":\"2\"\x7d") := by
    rw [hash_map_get_all_of_wire_sized _ (by rw [hent]; decide), hent]
    decide
  have h3 : process (cstr "GETALL") c3
      (run_ops initial_map [.set (cstr "a") (cstr "1"), .set (cstr "b") (cstr "2")]) =
      some (cstr "\x7b\"a\":\"1\",\"b\":\"2\"\x7d\n",
        run_ops initial_map [.set (cstr "a") (cstr "1"), .set (cstr "b") (cstr "2")]) := by
    rw [process_getall_line, hall]
    rfl
  have hrun : run_ops initial_map [.set (cstr "a") (cstr "1"), .set (cstr "b") (cstr "2")] =
      (hash_map_set (hash_map_set initial_map (cstr "a") (cstr "1")).2 (cstr "b") (cstr "2")).2 := by
    simp only [run_ops, List.foldl_cons, List.foldl_nil, apply_op]
  rw [hrun] at h3 ⊢
  rw [e1, e2]
  exact serve_cons _ _ _ _ _ _ _ _
    (process_set_line (cstr "a") (cstr "1") (by decide) (by decide) c1 initial_map)
    (serve_cons _ _ _ _ _ _ _ _
      (process_set_line (cstr "b") (cstr "2") (by decide) (by decide) c2 _)
      (serve_cons _ _ _ _ _ _ _ _ h3 rfl))


/-! ## The hash -/

theorem hash_loop_eq_sum (key : List Nat) (acc : Nat) (h : acc + 255 * key.length < 2 ^ 32) :
    hash_loop key acc = acc + (key.map (fun c => c % 256)).sum := by
  induction key generalizing acc with
  | nil => simp [hash_loop]
  | cons c key ih =>
    have hc : c % 256 < 256 := Nat.mod_lt _ (by decide)
    simp only [List.length_cons] at h
    have h1 : (acc + c % 256) % 2 ^ 32 = acc + c % 256 := Nat.mod_eq_of_lt (by omega)
    simp only [hash_loop, h1, List.map_cons, List.sum_cons]
    rw [ih (acc + c % 256) (by omega)]
    omega

theorem sum_bytes_le (key : List Nat) : (key.map (fun c => c % 256)).sum ≤ 255 * key.length := by
  induction key with
  | nil => simp
  | cons c key ih =>
    have hc : c % 256 < 256 := Nat.mod_lt _ (by decide)
    simp only [List.map_cons, List.sum_cons, List.length_cons]
    omega

/-! ## Setting a pair twice -/

theorem chain_set_same (c : List KVPair) (k v : List Nat) (h : chain_get c k = some v) :
    chain_set c k v = some c := by
  induction c with
  | nil => simp [chain_get] at h
  | cons e c ih =>
    by_cases hk : e.key = k
    · simp only [chain_get, hk, if_true, Option.some.injEq] at h
      simp only [chain_set, hk, if_true, Option.some.injEq, List.cons.injEq, and_true]
      cases e
      simp only [KVPair.mk.injEq] at *
      exact ⟨hk.symm, h.symm⟩
    · simp only [chain_get, hk, if_false] at h
      simp only [chain_set, hk, if_false, ih h, Option.map_some']

theorem set_getD_self (l : List (List KVPair)) (i : Nat) : l.set i (l.getD i []) = l := by
  induction l generalizing i with
  | nil => rfl
  | cons a l ih =>
    cases i with
    | zero => rfl
    | succ i => simpa using ih i

theorem hash_map_set_twice (map : HashMap) (k v : List Nat) (h : WF map) :
    (hash_map_set (hash_map_set map k v).2 k v).2 = (hash_map_set map k v).2 := by
  have h1 : WF (hash_map_set map k v).2 := WF_set map k v h
  have hg := hash_map_get_set_self map k v h
  rw [hash_map_get_eq_chain_get _ _ h1] at hg
  rw [hash_map_set_of_some _ _ _ _ (chain_set_same _ _ _ hg), set_getD_self]

/-! ## The stores into the argument array -/

theorem parse_args_writes_eq (fuel : Nat) (s : List Nat) (i : Nat) (h : s.length < fuel) :
    parse_args_writes fuel s i =
      List.range' i ((tokens s).length + 1) ++ [i + (tokens s).length] := by
  induction fuel generalizing s i with
  | zero => omega
  | succ fuel ih =>
    rw [strtok_tokens s]
    unfold parse_args_writes
    cases hs : strtok s with
    | none => simp
    | some p =>
      obtain ⟨tok, rest⟩ := p
      have := strtok_rest_length s tok rest hs
      simp only [List.length_cons]
      rw [ih rest (i + 1) (by omega)]
      simp only [List.range'_succ, List.cons_append, List.cons.injEq, true_and]
      congr 2
      omega

/-- The stores of `parse_client_input` in terms of the tokens of the line: with
a keyword and a key in front, one store for each further token and two stores
of `NULL` at the index behind them. -/
theorem args_writes_eq (input : List Nat) :
    args_writes input =
      match tokens (input.dropWhile isspace) with
      | [] => []
      | command_str :: rest =>
        if string_to_command command_str = .CMD_INVALID then []
        else
          match rest with
          | [] => []
          | _ :: args => List.range' 0 (args.length + 1) ++ [args.length] := by
  unfold args_writes
  simp only []
  rw [strtok_tokens (input.dropWhile isspace)]
  cases h1 : strtok (input.dropWhile isspace) with
  | none => rfl
  | some p =>
    obtain ⟨command_str, rest⟩ := p
    simp only []
    by_cases ht : string_to_command command_str = .CMD_INVALID
    · simp only [ht, if_true]
    · simp only [ht, if_false]
      rw [strtok_tokens rest]
      cases h2 : strtok rest with
      | none => rfl
      | some q =>
        obtain ⟨key, rest2⟩ := q
        simp only []
        rw [parse_args_writes_eq _ _ _ (Nat.lt_succ_self _)]
        simp

theorem tokens_word_then (w : List Nat) (ts : List (List Nat)) (hw : w ≠ [] ∧ 32 ∉ w)
    (hts : ∀ t ∈ ts, t ≠ [] ∧ 32 ∉ t) :
    tokens (w ++ (ts.map (fun t => cstr " " ++ t)).flatten) = w :: ts := by
  induction ts generalizing w with
  | nil => simpa using tokens_word w hw.1 hw.2
  | cons t ts ih =>
    have e : w ++ (((t :: ts).map (fun t => cstr " " ++ t)).flatten) =
        w ++ 32 :: (t ++ (ts.map (fun t => cstr " " ++ t)).flatten) := by
      simp [cstr]
    rw [e, tokens_word_space _ _ hw.1 hw.2,
      ih t (hts t (List.mem_cons_self _ _)) (fun x hx => hts x (List.mem_cons_of_mem _ hx))]

theorem tokens_set_line_extra (k v : List Nat) (ts : List (List Nat)) (hk : is_token k)
    (hv : is_token v) (hts : ∀ t ∈ ts, is_token t) :
    tokens ((set_line_extra k v ts).dropWhile isspace) = cstr "SET" :: k :: v :: ts := by
  have e : set_line_extra k v ts =
      cstr "SET" ++ 32 :: (k ++ 32 :: (v ++ (ts.map (fun t => cstr " " ++ t)).flatten)) := by
    simp [set_line_extra, set_line, cstr]
  have e2 : (set_line_extra k v ts).dropWhile isspace = set_line_extra k v ts := by
    rw [e]; rfl
  rw [e2, e, tokens_word_space _ _ (by decide) (by decide),
    tokens_word_space _ _ hk.1 hk.2.1,
    tokens_word_then v ts ⟨hv.1, hv.2.1⟩ (fun t ht => ⟨(hts t ht).1, (hts t ht).2.1⟩)]

/-- What `SET k v t1 ... tn` does as long as the stores stay inside the array:
the answer and the store are those of `SET k v`, and the stores into
`cmd->args` go up to index `n + 1`. -/
theorem process_set_line_extra (k v : List Nat) (ts : List (List Nat)) (hk : is_token k)
    (hv : is_token v) (hts : ∀ t ∈ ts, is_token t) (cmd : Command) (map : HashMap) :
    process (set_line_extra k v ts) cmd map = some (cstr "OK\n", (hash_map_set map k v).2) ∧
    process (set_line_extra k v ts) cmd map = process (set_line k v) cmd map ∧
    args_writes (set_line_extra k v ts) = List.range' 0 (ts.length + 2) ++ [ts.length + 1] := by
  have hparse : parse_client_input (set_line_extra k v ts) cmd =
      { type := .CMD_SET, key := some k, args := some (v :: ts) } := by
    rw [parse_client_input_eq, tokens_set_line_extra k v ts hk hv hts]
    rfl
  have hp : process (set_line_extra k v ts) cmd map =
      some (cstr "OK\n", (hash_map_set map k v).2) := by
    unfold process
    rw [hparse]
    simp only [execute_command, remove_trailing_newline_of_not_mem k hk.2.2,
      remove_trailing_newline_of_not_mem v hv.2.2, hash_map_set_fst, if_true]
    rfl
  refine ⟨hp, ?_, ?_⟩
  · rw [hp, process_set_line k v hk hv]
  · rw [args_writes_eq, tokens_set_line_extra k v ts hk hv hts]
    simp only [show string_to_command (cstr "SET") = .CMD_SET from by decide]
    simp

/-! ## Line endings and the answers of `GET` -/

theorem remove_trailing_newline_append (l : List Nat) :
    remove_trailing_newline (l ++ [10]) = l := by
  simp [remove_trailing_newline]

theorem read_buffer_length (data : List Nat) : (read_buffer data).length = READ_BUFFER_SIZE := by
  simp only [read_buffer, List.length_append, List.length_take, List.length_replicate]
  omega

/-- A read of fewer than `READ_BUFFER_SIZE` bytes leaves the bytes read with a
zero of the fill right behind them. -/
theorem read_buffer_of_short (data : List Nat) (h : data.length < READ_BUFFER_SIZE) :
    ∃ n, read_buffer data = data ++ 0 :: List.replicate n 0 := by
  refine ⟨READ_BUFFER_SIZE - data.length - 1, ?_⟩
  have hn : READ_BUFFER_SIZE - data.length = (READ_BUFFER_SIZE - data.length - 1) + 1 := by
    omega
  unfold read_buffer
  rw [List.take_of_length_le (le_of_lt h)]
  generalize READ_BUFFER_SIZE - data.length - 1 = n at hn ⊢
  rw [hn, List.replicate_succ]

theorem c_string_append_zero (l r : List Nat) : c_string (l ++ 0 :: r) = c_string l := by
  induction l with
  | nil => simp [c_string]
  | cons c l ih =>
    unfold c_string at ih ⊢
    by_cases hc : c = 0
    · simp [List.takeWhile_cons, hc]
    · simp only [List.cons_append, List.takeWhile_cons, hc, ne_eq, not_false_eq_true,
        decide_True, if_true, ih]

theorem c_string_of_not_mem (l : List Nat) (h : 0 ∉ l) : c_string l = l := by
  unfold c_string
  rw [List.takeWhile_eq_self_iff]
  intro c hc
  have : c ≠ 0 := fun h0 => h (h0 ▸ hc)
  simpa using this

theorem not_mem_c_string (l : List Nat) (c : Nat) (h : c ∉ l) : c ∉ c_string l :=
  fun hm => h ((List.takeWhile_sublist _).subset hm)

theorem c_string_length_lt (l : List Nat) (h : 0 ∈ l) : (c_string l).length < l.length := by
  obtain ⟨a, b, rfl⟩ := List.append_of_mem h
  rw [c_string_append_zero]
  have := (List.takeWhile_sublist (fun c => decide (c ≠ 0)) (l := a)).length_le
  unfold c_string
  simp only [List.length_append, List.length_cons]
  omega

/-- What the data path does with a read of fewer than `READ_BUFFER_SIZE` bytes:
the string it works on is the bytes read up to their first 0. -/
theorem handle_read_of_short (data : List Nat) (h : data.length < READ_BUFFER_SIZE)
    (cmd : Command) (map : HashMap) :
    handle_read data cmd map =
      execute_command (parse_client_input (remove_trailing_newline (c_string data)) cmd) map := by
  obtain ⟨n, hn⟩ := read_buffer_of_short data h
  unfold handle_read
  simp only []
  rw [if_pos (by rw [hn]; simp), hn, c_string_append_zero]

theorem handle_read_eq_process (l : List Nat) (hlen : l.length < READ_BUFFER_SIZE) (h : 10 ∉ l)
    (cmd : Command) (map : HashMap) :
    handle_read l cmd map = process (c_string l) cmd map := by
  rw [handle_read_of_short l hlen]
  unfold process
  rw [remove_trailing_newline_of_not_mem _ (not_mem_c_string l 10 h)]

theorem remove_newline_c_string (l : List Nat) (h : 10 ∉ l) :
    remove_trailing_newline (c_string (l ++ [10])) = c_string l := by
  by_cases h0 : 0 ∈ l
  · obtain ⟨a, b, rfl⟩ := List.append_of_mem h0
    rw [List.append_assoc, List.cons_append, c_string_append_zero, c_string_append_zero]
    exact remove_trailing_newline_of_not_mem _
      (not_mem_c_string a 10 (fun hm => h (List.mem_append_left _ hm)))
  · have : c_string (l ++ [10]) = l ++ [10] :=
      c_string_of_not_mem _ (by
        simp only [List.mem_append, List.mem_singleton, not_or]
        exact ⟨h0, by decide⟩)
    rw [this, c_string_of_not_mem l h0, remove_trailing_newline_append]

theorem handle_read_newline (l : List Nat) (hlen : l.length + 1 < READ_BUFFER_SIZE)
    (h : 10 ∉ l) (cmd : Command) (map : HashMap) :
    handle_read (l ++ [10]) cmd map = handle_read l cmd map := by
  rw [handle_read_of_short _ (by rw [List.length_append]; exact hlen),
    handle_read_of_short l (by omega), remove_newline_c_string l h,
    remove_trailing_newline_of_not_mem _ (not_mem_c_string l 10 h)]

theorem snprintf_value_eq_nil_iff (v : List Nat) :
    snprintf RESP_BUFF_SIZE (v ++ [10]) = cstr "(nil)\n" ↔ v = cstr "(nil)" := by
  constructor
  · intro h
    by_cases hv : v.length < 255
    · rw [snprintf_of_short _ _ (by simp [RESP_BUFF_SIZE]; omega)] at h
      exact List.append_cancel_right (h.trans (show cstr "(nil)\n" = cstr "(nil)" ++ [10] from rfl))
    · have hl := congrArg List.length h
      simp only [snprintf, RESP_BUFF_SIZE, List.length_take, List.length_append,
        List.length_singleton] at hl
      have : (cstr "(nil)\n").length = 6 := rfl
      omega
  · intro h
    subst h
    rfl

/-! ## Every state of the store of the server holds pairs that fit a line -/

theorem strtok_lengths (s tok rest : List Nat) (h : strtok s = some (tok, rest)) :
    tok.length + rest.length ≤ s.length ∧ (rest ≠ [] → tok.length + rest.length + 1 ≤ s.length) := by
  unfold strtok at h
  simp only [] at h
  split at h
  · simp at h
  · simp only [Option.some.injEq, Prod.mk.injEq] at h
    obtain ⟨rfl, rfl⟩ := h
    have h1 : (s.dropWhile (fun c => decide (c = 32))).length ≤ s.length :=
      (List.dropWhile_sublist _).length_le
    have h2 := congrArg List.length
      (List.takeWhile_append_dropWhile (fun c => decide (c ≠ 32))
        (s.dropWhile (fun c => decide (c = 32))))
    simp only [List.length_append] at h2
    simp only [List.length_drop]
    refine ⟨by omega, ?_⟩
    intro hne
    have : 0 < (List.drop 1 (List.dropWhile (fun c => decide (c ≠ 32))
        (s.dropWhile (fun c => decide (c = 32))))).length := List.length_pos.2 hne
    simp only [List.length_drop] at this
    omega

theorem tokens_total_length_aux (n : Nat) (s : List Nat) (hn : s.length ≤ n) :
    ((tokens s).map List.length).sum + (tokens s).length ≤ s.length + 1 := by
  induction n generalizing s with
  | zero =>
    have : s = [] := List.length_eq_zero.1 (Nat.le_zero.1 hn)
    subst this
    simp [tokens_nil]
  | succ n ih =>
    rw [strtok_tokens s]
    cases hs : strtok s with
    | none => simp
    | some p =>
      obtain ⟨tok, rest⟩ := p
      obtain ⟨h1, h2⟩ := strtok_lengths s tok rest hs
      have hlt := strtok_rest_length s tok rest hs
      have hrec := ih rest (by omega)
      simp only [List.map_cons, List.sum_cons, List.length_cons]
      by_cases hr : rest = []
      · subst hr
        simp only [tokens_nil, List.map_nil, List.sum_nil, List.length_nil] at hrec ⊢
        simp only [List.length_nil] at h1
        omega
      · have := h2 hr
        omega

theorem tokens_total_length (s : List Nat) :
    ((tokens s).map List.length).sum + (tokens s).length ≤ s.length + 1 :=
  tokens_total_length_aux s.length s (le_refl _)

theorem remove_trailing_newline_length (s : List Nat) :
    (remove_trailing_newline s).length ≤ s.length := by
  unfold remove_trailing_newline
  split
  · simp
  · exact le_refl _

theorem string_to_command_set_length (t : List Nat) (h : string_to_command t = .CMD_SET) :
    3 ≤ t.length := by
  have h1 := (string_to_command_iff t).1.1 h
  have h2 := congrArg List.length h1
  simp only [List.length_map] at h2
  have h3 : (List.takeWhile (fun c => decide (c ≠ 10)) t).length ≤ t.length :=
    (List.takeWhile_sublist _).length_le
  have h4 : (cstr "SET").length = 3 := rfl
  omega

/-- The three things `execute_command` can do to the store. -/
theorem execute_command_store (cmd : Command) (map map2 : HashMap) (response : List Nat)
    (h : execute_command cmd map = some (response, map2)) :
    map2 = map ∨
    (∃ key arg0 rest, cmd.type = .CMD_SET ∧ cmd.key = some key ∧ cmd.args = some (arg0 :: rest) ∧
      map2 = (hash_map_set map (remove_trailing_newline key) (remove_trailing_newline arg0)).2) ∨
    (∃ key, cmd.type = .CMD_REMOVE ∧ cmd.key = some key ∧
      map2 = (hash_map_remove map (remove_trailing_newline key)).2) := by
  obtain ⟨type, key, args⟩ := cmd
  cases type with
  | CMD_INVALID =>
    simp only [execute_command, Option.some.injEq, Prod.mk.injEq] at h
    exact Or.inl h.2.symm
  | CMD_GET_ALL =>
    simp only [execute_command] at h
    cases hall : hash_map_get_all map with
    | none => rw [hall] at h; simp at h
    | some s =>
      rw [hall] at h
      simp only [Option.some.injEq, Prod.mk.injEq] at h
      exact Or.inl h.2.symm
  | CMD_GET =>
    cases key with
    | none =>
      simp only [execute_command, Option.some.injEq, Prod.mk.injEq] at h
      exact Or.inl h.2.symm
    | some k =>
      simp only [execute_command] at h
      cases hg : hash_map_get map (remove_trailing_newline k) with
      | none =>
        rw [hg] at h
        simp only [Option.some.injEq, Prod.mk.injEq] at h
        exact Or.inl h.2.symm
      | some v =>
        rw [hg] at h
        simp only [Option.some.injEq, Prod.mk.injEq] at h
        exact Or.inl h.2.symm
  | CMD_REMOVE =>
    cases key with
    | none =>
      simp only [execute_command, Option.some.injEq, Prod.mk.injEq] at h
      exact Or.inl h.2.symm
    | some k =>
      simp only [execute_command, Option.some.injEq, Prod.mk.injEq] at h
      exact Or.inr (Or.inr ⟨k, rfl, rfl, h.2.symm⟩)
  | CMD_SET =>
    cases key with
    | none =>
      simp only [execute_command, Option.some.injEq, Prod.mk.injEq] at h
      exact Or.inl h.2.symm
    | some k =>
      cases args with
      | none =>
        simp only [execute_command, Option.some.injEq, Prod.mk.injEq] at h
        exact Or.inl h.2.symm
      | some l =>
        cases l with
        | nil =>
          simp only [execute_command, Option.some.injEq, Prod.mk.injEq] at h
          exact Or.inl h.2.symm
        | cons a0 rest =>
          simp only [execute_command, hash_map_set_fst, if_true, Option.some.injEq,
            Prod.mk.injEq] at h
          exact Or.inr (Or.inl ⟨k, a0, rest, rfl, rfl, rfl, h.2.symm⟩)

/-- A `SET` command parsed from a line carries a key and a value that came in
that line behind the keyword. -/
theorem parse_set_lengths (line : List Nat) (cmd : Command) (key arg0 : List Nat)
    (rest : List (List Nat)) (ht : (parse_client_input line cmd).type = .CMD_SET)
    (hk : (parse_client_input line cmd).key = some key)
    (ha : (parse_client_input line cmd).args = some (arg0 :: rest)) :
    key.length + arg0.length + 5 ≤ line.length := by
  have hlen := tokens_total_length (line.dropWhile isspace)
  have hdrop : (line.dropWhile isspace).length ≤ line.length :=
    (List.dropWhile_sublist _).length_le
  rw [parse_client_input_eq] at ht hk ha
  cases htoks : tokens (line.dropWhile isspace) with
  | nil => rw [htoks] at ht; simp at ht
  | cons t toks =>
    rw [htoks] at ht hk ha hlen
    by_cases hinv : string_to_command t = .CMD_INVALID
    · simp only [hinv, if_true] at ht
      simp at ht
    · simp only [hinv, if_false] at ht hk ha
      cases toks with
      | nil => simp at hk
      | cons k2 args =>
        simp only [Option.some.injEq] at ht hk ha
        subst hk
        subst ha
        have h3 := string_to_command_set_length t ht
        simp only [List.map_cons, List.sum_cons, List.length_cons] at hlen
        omega

theorem mem_entries_remove (map : HashMap) (h : WF map) (k : List Nat) (e : KVPair)
    (he : e ∈ entries (hash_map_remove map k).2) : e ∈ entries map := by
  obtain ⟨i, hi, hmem⟩ := (mem_entries_iff _ e).1 he
  rw [hash_map_remove_capacity] at hi
  rw [hash_map_remove_bucket _ _ h] at hmem
  split at hmem
  · cases hc : chain_remove (map.buckets.getD i []) k with
    | some chain =>
      rw [hc] at hmem
      exact (mem_entries_iff map e).2 ⟨i, hi, (chain_remove_some _ _ _ hc).2.2.1 e hmem⟩
    | none =>
      rw [hc] at hmem
      exact (mem_entries_iff map e).2 ⟨i, hi, hmem⟩
  · exact (mem_entries_iff map e).2 ⟨i, hi, hmem⟩

/-- Every state of the store of the server is reachable through the interface
of the map and holds only pairs with `strlen(key) + strlen(value) <= 1018`. -/
theorem ServerState.sized {map : HashMap} (h : ServerState map) :
    Reachable map ∧ ∀ e ∈ entries map, wire_sized e := by
  induction h with
  | init =>
    refine ⟨initial_map_reachable, ?_⟩
    intro e he
    rw [show entries initial_map = [] from entries_create _] at he
    simp at he
  | read map map2 data cmd response _ hread ih =>
    obtain ⟨hreach, hsized⟩ := ih
    unfold handle_read at hread
    simp only [] at hread
    by_cases h0 : 0 ∈ read_buffer data
    case neg => rw [if_neg h0] at hread; exact absurd hread (by simp)
    rw [if_pos h0] at hread
    have hlen : (c_string (read_buffer data)).length < READ_BUFFER_SIZE := by
      have := c_string_length_lt _ h0
      rw [read_buffer_length] at this
      exact this
    generalize c_string (read_buffer data) = buffer at hread hlen
    have hline := remove_trailing_newline_length buffer
    rcases execute_command_store _ _ _ _ hread with h1 | ⟨key, arg0, rest, ht, hk, ha, h1⟩ |
      ⟨key, _, _, h1⟩
    · rw [h1]; exact ⟨hreach, hsized⟩
    · rw [h1]
      refine ⟨Reachable.set _ _ _ hreach, ?_⟩
      intro e he
      rcases mem_entries_set map hreach.wf _ _ e he with h2 | h2
      · exact hsized e h2
      · rw [h2]
        have h3 := parse_set_lengths _ _ _ _ _ ht hk ha
        have h4 := remove_trailing_newline_length key
        have h5 := remove_trailing_newline_length arg0
        show (remove_trailing_newline key).length + (remove_trailing_newline arg0).length ≤ 1018
        simp only [READ_BUFFER_SIZE] at hlen
        omega
    · rw [h1]
      exact ⟨Reachable.remove _ _ hreach,
        fun e he => hsized e (mem_entries_remove map hreach.wf _ e he)⟩

/-- A `SET` line of tokens that leaves its terminator in the read buffer takes
the store of the server to the store with the pair set. -/
theorem ServerState.after_set {map : HashMap} (h : ServerState map) (k v : List Nat)
    (hk : is_token k) (hv : is_token v) (h0 : 0 ∉ set_line k v)
    (hlen : (set_line k v).length < READ_BUFFER_SIZE) :
    ServerState (hash_map_set map k v).2 := by
  have h10 : 10 ∉ set_line k v := by
    simp only [set_line, List.mem_append, not_or]
    exact ⟨⟨⟨by decide, hk.2.2⟩, by decide⟩, hv.2.2⟩
  refine ServerState.read map _ (set_line k v) ⟨.CMD_INVALID, none, none⟩
    (cstr "OK\n") h ?_
  rw [handle_read_eq_process _ hlen h10, c_string_of_not_mem _ h0]
  exact process_set_line k v hk hv _ map

/-- A read that fills the whole buffer with bytes other than 0 leaves no
terminator: the data path has no result. -/
theorem handle_read_full (data : List Nat) (hlen : READ_BUFFER_SIZE ≤ data.length)
    (h0 : 0 ∉ data) (cmd : Command) (map : HashMap) : handle_read data cmd map = none := by
  have hb : 0 ∉ read_buffer data := by
    unfold read_buffer
    rw [Nat.sub_eq_zero_of_le hlen, List.replicate_zero, List.append_nil]
    exact fun hm => h0 ((List.take_sublist _ _).subset hm)
  unfold handle_read
  simp only []
  rw [if_neg hb]

/-! ## The connection counters -/

theorem LoopReachable.inv {st : LoopState} (h : LoopReachable st) :
    st.registered.Nodup ∧ st.active_clients = st.registered.length ∧
      st.active_clients ≤ MAX_CLIENTS := by
  induction h with
  | start => exact ⟨List.nodup_nil, rfl, by decide⟩
  | step st ev _ hev ih =>
    obtain ⟨hnd, hcount, hmax⟩ := ih
    cases ev with
    | accept client_fd ok =>
      unfold loop_step
      by_cases hfull : st.active_clients ≥ MAX_CLIENTS
      · simp only [hfull, if_true]; exact ⟨hnd, hcount, hmax⟩
      · simp only [hfull, if_false]
        cases client_fd with
        | none => exact ⟨hnd, hcount, hmax⟩
        | some fd =>
          cases ok with
          | false => exact ⟨hnd, hcount, hmax⟩
          | true =>
            simp only [if_true]
            refine ⟨List.nodup_cons.2 ⟨hev, hnd⟩, ?_, ?_⟩
            · simp only [List.length_cons, Nat.cast_add, Nat.cast_one, hcount]
            · simp only [ge_iff_le, not_le] at hfull
              omega
    | read fd n =>
      unfold loop_step
      by_cases hn : n ≤ 0
      · simp only [hn, if_true]
        have hmem : fd ∈ st.registered := hev
        have hlen := List.length_erase_of_mem hmem
        have hpos : 0 < st.registered.length := List.length_pos_of_mem hmem
        refine ⟨hnd.erase fd, ?_, by omega⟩
        rw [hlen, hcount]
        omega
      · simp only [hn, if_false]; exact ⟨hnd, hcount, hmax⟩

theorem loop_with_clients_reachable (n : Nat) (h : (n : Int) ≤ MAX_CLIENTS) :
    LoopReachable (loop_with_clients n) := by
  induction n with
  | zero => exact LoopReachable.start
  | succ n ih =>
    have hn : (n : Int) < MAX_CLIENTS := by push_cast at h; omega
    have hstep : loop_step (loop_with_clients n) (.accept (some n) true) =
        loop_with_clients (n + 1) := by
      have hnot : ¬ ((n : Int) ≥ MAX_CLIENTS) := by omega
      simp only [loop_step, loop_with_clients, hnot, if_false, if_true, List.range_succ,
        List.reverse_append, List.reverse_singleton, List.singleton_append, Nat.cast_add,
        Nat.cast_one]
    rw [← hstep]
    refine LoopReachable.step _ _ (ih (by omega)) ?_
    show n ∉ (List.range n).reverse
    simp

/-! ## Room in the snapshot buffer and in the read buffer -/

theorem get_all_buckets_eq_chain (map : HashMap) (st : GetAllState) (todo : List Nat) :
    get_all_buckets map st todo =
      get_all_chain st (todo.flatMap (fun i => map.buckets.getD i [])) := by
  have happ : ∀ (a b : List KVPair) (s : GetAllState),
      get_all_chain s (a ++ b) =
        match get_all_chain s a with
        | some s2 => get_all_chain s2 b
        | none => none := by
    intro a
    induction a with
    | nil => intro b s; rfl
    | cons e a ih =>
      intro b s
      simp only [List.cons_append, get_all_chain]
      cases get_all_entry s e with
      | none => rfl
      | some s1 => exact ih b s1
  induction todo generalizing st with
  | nil => rfl
  | cons i todo ih =>
    simp only [get_all_buckets, List.flatMap_cons, happ]
    cases get_all_chain st (map.buckets.getD i []) with
    | none => rfl
    | some s1 => exact ih s1

theorem get_all_steps_of_wire_sized (st : GetAllState) (es : List KVPair) (hst : st.Good)
    (hes : ∀ e ∈ es, wire_sized e) :
    (get_all_steps st es).map Prod.snd = es ∧
    ∀ p ∈ get_all_steps st es,
      p.1.pos < p.1.buffer_size ∧
      p.1.pos + p.2.key.length + p.2.value.length + 6 < buffer_size_after_doubling p.1 p.2 ∧
      ∃ st2, get_all_entry p.1 p.2 = some st2 ∧
        st2.buffer_size = buffer_size_after_doubling p.1 p.2 ∧
        st2.result = p.1.result ++ entry_text p.2 ∧
        st2.pos = p.1.pos + p.2.key.length + p.2.value.length + 6 ∧
        st2.pos < st2.buffer_size := by
  induction es generalizing st with
  | nil => exact ⟨rfl, fun p hp => by simp [get_all_steps] at hp⟩
  | cons e es ih =>
    have he : wire_sized e := hes e (List.mem_cons_self _ _)
    obtain ⟨st1, h1, g1, r1, -⟩ := get_all_entry_of_wire_sized st e hst he
    obtain ⟨ih1, ih2⟩ := ih st1 g1 (fun x hx => hes x (List.mem_cons_of_mem _ hx))
    have hpos : st1.pos = st.pos + e.key.length + e.value.length + 6 := by
      have := g1.pos_eq
      rw [r1, List.length_append, entry_text_length, ← hst.pos_eq] at this
      omega
    have hbuf : st1.buffer_size = buffer_size_after_doubling st e := by
      have h1b := h1
      simp only [get_all_entry] at h1b
      unfold buffer_size_after_doubling
      split_ifs at h1b ⊢ with ha hb
      all_goals
        simp only [Option.some.injEq] at h1b
        rw [← h1b]
    simp only [get_all_steps, h1, List.map_cons, ih1, true_and]
    intro p hp
    rcases List.mem_cons.1 hp with rfl | hp
    · refine ⟨hst.pos_lt, ?_, st1, h1, hbuf, r1, hpos, g1.pos_lt⟩
      have := g1.pos_lt
      simp only [] at hbuf hpos ⊢
      omega
    · exact ih2 p hp

/-- A read of fewer than `READ_BUFFER_SIZE` bytes leaves a zero of the fill
right behind the bytes read. -/
theorem read_buffer_terminated (data : List Nat) (h : data.length < READ_BUFFER_SIZE) :
    (read_buffer data).getD data.length 1 = 0 := by
  have ht : data.take READ_BUFFER_SIZE = data := List.take_of_length_le (le_of_lt h)
  have hr : READ_BUFFER_SIZE - data.length = (READ_BUFFER_SIZE - data.length - 1) + 1 := by
    omega
  unfold read_buffer
  rw [ht, hr, List.replicate_succ, List.getD_eq_getElem?_getD,
    List.getElem?_append_right (le_refl _)]
  simp

/-! ## Runs of spaces -/

theorem tokens_spaces (n : Nat) (s : List Nat) : tokens (List.replicate n 32 ++ s) = tokens s := by
  induction n with
  | zero => rfl
  | succ n ih => rw [List.replicate_succ, List.cons_append, tokens_space, ih]

theorem tokens_word_spaces (tok rest : List Nat) (n : Nat) (h1 : tok ≠ []) (h2 : 32 ∉ tok)
    (hn : 0 < n ∨ rest = []) :
    tokens (tok ++ List.replicate n 32 ++ rest) = tok :: tokens rest := by
  cases n with
  | zero =>
    rcases hn with hn | rfl
    · omega
    · simp only [List.replicate_zero, List.append_nil, tokens_nil]
      exact tokens_word tok h1 h2
  | succ n =>
    rw [List.replicate_succ, List.append_assoc, List.cons_append, tokens_word_space _ _ h1 h2,
      tokens_spaces]

theorem tokens_spaced (pairs : List (List Nat × Nat))
    (htok : ∀ p ∈ pairs, p.1 ≠ [] ∧ 32 ∉ p.1) (hgap : ∀ p ∈ pairs.dropLast, 0 < p.2) :
    tokens (spaced pairs) = pairs.map Prod.fst := by
  induction pairs with
  | nil => exact tokens_nil
  | cons p rest ih =>
    have hp := htok p (List.mem_cons_self _ _)
    have hrest : tokens (spaced rest) = rest.map Prod.fst := by
      apply ih (fun q hq => htok q (List.mem_cons_of_mem _ hq))
      intro q hq
      cases rest with
      | nil => simp at hq
      | cons r rest => exact hgap q (by rw [List.dropLast_cons₂]; exact List.mem_cons_of_mem _ hq)
    have hn : 0 < p.2 ∨ spaced rest = [] := by
      cases rest with
      | nil => exact Or.inr rfl
      | cons r rest => exact Or.inl (hgap p (by rw [List.dropLast_cons₂]; exact List.mem_cons_self _ _))
    have hs : spaced (p :: rest) = p.1 ++ List.replicate p.2 32 ++ spaced rest := by
      simp [spaced]
    rw [hs, tokens_word_spaces _ _ _ hp.1 hp.2 hn, hrest, List.map_cons]

theorem tokens_single_spaced (toks : List (List Nat)) (htok : ∀ t ∈ toks, t ≠ [] ∧ 32 ∉ t) :
    tokens (single_spaced toks) = toks := by
  induction toks with
  | nil => exact tokens_nil
  | cons t rest ih =>
    have ht := htok t (List.mem_cons_self _ _)
    cases rest with
    | nil =>
      have : single_spaced [t] = t := by simp [single_spaced, List.intercalate]
      rw [this]
      exact tokens_word t ht.1 ht.2
    | cons r rest =>
      have : single_spaced (t :: r :: rest) = t ++ 32 :: single_spaced (r :: rest) := by
        simp [single_spaced, List.intercalate, cstr]
      rw [this, tokens_word_space _ _ ht.1 ht.2, ih (fun q hq => htok q (List.mem_cons_of_mem _ hq))]

theorem dropWhile_isspace_lead (lead s : List Nat) (hlead : ∀ c ∈ lead, isspace c = true) :
    (lead ++ s).dropWhile isspace = s.dropWhile isspace := by
  induction lead with
  | nil => rfl
  | cons c lead ih =>
    rw [List.cons_append, List.dropWhile_cons, if_pos (hlead c (List.mem_cons_self _ _))]
    exact ih (fun d hd => hlead d (List.mem_cons_of_mem _ hd))

theorem dropWhile_isspace_word (t s : List Nat) (h : t.dropWhile isspace ≠ []) :
    (t ++ s).dropWhile isspace = t.dropWhile isspace ++ s := by
  induction t with
  | nil => exact absurd rfl h
  | cons c t ih =>
    by_cases hc : isspace c = true
    · rw [List.dropWhile_cons, if_pos hc] at h ⊢
      rw [List.cons_append, List.dropWhile_cons, if_pos hc]
      exact ih h
    · rw [List.cons_append, List.dropWhile_cons, if_neg hc, List.dropWhile_cons, if_neg hc]
      rfl

theorem dropWhile_isspace_blank (t s : List Nat) (h : t.dropWhile isspace = []) :
    (t ++ s).dropWhile isspace = s.dropWhile isspace :=
  dropWhile_isspace_lead t s (fun c hc => by
    have := List.dropWhile_eq_nil_iff.1 h c hc
    simpa using this)

/-- Behind the leading whitespace, a line of tokens with runs of spaces has the
tokens of the line with single spaces. -/
theorem tokens_dropWhile_spaced (pairs : List (List Nat × Nat))
    (htok : ∀ p ∈ pairs, p.1 ≠ [] ∧ 32 ∉ p.1) (hgap : ∀ p ∈ pairs.dropLast, 0 < p.2) :
    tokens ((spaced pairs).dropWhile isspace) =
      tokens ((single_spaced (pairs.map Prod.fst)).dropWhile isspace) := by
  induction pairs with
  | nil => rfl
  | cons p rest ih =>
    have hp := htok p (List.mem_cons_self _ _)
    have htok2 : ∀ q ∈ rest, q.1 ≠ [] ∧ 32 ∉ q.1 := fun q hq => htok q (List.mem_cons_of_mem _ hq)
    have hgap2 : ∀ q ∈ rest.dropLast, 0 < q.2 := by
      intro q hq
      cases rest with
      | nil => simp at hq
      | cons r rest => exact hgap q (by rw [List.dropLast_cons₂]; exact List.mem_cons_of_mem _ hq)
    have hn : 0 < p.2 ∨ spaced rest = [] := by
      cases rest with
      | nil => exact Or.inr rfl
      | cons r rest =>
        exact Or.inl (hgap p (by rw [List.dropLast_cons₂]; exact List.mem_cons_self _ _))
    have hs : spaced (p :: rest) = p.1 ++ (List.replicate p.2 32 ++ spaced rest) := by
      simp [spaced]
    have hj : single_spaced ((p :: rest).map Prod.fst) =
        p.1 ++ (if rest = [] then [] else 32 :: single_spaced (rest.map Prod.fst)) := by
      cases rest with
      | nil => simp [single_spaced, List.intercalate]
      | cons r rest => simp [single_spaced, List.intercalate, cstr]
    rw [hs, hj]
    by_cases hb : p.1.dropWhile isspace = []
    · rw [dropWhile_isspace_blank _ _ hb, dropWhile_isspace_blank _ _ hb,
        dropWhile_isspace_lead _ _ (fun c hc => by rw [(List.mem_replicate.1 hc).2]; rfl),
        ih htok2 hgap2]
      cases rest with
      | nil => rfl
      | cons r rest =>
        rw [if_neg (List.cons_ne_nil _ _), List.dropWhile_cons, if_pos (by rfl)]
    · have h32 : 32 ∉ p.1.dropWhile isspace :=
        fun hm => hp.2 ((List.dropWhile_sublist _).subset hm)
      rw [dropWhile_isspace_word _ _ hb, dropWhile_isspace_word _ _ hb, ← List.append_assoc,
        tokens_word_spaces _ _ _ hb h32 hn, tokens_spaced rest htok2 hgap2]
      cases rest with
      | nil =>
        rw [if_pos rfl, List.append_nil, tokens_word _ hb h32]
        rfl
      | cons r rest =>
        rw [if_neg (List.cons_ne_nil _ _), tokens_word_space _ _ hb h32,
          tokens_single_spaced _ (by
            intro t ht
            obtain ⟨q, hq, rfl⟩ := List.mem_map.1 ht
            exact htok2 q hq)]

theorem tokens_ne_nil (s t : List Nat) (h : t ∈ tokens s) : t ≠ [] := by
  simpa using (List.mem_filter.1 h).2

/-- No token of `strtok` is empty. -/
theorem strtok_ne_nil (s tok rest : List Nat) (h : strtok s = some (tok, rest)) : tok ≠ [] := by
  have := strtok_tokens s
  rw [h] at this
  exact tokens_ne_nil s tok (by rw [this]; exact List.mem_cons_self _ _)

/-- The key and the arguments of a parsed command are never empty strings. -/
theorem parse_client_input_ne_nil (input : List Nat) (cmd : Command) (k : List Nat)
    (ht : (parse_client_input input cmd).type ≠ .CMD_INVALID)
    (hk : (parse_client_input input cmd).key = some k) :
    k ≠ [] ∧ ∃ args, (parse_client_input input cmd).args = some args ∧ ∀ a ∈ args, a ≠ [] := by
  rw [parse_client_input_eq] at ht hk ⊢
  cases hts : tokens (input.dropWhile isspace) with
  | nil => rw [hts] at ht; exact absurd rfl ht
  | cons c rest =>
    rw [hts] at ht hk
    have hmem : ∀ t ∈ c :: rest, t ≠ [] := fun t h => tokens_ne_nil _ t (by rw [hts]; exact h)
    by_cases hc : string_to_command c = .CMD_INVALID
    · simp only [hc, if_true] at ht
      exact absurd rfl ht
    · simp only [hc, if_false] at hk ⊢
      cases rest with
      | nil => simp at hk
      | cons key args =>
        simp only [Option.some.injEq] at hk
        subst hk
        exact ⟨hmem _ (by simp), args, rfl, fun a ha => hmem a (by simp [ha])⟩

/-! ## The order of the entries -/

theorem map_overwrite_of_not_mem (c : List KVPair) (k v : List Nat)
    (h : k ∉ c.map KVPair.key) : c.map (overwrite k v) = c := by
  induction c with
  | nil => rfl
  | cons e c ih =>
    simp only [List.map_cons, List.mem_cons, not_or] at h
    have he : overwrite k v e = e := by
      unfold overwrite
      rw [if_neg (fun h2 => h.1 h2.symm)]
    rw [List.map_cons, he, ih h.2]

theorem filter_key_of_not_mem (c : List KVPair) (k : List Nat) (h : k ∉ c.map KVPair.key) :
    c.filter (fun e => e.key ≠ k) = c := by
  rw [List.filter_eq_self]
  intro e he
  have : e.key ≠ k := fun h2 => h (by rw [← h2]; exact List.mem_map_of_mem _ he)
  simpa using this

theorem chain_set_eq_map (c c2 : List KVPair) (k v : List Nat) (hn : (c.map KVPair.key).Nodup)
    (h : chain_set c k v = some c2) : c2 = c.map (overwrite k v) := by
  induction c generalizing c2 with
  | nil => simp [chain_set] at h
  | cons e c ih =>
    rw [List.map_cons, List.nodup_cons] at hn
    by_cases hk : e.key = k
    · simp only [chain_set, hk, if_true, Option.some.injEq] at h
      rw [← h, List.map_cons, map_overwrite_of_not_mem c k v (by rw [← hk]; exact hn.1)]
      simp [overwrite, hk]
    · simp only [chain_set, hk, if_false, Option.map_eq_some'] at h
      obtain ⟨r, hr, rfl⟩ := h
      rw [List.map_cons, ← ih r hn.2 hr]
      simp [overwrite, hk]

theorem chain_remove_eq_filter (c c2 : List KVPair) (k : List Nat)
    (hn : (c.map KVPair.key).Nodup) (h : chain_remove c k = some c2) :
    c2 = c.filter (fun e => e.key ≠ k) := by
  induction c generalizing c2 with
  | nil => simp [chain_remove] at h
  | cons e c ih =>
    rw [List.map_cons, List.nodup_cons] at hn
    by_cases hk : e.key = k
    · simp only [chain_remove, hk, if_true, Option.some.injEq] at h
      rw [← h, List.filter_cons, filter_key_of_not_mem c k (by rw [← hk]; exact hn.1)]
      simp [hk]
    · simp only [chain_remove, hk, if_false, Option.map_eq_some'] at h
      obtain ⟨r, hr, rfl⟩ := h
      rw [List.filter_cons, ← ih r hn.2 hr]
      simp [hk]

/-- Overwriting a key that is in the map replaces its value in every bucket
where it is, and moves no entry. -/
theorem set_bucket_existing (map : HashMap) (h : WF map) (k v : List Nat)
    (hk : hash_map_get map k ≠ none) (i : Nat) :
    (hash_map_set map k v).2.buckets.getD i [] =
      (map.buckets.getD i []).map (overwrite k v) := by
  rw [hash_map_set_bucket _ _ _ h]
  rw [hash_map_get_eq_chain_get _ _ h] at hk
  split
  · next hi =>
    subst hi
    cases hc : chain_set (map.buckets.getD (hash k map.capacity) []) k v with
    | none => exact absurd ((chain_set_eq_none_iff _ _ _).1 hc) hk
    | some c => exact chain_set_eq_map _ _ _ _ (h.nodup _) hc
  · next hi =>
    rw [map_overwrite_of_not_mem]
    intro hm
    obtain ⟨e, he, hek⟩ := List.mem_map.1 hm
    have := h.placed i e he
    rw [hek] at this
    exact hi this.symm

/-- Setting a key that is not in the map links the new pair at the head of its
bucket and leaves every other bucket alone. -/
theorem set_bucket_new (map : HashMap) (h : WF map) (k v : List Nat)
    (hk : hash_map_get map k = none) (i : Nat) :
    (hash_map_set map k v).2.buckets.getD i [] =
      if i = hash k map.capacity then { key := k, value := v } :: map.buckets.getD i []
      else map.buckets.getD i [] := by
  rw [hash_map_set_bucket _ _ _ h]
  rw [hash_map_get_eq_chain_get _ _ h] at hk
  split
  · next hi =>
    subst hi
    rw [(chain_set_eq_none_iff _ _ _).2 hk]
  · rfl

/-- Removing a key takes its entry out of its bucket and moves no other entry. -/
theorem remove_bucket_filter (map : HashMap) (h : WF map) (k : List Nat) (i : Nat) :
    (hash_map_remove map k).2.buckets.getD i [] =
      (map.buckets.getD i []).filter (fun e => e.key ≠ k) := by
  rw [hash_map_remove_bucket _ _ h]
  split
  · next hi =>
    subst hi
    cases hc : chain_remove (map.buckets.getD (hash k map.capacity) []) k with
    | none =>
      rw [filter_key_of_not_mem]
      exact (chain_get_eq_none_iff _ _).1 ((chain_remove_eq_none_iff _ _).1 hc)
    | some c => exact chain_remove_eq_filter _ _ _ (h.nodup _) hc
  · next hi =>
    rw [filter_key_of_not_mem]
    intro hm
    obtain ⟨e, he, hek⟩ := List.mem_map.1 hm
    have := h.placed i e he
    rw [hek] at this
    exact hi this.symm

theorem entries_set_existing (map : HashMap) (h : WF map) (k v : List Nat)
    (hk : hash_map_get map k ≠ none) :
    entries (hash_map_set map k v).2 = (entries map).map (overwrite k v) := by
  unfold entries
  rw [hash_map_set_capacity, List.map_flatMap]
  exact List.flatMap_congr (fun i _ => set_bucket_existing map h k v hk i)

theorem entries_remove (map : HashMap) (h : WF map) (k : List Nat) :
    entries (hash_map_remove map k).2 = (entries map).filter (fun e => e.key ≠ k) := by
  unfold entries
  rw [hash_map_remove_capacity, List.filter_flatMap]
  exact List.flatMap_congr (fun i _ => remove_bucket_filter map h k i)

theorem entries_sorted_by_bucket (map : HashMap) (h : WF map) :
    (entries map).Pairwise (fun a b => hash a.key map.capacity ≤ hash b.key map.capacity) := by
  unfold entries
  rw [List.pairwise_flatMap]
  constructor
  · intro i _
    apply List.pairwise_of_forall_mem_list
    intro a ha b hb
    rw [h.placed i a ha, h.placed i b hb]
  · refine (List.pairwise_lt_range map.capacity).imp ?_
    intro i j hij a ha b hb
    rw [h.placed i a ha, h.placed j b hb]
    exact le_of_lt hij

theorem run_ops_capacity (map : HashMap) (ops : List StoreOp) :
    (run_ops map ops).capacity = map.capacity := by
  induction ops using List.reverseRecOn with
  | nil => rfl
  | append_singleton ops op ih =>
    rw [run_ops_append]
    cases op with
    | set key value => exact (hash_map_set_capacity _ _ _).trans ih
    | remove key => exact (hash_map_remove_capacity _ _).trans ih

theorem live_keys_append (ops : List StoreOp) (op : StoreOp) :
    live_keys (ops ++ [op]) = track_key (live_keys ops) op := by
  simp [live_keys, List.foldl_append]

/-- The keys of every bucket are the live keys of the bucket, newest first. -/
theorem bucket_keys (capacity : Nat) (hc : 0 < capacity) (ops : List StoreOp) (i : Nat) :
    ((run_ops (create_hash_map capacity) ops).buckets.getD i []).map KVPair.key =
      ((live_keys ops).filter (fun key => hash key capacity = i)).reverse := by
  induction ops using List.reverseRecOn generalizing i with
  | nil =>
    simp [run_ops, live_keys, create_hash_map, List.getD_eq_getElem?_getD,
      List.getElem?_replicate]
    split <;> rfl
  | append_singleton ops op ih =>
    have hwf : WF (run_ops (create_hash_map capacity) ops) :=
      ((Reachable.create capacity hc).run_ops ops).wf
    have hcap : (run_ops (create_hash_map capacity) ops).capacity = capacity :=
      run_ops_capacity _ _
    have hlive : ∀ k, hash_map_get (run_ops (create_hash_map capacity) ops) k = none ↔
        k ∉ live_keys ops := by
      intro k
      rw [hash_map_get_eq_chain_get _ _ hwf, chain_get_eq_none_iff, hcap, ih]
      simp
    rw [run_ops_append, live_keys_append]
    cases op with
    | set k v =>
      simp only [apply_op, track_key]
      by_cases hk : k ∈ live_keys ops
      · rw [if_pos hk, set_bucket_existing _ hwf k v (fun h0 => (hlive k).1 h0 hk), List.map_map,
          ← ih]
        congr 1
        funext e
        simp only [Function.comp, overwrite]
        split <;> rfl
      · rw [if_neg hk, set_bucket_new _ hwf k v ((hlive k).2 hk), hcap, List.filter_append,
          List.reverse_append]
        by_cases hi : i = hash k capacity
        · rw [if_pos hi, List.map_cons, ih]
          simp [List.filter_cons, hi]
        · rw [if_neg hi, ih]
          have : ¬ hash k capacity = i := fun h2 => hi h2.symm
          simp [List.filter_cons, this]
    | remove k =>
      simp only [apply_op, track_key]
      rw [remove_bucket_filter _ hwf k, List.filter_filter]
      have hm : ((run_ops (create_hash_map capacity) ops).buckets.getD i []).filter
            (fun e => e.key ≠ k) =
          ((run_ops (create_hash_map capacity) ops).buckets.getD i []).filter
            ((fun key => decide (key ≠ k)) ∘ KVPair.key) := rfl
      rw [hm, ← List.filter_map, ih, ← List.filter_reverse, List.filter_filter,
        List.filter_reverse]
      congr 2
      funext key
      exact Bool.and_comm _ _

theorem entries_keys_eq (capacity : Nat) (hc : 0 < capacity) (ops : List StoreOp) :
    (entries (run_ops (create_hash_map capacity) ops)).map KVPair.key =
      (List.range capacity).flatMap
        (fun i => ((live_keys ops).filter (fun key => hash key capacity = i)).reverse) := by
  unfold entries
  rw [List.map_flatMap, run_ops_capacity]
  exact List.flatMap_congr (fun i _ => bucket_keys capacity hc ops i)

/-- The string of `hash_map_get_all` is the rendering of the entries in the
order of `entries`: bucket after bucket, each chain from its head. -/
theorem hash_map_get_all_eq_chain (map : HashMap) :
    hash_map_get_all map =
      match get_all_chain get_all_start (entries map) with
      | none => none
      | some st =>
        if st.has_entries then some (st.result.set (st.pos - 1) 125)
        else some (st.result ++ [125]) := by
  unfold entries
  rw [← get_all_buckets_eq_chain]
  rfl

/-! ## Runs of spaces and the argument array -/

theorem tokens_dropWhile_spaced_length (pairs : List (List Nat × Nat))
    (htok : ∀ p ∈ pairs, p.1 ≠ [] ∧ 32 ∉ p.1) (hgap : ∀ p ∈ pairs.dropLast, 0 < p.2) :
    (tokens ((spaced pairs).dropWhile isspace)).length ≤ pairs.length := by
  induction pairs with
  | nil => exact Nat.le_refl 0
  | cons p rest ih =>
    have hp := htok p (List.mem_cons_self _ _)
    have htok2 : ∀ q ∈ rest, q.1 ≠ [] ∧ 32 ∉ q.1 := fun q hq => htok q (List.mem_cons_of_mem _ hq)
    have hgap2 : ∀ q ∈ rest.dropLast, 0 < q.2 := by
      intro q hq
      cases rest with
      | nil => simp at hq
      | cons r rest => exact hgap q (by rw [List.dropLast_cons₂]; exact List.mem_cons_of_mem _ hq)
    have hn : 0 < p.2 ∨ spaced rest = [] := by
      cases rest with
      | nil => exact Or.inr rfl
      | cons r rest =>
        exact Or.inl (hgap p (by rw [List.dropLast_cons₂]; exact List.mem_cons_self _ _))
    have hs : spaced (p :: rest) = p.1 ++ (List.replicate p.2 32 ++ spaced rest) := by
      simp [spaced]
    rw [hs, List.length_cons]
    by_cases hb : p.1.dropWhile isspace = []
    · rw [dropWhile_isspace_blank _ _ hb,
        dropWhile_isspace_lead _ _ (fun c hc => by rw [(List.mem_replicate.1 hc).2]; rfl)]
      exact Nat.le_succ_of_le (ih htok2 hgap2)
    · have h32 : 32 ∉ p.1.dropWhile isspace :=
        fun hm => hp.2 ((List.dropWhile_sublist _).subset hm)
      rw [dropWhile_isspace_word _ _ hb, ← List.append_assoc,
        tokens_word_spaces _ _ _ hb h32 hn, tokens_spaced rest htok2 hgap2, List.length_cons,
        List.length_map]

/-- Runs of spaces as long as the stores stay inside the array: for at most
`ARGS_SLOTS + 1` tokens (a keyword, a key and at most 9 further tokens), each
followed by its run of spaces, behind any leading whitespace,
`parse_client_input` fills the command exactly as for the tokens joined by
single spaces, with the same stores into `cmd->args`, all of them at indices
below `ARGS_SLOTS`. -/
theorem runs_of_spaces_within_slots (pairs : List (List Nat × Nat)) (lead : List Nat)
    (cmd : Command) (htok : ∀ p ∈ pairs, p.1 ≠ [] ∧ 32 ∉ p.1)
    (hgap : ∀ p ∈ pairs.dropLast, 0 < p.2) (hlead : ∀ c ∈ lead, isspace c = true)
    (hlen : pairs.length ≤ ARGS_SLOTS + 1) :
    parse_client_input (lead ++ spaced pairs) cmd =
      parse_client_input (single_spaced (pairs.map Prod.fst)) cmd ∧
    args_writes (lead ++ spaced pairs) = args_writes (single_spaced (pairs.map Prod.fst)) ∧
    (∀ i ∈ args_writes (lead ++ spaced pairs), i < ARGS_SLOTS) := by
  have hl := tokens_dropWhile_spaced_length pairs htok hgap
  refine ⟨?_, ?_, ?_⟩
  · rw [parse_client_input_eq, parse_client_input_eq, dropWhile_isspace_lead _ _ hlead,
      tokens_dropWhile_spaced pairs htok hgap]
  · rw [args_writes_eq, args_writes_eq, dropWhile_isspace_lead _ _ hlead,
      tokens_dropWhile_spaced pairs htok hgap]
  · rw [args_writes_eq, dropWhile_isspace_lead _ _ hlead]
    generalize tokens ((spaced pairs).dropWhile isspace) = ts at hl
    intro i hi
    simp only [ARGS_SLOTS] at hlen ⊢
    cases ts with
    | nil => simp at hi
    | cons c rest =>
      simp only [] at hi
      split at hi
      · simp at hi
      · cases rest with
        | nil => simp at hi
        | cons key args =>
          simp only [List.length_cons] at hl
          simp only [List.mem_append, List.mem_range', List.mem_singleton] at hi
          omega

/-- The two lines of the claim on runs of spaces: `SET  k  v` stores `v` under
`k`, and `SET k ` is answered `MISSING_ARG`. -/
theorem runs_of_spaces_examples (cmd : Command) (map : HashMap) :
    process (cstr "SET  k  v") cmd map =
      some (cstr "OK\n", (hash_map_set map (cstr "k") (cstr "v")).2) ∧
    process (cstr "SET k ") cmd map = some (cstr "MISSING_ARG\n", map) := by
  constructor
  · have hline : cstr "SET  k  v" = [] ++ spaced [(cstr "SET", 2), (cstr "k", 2), (cstr "v", 0)] := by
      decide
    have hparse : parse_client_input (cstr "SET  k  v") cmd =
        parse_client_input (set_line (cstr "k") (cstr "v")) cmd := by
      rw [hline, parse_client_input_eq, parse_client_input_eq, dropWhile_isspace_lead _ _ (by simp),
        tokens_dropWhile_spaced _ (by decide) (by decide)]
      rfl
    have := process_set_line (cstr "k") (cstr "v") (by decide) (by decide) cmd map
    unfold process at this ⊢
    rw [hparse]
    exact this
  · have hparse : parse_client_input (cstr "SET k ") cmd =
        { type := .CMD_SET, key := some (cstr "k"), args := some [] } := by
      have hline : cstr "SET k " = spaced [(cstr "SET", 1), (cstr "k", 1)] := by decide
      rw [parse_client_input_eq, hline, tokens_dropWhile_spaced _ (by decide) (by decide)]
      rfl
    unfold process
    rw [hparse]
    rfl

/-! ## The claims -/

/-- C1 at a value of 255 bytes: on the new store the line `SET k aa...a`
(261 bytes) answers `OK\n`, and `GET k` then answers the 255 bytes of the value
with no newline behind them, which is not the value followed by a newline. -/
theorem C1_long_value_cut :
    is_token (cstr "k") ∧ is_token (List.replicate 255 97) ∧
    (set_line (cstr "k") (List.replicate 255 97)).length = 261 ∧
    process (set_line (cstr "k") (List.replicate 255 97)) ⟨.CMD_INVALID, none, none⟩ initial_map =
      some (cstr "OK\n", (hash_map_set initial_map (cstr "k") (List.replicate 255 97)).2) ∧
    process (get_line (cstr "k")) ⟨.CMD_INVALID, none, none⟩
        (hash_map_set initial_map (cstr "k") (List.replicate 255 97)).2 =
      some (List.replicate 255 97,
        (hash_map_set initial_map (cstr "k") (List.replicate 255 97)).2) ∧
    process (get_line (cstr "k")) ⟨.CMD_INVALID, none, none⟩
        (hash_map_set initial_map (cstr "k") (List.replicate 255 97)).2 ≠
      some (List.replicate 255 97 ++ [10],
        (hash_map_set initial_map (cstr "k") (List.replicate 255 97)).2) := by
  have hk : is_token (cstr "k") := by decide
  have hlen : (List.replicate 255 97).length = 255 := List.length_replicate _ _
  have hv : is_token (List.replicate 255 97) :=
    ⟨fun h0 => by rw [h0] at hlen; exact absurd hlen (by decide),
     fun hm => absurd (List.mem_replicate.1 hm).2 (by decide),
     fun hm => absurd (List.mem_replicate.1 hm).2 (by decide)⟩
  have hget : process (get_line (cstr "k")) ⟨.CMD_INVALID, none, none⟩
      (hash_map_set initial_map (cstr "k") (List.replicate 255 97)).2 =
      some (List.replicate 255 97,
        (hash_map_set initial_map (cstr "k") (List.replicate 255 97)).2) := by
    rw [get_long_value _ initial_map_reachable _ _ hk (le_of_eq hlen.symm),
      List.take_of_length_le (le_of_eq hlen)]
  refine ⟨hk, hv, ?_, process_set_line _ _ hk hv _ _, hget, ?_⟩
  · rw [set_line_length, hlen]; rfl
  · rw [hget]
    intro h
    have h2 := congrArg (fun r => (r.map (fun p => p.1.length))) h
    simp only [Option.map_some', List.length_append, hlen, List.length_singleton,
      Option.some.injEq] at h2
    exact absurd h2 (by decide)

/-- C2: on every map reachable from `create_hash_map` with a positive bucket
count, `hash_map_set(map, k, v)` returns true and `hash_map_get(map, k)` then
returns a string equal to `v`. -/
theorem C2_set_then_get (map : HashMap) (h : Reachable map) (k v : List Nat) :
    (hash_map_set map k v).1 = true ∧ hash_map_get (hash_map_set map k v).2 k = some v :=
  ⟨hash_map_set_fst map k v, hash_map_get_set_self map k v h.wf⟩

theorem C2_set_then_get_witness :
    Reachable (hash_map_set (create_hash_map 4) (cstr "a") (cstr "1")).2 ∧
    (hash_map_set (hash_map_set (create_hash_map 4) (cstr "a") (cstr "1")).2
        (cstr "a") (cstr "2")).1 = true ∧
    hash_map_get (hash_map_set (hash_map_set (create_hash_map 4) (cstr "a") (cstr "1")).2
        (cstr "a") (cstr "2")).2 (cstr "a") = some (cstr "2") :=
  ⟨Reachable.set _ _ _ (Reachable.create 4 (by decide)),
    C2_set_then_get _ (Reachable.set _ _ _ (Reachable.create 4 (by decide))) (cstr "a") (cstr "2")⟩

/-- C3: on every reachable map `hash_map_remove(map, k)` returns true exactly
when `hash_map_get(map, k)` was non-NULL before the call; afterwards
`hash_map_get(map, k)` is NULL; and when it returns false the map is the one
it was. -/
theorem C3_remove (map : HashMap) (h : Reachable map) (k : List Nat) :
    ((hash_map_remove map k).1 = true ↔ hash_map_get map k ≠ none) ∧
    hash_map_get (hash_map_remove map k).2 k = none ∧
    ((hash_map_remove map k).1 = false → (hash_map_remove map k).2 = map) :=
  ⟨hash_map_remove_fst map k h.wf, hash_map_get_remove_self map k h.wf,
    hash_map_remove_false map k⟩

theorem C3_remove_witness :
    Reachable (hash_map_set (create_hash_map 4) (cstr "a") (cstr "1")).2 ∧
    (((hash_map_remove (hash_map_set (create_hash_map 4) (cstr "a") (cstr "1")).2 (cstr "a")).1
        = true ↔
      hash_map_get (hash_map_set (create_hash_map 4) (cstr "a") (cstr "1")).2 (cstr "a") ≠ none) ∧
    hash_map_get
      (hash_map_remove (hash_map_set (create_hash_map 4) (cstr "a") (cstr "1")).2 (cstr "a")).2
      (cstr "a") = none ∧
    ((hash_map_remove (hash_map_set (create_hash_map 4) (cstr "a") (cstr "1")).2 (cstr "a")).1
        = false →
      (hash_map_remove (hash_map_set (create_hash_map 4) (cstr "a") (cstr "1")).2 (cstr "a")).2
        = (hash_map_set (create_hash_map 4) (cstr "a") (cstr "1")).2)) :=
  ⟨Reachable.set _ _ _ (Reachable.create 4 (by decide)),
    C3_remove _ (Reachable.set _ _ _ (Reachable.create 4 (by decide))) (cstr "a")⟩

/-- C4: on every reachable map and for keys `k2 ≠ k`, `hash_map_get(map, k2)`
is the same before and after `hash_map_set(map, k, v)` and before and after
`hash_map_remove(map, k)`; and after any sequence of set and remove calls on a
new map, `hash_map_get(k)` is the value of the last set on `k` when no remove
of `k` followed it, and NULL otherwise. -/
theorem C4_other_keys_untouched (map : HashMap) (h : Reachable map) (k k2 v : List Nat)
    (hne : k2 ≠ k) (capacity : Nat) (hc : 0 < capacity) (ops : List StoreOp) (key : List Nat) :
    hash_map_get (hash_map_set map k v).2 k2 = hash_map_get map k2 ∧
    hash_map_get (hash_map_remove map k).2 k2 = hash_map_get map k2 ∧
    hash_map_get (run_ops (create_hash_map capacity) ops) key = last_write key ops :=
  ⟨hash_map_get_set_ne map k v k2 h.wf hne, hash_map_get_remove_ne map k k2 h.wf hne,
    hash_map_get_run_ops capacity hc ops key⟩

theorem C4_other_keys_untouched_witness :
    Reachable (hash_map_set (create_hash_map 4) (cstr "e") (cstr "0")).2 ∧
    cstr "e" ≠ cstr "a" ∧ 0 < 4 ∧
    hash (cstr "e") 4 = hash (cstr "a") 4 ∧
    (hash_map_get (hash_map_set (hash_map_set (create_hash_map 4) (cstr "e") (cstr "0")).2
        (cstr "a") (cstr "1")).2 (cstr "e") =
      hash_map_get (hash_map_set (create_hash_map 4) (cstr "e") (cstr "0")).2 (cstr "e") ∧
    hash_map_get (hash_map_remove (hash_map_set (create_hash_map 4) (cstr "e") (cstr "0")).2
        (cstr "a")).2 (cstr "e") =
      hash_map_get (hash_map_set (create_hash_map 4) (cstr "e") (cstr "0")).2 (cstr "e") ∧
    hash_map_get (run_ops (create_hash_map 4)
        [.set (cstr "a") (cstr "1"), .set (cstr "e") (cstr "2"), .remove (cstr "a"),
         .set (cstr "e") (cstr "3")]) (cstr "e") =
      last_write (cstr "e")
        [.set (cstr "a") (cstr "1"), .set (cstr "e") (cstr "2"), .remove (cstr "a"),
         .set (cstr "e") (cstr "3")]) :=
  ⟨Reachable.set _ _ _ (Reachable.create 4 (by decide)), by decide, by decide, by decide,
    C4_other_keys_untouched _ (Reachable.set _ _ _ (Reachable.create 4 (by decide)))
      (cstr "a") (cstr "e") (cstr "1") (by decide) 4 (by decide) _ (cstr "e")⟩

/-- C5: on every reachable map, after `hash_map_set(k, v1)` then
`hash_map_set(k, v2)`, `hash_map_get(k)` is `v2` and `size` is what it was
after the first set; a set on a key that has a value leaves `size` alone and a
set on a key that has none adds exactly 1. -/
theorem C5_last_write_wins (map : HashMap) (h : Reachable map) (k v1 v2 : List Nat) :
    hash_map_get (hash_map_set (hash_map_set map k v1).2 k v2).2 k = some v2 ∧
    (hash_map_set (hash_map_set map k v1).2 k v2).2.size = (hash_map_set map k v1).2.size ∧
    (hash_map_get map k ≠ none → (hash_map_set map k v1).2.size = map.size) ∧
    (hash_map_get map k = none → (hash_map_set map k v1).2.size = map.size + 1) := by
  have h1 : WF (hash_map_set map k v1).2 := WF_set map k v1 h.wf
  refine ⟨hash_map_get_set_self _ k v2 h1, ?_, ?_, ?_⟩
  · rw [hash_map_set_size _ _ _ h1, hash_map_get_set_self map k v1 h.wf]; simp
  · intro hk; rw [hash_map_set_size _ _ _ h.wf, if_neg hk]
  · intro hk; rw [hash_map_set_size _ _ _ h.wf, if_pos hk]

theorem C5_last_write_wins_witness :
    Reachable (hash_map_set (create_hash_map 4) (cstr "e") (cstr "0")).2 ∧
    (hash_map_get (hash_map_set (hash_map_set
        (hash_map_set (create_hash_map 4) (cstr "e") (cstr "0")).2
          (cstr "a") (cstr "1")).2 (cstr "a") (cstr "2")).2 (cstr "a") = some (cstr "2") ∧
    (hash_map_set (hash_map_set (hash_map_set (create_hash_map 4) (cstr "e") (cstr "0")).2
        (cstr "a") (cstr "1")).2 (cstr "a") (cstr "2")).2.size =
      (hash_map_set (hash_map_set (create_hash_map 4) (cstr "e") (cstr "0")).2
        (cstr "a") (cstr "1")).2.size ∧
    (hash_map_get (hash_map_set (create_hash_map 4) (cstr "e") (cstr "0")).2 (cstr "a") ≠ none →
      (hash_map_set (hash_map_set (create_hash_map 4) (cstr "e") (cstr "0")).2
        (cstr "a") (cstr "1")).2.size =
      (hash_map_set (create_hash_map 4) (cstr "e") (cstr "0")).2.size) ∧
    (hash_map_get (hash_map_set (create_hash_map 4) (cstr "e") (cstr "0")).2 (cstr "a") = none →
      (hash_map_set (hash_map_set (create_hash_map 4) (cstr "e") (cstr "0")).2
        (cstr "a") (cstr "1")).2.size =
      (hash_map_set (create_hash_map 4) (cstr "e") (cstr "0")).2.size + 1)) :=
  ⟨Reachable.set _ _ _ (Reachable.create 4 (by decide)),
    C5_last_write_wins _ (Reachable.set _ _ _ (Reachable.create 4 (by decide)))
      (cstr "a") (cstr "1") (cstr "2")⟩

/-- C6: on every reachable store and for every key token `k`, `DEL k` answers
`1\n` when `k` was bound and `0\n` when it was not; `GET k` right after it
answers `(nil)\n`, and a second `DEL k` answers `0\n`. -/
theorem C6_wire_delete (map : HashMap) (h : Reachable map) (k : List Nat) (hk : is_token k)
    (c1 c2 c3 : Command) :
    (hash_map_get map k ≠ none →
      process (del_line k) c1 map = some (cstr "1\n", (hash_map_remove map k).2)) ∧
    (hash_map_get map k = none →
      process (del_line k) c1 map = some (cstr "0\n", (hash_map_remove map k).2)) ∧
    process (get_line k) c2 (hash_map_remove map k).2 =
      some (cstr "(nil)\n", (hash_map_remove map k).2) ∧
    process (del_line k) c3 (hash_map_remove map k).2 =
      some (cstr "0\n", (hash_map_remove map k).2) := by
  have hwf := h.wf
  have hwf2 := WF_remove map k hwf
  have hgone := hash_map_get_remove_self map k hwf
  have hfst := hash_map_remove_fst map k hwf
  refine ⟨?_, ?_, ?_, ?_⟩
  · intro hb
    rw [process_del_line k hk, if_pos (hfst.2 hb)]
  · intro hb
    have : (hash_map_remove map k).1 ≠ true := fun ht => hfst.1 ht hb
    rw [process_del_line k hk, if_neg this]
  · rw [process_get_line k hk, hgone]
  · have hf : (hash_map_remove (hash_map_remove map k).2 k).1 = false := by
      have := hash_map_remove_fst (hash_map_remove map k).2 k hwf2
      rw [hgone] at this
      cases hr : (hash_map_remove (hash_map_remove map k).2 k).1 with
      | false => rfl
      | true => exact absurd rfl (this.1 hr)
    rw [process_del_line k hk, hash_map_remove_false _ _ hf, hf]
    rfl

theorem C6_wire_delete_witness :
    Reachable (hash_map_set initial_map (cstr "a") (cstr "1")).2 ∧ is_token (cstr "a") ∧
    ((hash_map_get (hash_map_set initial_map (cstr "a") (cstr "1")).2 (cstr "a") ≠ none →
      process (del_line (cstr "a")) ⟨.CMD_INVALID, none, none⟩
          (hash_map_set initial_map (cstr "a") (cstr "1")).2 =
        some (cstr "1\n",
          (hash_map_remove (hash_map_set initial_map (cstr "a") (cstr "1")).2 (cstr "a")).2)) ∧
    (hash_map_get (hash_map_set initial_map (cstr "a") (cstr "1")).2 (cstr "a") = none →
      process (del_line (cstr "a")) ⟨.CMD_INVALID, none, none⟩
          (hash_map_set initial_map (cstr "a") (cstr "1")).2 =
        some (cstr "0\n",
          (hash_map_remove (hash_map_set initial_map (cstr "a") (cstr "1")).2 (cstr "a")).2)) ∧
    process (get_line (cstr "a")) ⟨.CMD_INVALID, none, none⟩
        (hash_map_remove (hash_map_set initial_map (cstr "a") (cstr "1")).2 (cstr "a")).2 =
      some (cstr "(nil)\n",
        (hash_map_remove (hash_map_set initial_map (cstr "a") (cstr "1")).2 (cstr "a")).2) ∧
    process (del_line (cstr "a")) ⟨.CMD_INVALID, none, none⟩
        (hash_map_remove (hash_map_set initial_map (cstr "a") (cstr "1")).2 (cstr "a")).2 =
      some (cstr "0\n",
        (hash_map_remove (hash_map_set initial_map (cstr "a") (cstr "1")).2 (cstr "a")).2)) :=
  ⟨Reachable.set _ _ _ (Reachable.create DEFAULT_HASHMAP_SIZE (by decide)), by decide,
    C6_wire_delete _ (Reachable.set _ _ _ (Reachable.create DEFAULT_HASHMAP_SIZE (by decide))) (cstr "a")
      (by decide) _ _ _⟩

/-- C7 at a pair with a value of 3000 bytes: in the map made by
`create_hash_map(1)` and `hash_map_set(map, "k", "aa...a")` the text of the
pair takes 3007 bytes, the buffer is doubled once to 2048 bytes, and the
rendering is cut instead of returned whole: the result is not the snapshot of
the entries. -/
theorem C7_long_value_cut :
    Reachable (hash_map_set (create_hash_map 1) (cstr "k") (List.replicate 3000 97)).2 ∧
    (entry_text { key := cstr "k", value := List.replicate 3000 97 }).length = 3007 ∧
    get_all_entry { buffer_size := BUFFER_SIZE, pos := 1, result := [123], has_entries := false }
      { key := cstr "k", value := List.replicate 3000 97 } = none ∧
    hash_map_get_all (hash_map_set (create_hash_map 1) (cstr "k") (List.replicate 3000 97)).2 =
      none ∧
    hash_map_get_all (hash_map_set (create_hash_map 1) (cstr "k") (List.replicate 3000 97)).2 ≠
      some (snapshot_text
        (entries (hash_map_set (create_hash_map 1) (cstr "k") (List.replicate 3000 97)).2)) := by
  have hlen : (List.replicate 3000 97).length = 3000 := List.length_replicate _ _
  have hk : (cstr "k").length = 1 := rfl
  have hcut := get_all_single_long (cstr "k") (List.replicate 3000 97)
    (by rw [hlen, hk]; decide)
  refine ⟨Reachable.set _ _ _ (Reachable.create 1 (by decide)), ?_, hcut.1, hcut.2, ?_⟩
  · rw [entry_text_length]
    simp only [hlen, hk]
  · rw [hcut.2]
    exact fun h => Option.noConfusion h

/-- C8: on the store as initialised `GETALL` answers exactly `{}\n`; after any
sequence of `SET` commands that fit the read buffer, every `SET` is answered
`OK\n` and `GETALL` answers one line, the whole snapshot and a newline, in
which every key that was set occurs exactly once, paired with its last written
value, and nothing else occurs; after `SET a 1` and `SET b 2` the answer is
`{"a":"1","b":"2"}\n`. -/
theorem C8_wire_getall (sets : List SetCommand) (h : ∀ s ∈ sets, s.sendable)
    (cmd c1 c2 c3 : Command) :
    process (cstr "GETALL") cmd initial_map = some (cstr "\x7b\x7d\n", initial_map) ∧
    serve initial_map (sets.map SetCommand.read) =
      some (sets.map (fun _ => cstr "OK\n"), run_ops initial_map (sets.map SetCommand.op)) ∧
    process (cstr "GETALL") cmd (run_ops initial_map (sets.map SetCommand.op)) =
      some (snapshot_text (entries (run_ops initial_map (sets.map SetCommand.op))) ++ [10],
        run_ops initial_map (sets.map SetCommand.op)) ∧
    10 ∉ snapshot_text (entries (run_ops initial_map (sets.map SetCommand.op))) ∧
    ((entries (run_ops initial_map (sets.map SetCommand.op))).map KVPair.key).Nodup ∧
    (∀ k, k ∈ (entries (run_ops initial_map (sets.map SetCommand.op))).map KVPair.key ↔
      k ∈ sets.map SetCommand.key) ∧
    (∀ e ∈ entries (run_ops initial_map (sets.map SetCommand.op)),
      last_write e.key (sets.map SetCommand.op) = some e.value) ∧
    serve initial_map [(cstr "SET a 1", c1), (cstr "SET b 2", c2), (cstr "GETALL", c3)] =
      some ([cstr "OK\n", cstr "OK\n", cstr "\x7b\"a\":\"1\",\"b\":\"2\"\x7d\n"],
        run_ops initial_map [.set (cstr "a") (cstr "1"), .set (cstr "b") (cstr "2")]) := by
  have hwf0 : WF initial_map := initial_map_reachable.wf
  have hwf : WF (run_ops initial_map (sets.map SetCommand.op)) :=
    (initial_map_reachable.run_ops _).wf
  have hget := hash_map_get_run_ops DEFAULT_HASHMAP_SIZE (by decide) (sets.map SetCommand.op)
  change ∀ key, hash_map_get (run_ops initial_map (sets.map SetCommand.op)) key = _ at hget
  have hsized : ∀ e ∈ entries (run_ops initial_map (sets.map SetCommand.op)), wire_sized e := by
    apply entries_run_sets wire_sized initial_map hwf0 sets
    · intro e he
      rw [show entries initial_map = [] from entries_create _] at he
      simp at he
    · intro s hs
      have := (h s hs).2.2
      rw [set_line_length] at this
      show s.key.length + s.value.length ≤ 1018
      simp only [READ_BUFFER_SIZE] at this
      omega
  have hnl : ∀ e ∈ entries (run_ops initial_map (sets.map SetCommand.op)),
      10 ∉ e.key ∧ 10 ∉ e.value := by
    apply entries_run_sets (fun e => 10 ∉ e.key ∧ 10 ∉ e.value) initial_map hwf0 sets
    · intro e he
      rw [show entries initial_map = [] from entries_create _] at he
      simp at he
    · intro s hs
      exact ⟨(h s hs).1.2.2, (h s hs).2.1.2.2⟩
  refine ⟨?_, serve_sets initial_map sets h, ?_, not_mem_snapshot_text _ hnl,
    entries_keys_nodup _ hwf, ?_, ?_, ?_⟩
  · rw [process_getall_line, show initial_map = create_hash_map DEFAULT_HASHMAP_SIZE from rfl,
      hash_map_get_all_create]
    rfl
  · rw [process_getall_line, hash_map_get_all_of_wire_sized _ hsized]
  · intro k
    rw [mem_entries_keys_iff _ hwf, hget, last_write_sets]
  · intro e he
    rw [← hget]
    exact hash_map_get_of_mem_entries _ hwf e he
  · exact serve_a_b c1 c2 c3

theorem C8_wire_getall_witness :
    (∀ s ∈ [({ key := cstr "k", value := cstr "v1", cmd := ⟨.CMD_INVALID, none, none⟩ } : SetCommand),
        { key := cstr "j", value := cstr "w", cmd := ⟨.CMD_INVALID, none, none⟩ },
        { key := cstr "k", value := cstr "v2", cmd := ⟨.CMD_INVALID, none, none⟩ }], s.sendable) ∧
    process (cstr "GETALL") ⟨.CMD_INVALID, none, none⟩
        (run_ops initial_map
          [.set (cstr "k") (cstr "v1"), .set (cstr "j") (cstr "w"), .set (cstr "k") (cstr "v2")]) =
      some (snapshot_text (entries (run_ops initial_map
          [.set (cstr "k") (cstr "v1"), .set (cstr "j") (cstr "w"), .set (cstr "k") (cstr "v2")]))
            ++ [10],
        run_ops initial_map
          [.set (cstr "k") (cstr "v1"), .set (cstr "j") (cstr "w"), .set (cstr "k") (cstr "v2")]) :=
  ⟨by decide,
    (C8_wire_getall
      [{ key := cstr "k", value := cstr "v1", cmd := ⟨.CMD_INVALID, none, none⟩ },
       { key := cstr "j", value := cstr "w", cmd := ⟨.CMD_INVALID, none, none⟩ },
       { key := cstr "k", value := cstr "v2", cmd := ⟨.CMD_INVALID, none, none⟩ }]
      (by decide) ⟨.CMD_INVALID, none, none⟩ ⟨.CMD_INVALID, none, none⟩
      ⟨.CMD_INVALID, none, none⟩ ⟨.CMD_INVALID, none, none⟩).2.2.1⟩

/-- C9 fails as stated: the first token of the line `DEL\nx` is none of the
four keywords in any letter case, and the answer is `MISSING_KEY\n`, not
`INVALID_COMMAND\n`. -/
theorem C9_counterexample :
    first_token (cstr "DEL\nx") = cstr "DEL\nx" ∧
    ¬ eq_ignore_case (first_token (cstr "DEL\nx")) (cstr "SET") ∧
    ¬ eq_ignore_case (first_token (cstr "DEL\nx")) (cstr "GET") ∧
    ¬ eq_ignore_case (first_token (cstr "DEL\nx")) (cstr "DEL") ∧
    ¬ eq_ignore_case (first_token (cstr "DEL\nx")) (cstr "GETALL") ∧
    (process (cstr "DEL\nx") ⟨.CMD_INVALID, none, none⟩ initial_map).map Prod.fst =
      some (cstr "MISSING_KEY\n") := by
  decide

/-- C9 (as amended): with the keyword read from the first space-delimited
token of the line behind its leading whitespace, cut at its first newline, and
letter case ignored: the answer is `INVALID_COMMAND\n` when that is none of
the four keywords (an empty or all-blank line included); `MISSING_KEY\n` when
it is SET, GET or DEL and the line has no second token; `MISSING_ARG\n` when it
is SET and the line has a second token but no third.  The store is left as it
was in each case. -/
theorem C9_error_responses (line : List Nat) (cmd : Command) (map : HashMap) :
    ((¬ eq_ignore_case (keyword_token line) (cstr "SET") ∧
      ¬ eq_ignore_case (keyword_token line) (cstr "GET") ∧
      ¬ eq_ignore_case (keyword_token line) (cstr "DEL") ∧
      ¬ eq_ignore_case (keyword_token line) (cstr "GETALL")) →
      process line cmd map = some (cstr "INVALID_COMMAND\n", map)) ∧
    ((eq_ignore_case (keyword_token line) (cstr "SET") ∨
      eq_ignore_case (keyword_token line) (cstr "GET") ∨
      eq_ignore_case (keyword_token line) (cstr "DEL")) →
      (tokens (line.dropWhile isspace)).length = 1 →
      process line cmd map = some (cstr "MISSING_KEY\n", map)) ∧
    (eq_ignore_case (keyword_token line) (cstr "SET") →
      (tokens (line.dropWhile isspace)).length = 2 →
      process line cmd map = some (cstr "MISSING_ARG\n", map)) := by
  obtain ⟨h1, h2, h3, h4⟩ := string_to_command_iff (first_token (line.dropWhile isspace))
  have htype := parse_client_input_type line cmd
  have hparse := parse_client_input_eq line cmd
  unfold keyword_token
  rw [← h1, ← h2, ← h3, ← h4]
  refine ⟨?_, ?_, ?_⟩
  · intro hno
    apply process_invalid
    rw [htype]
    cases hs : string_to_command (first_token (line.dropWhile isspace)) <;> simp_all
  · intro hkw hlen
    unfold first_token at hkw
    cases htoks : tokens (line.dropWhile isspace) with
    | nil => rw [htoks] at hlen; simp at hlen
    | cons t rest =>
      rw [htoks] at hlen hkw hparse
      have hrest : rest = [] := by
        cases rest with
        | nil => rfl
        | cons _ _ => simp at hlen
      subst hrest
      simp only [List.headD_cons] at hkw
      have hne : string_to_command t ≠ .CMD_INVALID := by
        rcases hkw with h | h | h <;> rw [h] <;> decide
      simp only [hne, if_false] at hparse
      unfold process execute_command
      rw [hparse]
      rcases hkw with h | h | h <;> rw [h] <;> rfl
  · intro hkw hlen
    unfold first_token at hkw
    cases htoks : tokens (line.dropWhile isspace) with
    | nil => rw [htoks] at hlen; simp at hlen
    | cons t rest =>
      rw [htoks] at hlen hkw hparse
      cases rest with
      | nil => simp at hlen
      | cons key rest2 =>
        have hrest : rest2 = [] := by
          cases rest2 with
          | nil => rfl
          | cons _ _ => simp at hlen
        subst hrest
        simp only [List.headD_cons] at hkw
        simp only [hkw, if_false] at hparse
        unfold process execute_command
        rw [hparse]
        rfl

theorem C9_error_responses_witness :
    process (cstr "FOO x") ⟨.CMD_GET, some [1], some [[2]]⟩ initial_map =
      some (cstr "INVALID_COMMAND\n", initial_map) ∧
    process (cstr "   ") ⟨.CMD_GET, some [1], some [[2]]⟩ initial_map =
      some (cstr "INVALID_COMMAND\n", initial_map) ∧
    process (cstr "GET") ⟨.CMD_GET, some [1], some [[2]]⟩ initial_map =
      some (cstr "MISSING_KEY\n", initial_map) ∧
    process (cstr "SET") ⟨.CMD_GET, some [1], some [[2]]⟩ initial_map =
      some (cstr "MISSING_KEY\n", initial_map) ∧
    process (cstr "SET k") ⟨.CMD_GET, some [1], some [[2]]⟩ initial_map =
      some (cstr "MISSING_ARG\n", initial_map) :=
  ⟨(C9_error_responses (cstr "FOO x") _ initial_map).1 (by decide),
   (C9_error_responses (cstr "   ") _ initial_map).1 (by decide),
   (C9_error_responses (cstr "GET") _ initial_map).2.1 (by decide) (by decide),
   (C9_error_responses (cstr "SET") _ initial_map).2.1 (by decide) (by decide),
   (C9_error_responses (cstr "SET k") _ initial_map).2.2 (by decide) (by decide)⟩

/-- C10 fails as stated: in the line `GET\nx k` the first space-delimited token
is `GET\nx`, which is not `GET` in any letter case, and the parsed type is
CMD_GET, not CMD_INVALID. -/
theorem C10_counterexample :
    first_token (cstr "GET\nx k") = cstr "GET\nx" ∧
    ¬ eq_ignore_case (first_token (cstr "GET\nx k")) (cstr "GET") ∧
    (parse_client_input (cstr "GET\nx k") ⟨.CMD_INVALID, none, none⟩).type = .CMD_GET := by
  decide

/-- C10 (as amended): the parsed command type is SET, GET, DEL or GETALL
exactly when the first space-delimited token of the line behind its leading
whitespace, cut at its first newline, equals that keyword with ASCII letter
case ignored; in every other case it is CMD_INVALID. -/
theorem C10_keyword_selection (line : List Nat) (cmd : Command) :
    ((parse_client_input line cmd).type = .CMD_SET ↔
      eq_ignore_case (keyword_token line) (cstr "SET")) ∧
    ((parse_client_input line cmd).type = .CMD_GET ↔
      eq_ignore_case (keyword_token line) (cstr "GET")) ∧
    ((parse_client_input line cmd).type = .CMD_REMOVE ↔
      eq_ignore_case (keyword_token line) (cstr "DEL")) ∧
    ((parse_client_input line cmd).type = .CMD_GET_ALL ↔
      eq_ignore_case (keyword_token line) (cstr "GETALL")) ∧
    ((parse_client_input line cmd).type = .CMD_INVALID ↔
      ¬ eq_ignore_case (keyword_token line) (cstr "SET") ∧
      ¬ eq_ignore_case (keyword_token line) (cstr "GET") ∧
      ¬ eq_ignore_case (keyword_token line) (cstr "DEL") ∧
      ¬ eq_ignore_case (keyword_token line) (cstr "GETALL")) := by
  obtain ⟨h1, h2, h3, h4⟩ := string_to_command_iff (first_token (line.dropWhile isspace))
  rw [parse_client_input_type]
  unfold keyword_token
  refine ⟨h1, h2, h3, h4, ?_⟩
  rw [← h1, ← h2, ← h3, ← h4]
  cases string_to_command (first_token (line.dropWhile isspace)) <;> simp

/-- C11 at a stored value of 300 bytes: after `SET k bb...b` (306 bytes) on the
new store, the command parsed from the line `GET k` is answered by 255 bytes
`b`: the answer holds no newline at all. -/
theorem C11_long_value_no_newline :
    (cstr "GET k").length = 5 ∧ 10 ∉ cstr "GET k" ∧
    (set_line (cstr "k") (List.replicate 300 98)).length = 306 ∧
    process (set_line (cstr "k") (List.replicate 300 98)) ⟨.CMD_INVALID, none, none⟩ initial_map =
      some (cstr "OK\n", (hash_map_set initial_map (cstr "k") (List.replicate 300 98)).2) ∧
    execute_command (parse_client_input (cstr "GET k") ⟨.CMD_INVALID, none, none⟩)
        (hash_map_set initial_map (cstr "k") (List.replicate 300 98)).2 =
      some (List.replicate 255 98,
        (hash_map_set initial_map (cstr "k") (List.replicate 300 98)).2) ∧
    10 ∉ List.replicate 255 98 ∧
    (List.replicate 255 98).getLast? ≠ some 10 := by
  have hk : is_token (cstr "k") := by decide
  have hlen : (List.replicate 300 98).length = 300 := List.length_replicate _ _
  have hv : is_token (List.replicate 300 98) :=
    ⟨fun h0 => by rw [h0] at hlen; exact absurd hlen (by decide),
     fun hm => absurd (List.mem_replicate.1 hm).2 (by decide),
     fun hm => absurd (List.mem_replicate.1 hm).2 (by decide)⟩
  have hno : 10 ∉ List.replicate 255 98 :=
    fun hm => absurd (List.mem_replicate.1 hm).2 (by decide)
  have hget := get_long_value initial_map initial_map_reachable (cstr "k")
    (List.replicate 300 98) hk (by rw [hlen]; decide) ⟨.CMD_INVALID, none, none⟩
  rw [List.take_replicate] at hget
  refine ⟨by decide, by decide, ?_, process_set_line _ _ hk hv _ _, hget, hno, ?_⟩
  · rw [set_line_length, hlen]; rfl
  · intro h
    exact hno (List.mem_of_getLast?_eq_some h)

/-- C12: in every map reachable from `create_hash_map` with a positive bucket
count by calls of `hash_map_set` and `hash_map_remove`, there is one chain per
bucket, no key occurs in more than one entry, every entry is linked in the
bucket numbered `hash(entry.key, capacity)`, `size` is the number of entries
over all chains, and `hash_map_get` with its `size == 0` shortcut finds every
linked entry. -/
theorem C12_store_invariant (map : HashMap) (h : Reachable map) :
    0 < map.capacity ∧ map.buckets.length = map.capacity ∧
    (map.buckets.flatten.map KVPair.key).Nodup ∧
    (∀ i e, e ∈ map.buckets.getD i [] → hash e.key map.capacity = i) ∧
    map.size = (map.buckets.map List.length).sum ∧
    (∀ e ∈ map.buckets.flatten, hash_map_get map e.key = some e.value) := by
  have hwf := h.wf
  refine ⟨hwf.cap_pos, hwf.len, ?_, fun i e he => hwf.placed i e he, hwf.size_eq, ?_⟩
  · rw [← entries_eq_flatten map hwf]; exact entries_keys_nodup map hwf
  · intro e he
    rw [← entries_eq_flatten map hwf] at he
    exact hash_map_get_of_mem_entries map hwf e he

theorem C12_store_invariant_witness :
    Reachable (hash_map_remove (hash_map_set (hash_map_set (create_hash_map 4)
      (cstr "a") (cstr "1")).2 (cstr "e") (cstr "2")).2 (cstr "a")).2 ∧
    (0 < (hash_map_remove (hash_map_set (hash_map_set (create_hash_map 4)
      (cstr "a") (cstr "1")).2 (cstr "e") (cstr "2")).2 (cstr "a")).2.capacity ∧
    (hash_map_remove (hash_map_set (hash_map_set (create_hash_map 4)
      (cstr "a") (cstr "1")).2 (cstr "e") (cstr "2")).2 (cstr "a")).2.buckets.length =
      (hash_map_remove (hash_map_set (hash_map_set (create_hash_map 4)
      (cstr "a") (cstr "1")).2 (cstr "e") (cstr "2")).2 (cstr "a")).2.capacity ∧
    ((hash_map_remove (hash_map_set (hash_map_set (create_hash_map 4)
      (cstr "a") (cstr "1")).2 (cstr "e") (cstr "2")).2 (cstr "a")).2.buckets.flatten.map
        KVPair.key).Nodup ∧
    (∀ i e, e ∈ (hash_map_remove (hash_map_set (hash_map_set (create_hash_map 4)
      (cstr "a") (cstr "1")).2 (cstr "e") (cstr "2")).2 (cstr "a")).2.buckets.getD i [] →
      hash e.key (hash_map_remove (hash_map_set (hash_map_set (create_hash_map 4)
      (cstr "a") (cstr "1")).2 (cstr "e") (cstr "2")).2 (cstr "a")).2.capacity = i) ∧
    (hash_map_remove (hash_map_set (hash_map_set (create_hash_map 4)
      (cstr "a") (cstr "1")).2 (cstr "e") (cstr "2")).2 (cstr "a")).2.size =
      ((hash_map_remove (hash_map_set (hash_map_set (create_hash_map 4)
      (cstr "a") (cstr "1")).2 (cstr "e") (cstr "2")).2 (cstr "a")).2.buckets.map
        List.length).sum ∧
    (∀ e ∈ (hash_map_remove (hash_map_set (hash_map_set (create_hash_map 4)
      (cstr "a") (cstr "1")).2 (cstr "e") (cstr "2")).2 (cstr "a")).2.buckets.flatten,
      hash_map_get (hash_map_remove (hash_map_set (hash_map_set (create_hash_map 4)
      (cstr "a") (cstr "1")).2 (cstr "e") (cstr "2")).2 (cstr "a")).2 e.key = some e.value)) :=
  ⟨Reachable.remove _ _ (Reachable.set _ _ _ (Reachable.set _ _ _
      (Reachable.create 4 (by decide)))),
    C12_store_invariant _ (Reachable.remove _ _ (Reachable.set _ _ _ (Reachable.set _ _ _
      (Reachable.create 4 (by decide)))))⟩

/-- C13: on every map, `execute_command` answers and leaves the map exactly as
it was for a GET, an INVALID command, a SET, GET or DEL without a key, a SET
without a value, and a DEL of a key that is not in the chain of its bucket
(on a reachable map: a key for which `hash_map_get` finds nothing).  A GETALL
never gives back another map than it was given, and it answers on every map
whose pairs have `strlen(key) + strlen(value)` of at most 1018, which every
state of the store of the server is. -/
theorem C13_store_untouched (map : HashMap) (cmd : Command) :
    (cmd.type = .CMD_GET → ∃ response, execute_command cmd map = some (response, map)) ∧
    (cmd.type = .CMD_INVALID → ∃ response, execute_command cmd map = some (response, map)) ∧
    (cmd.type ≠ .CMD_GET_ALL → cmd.key = none →
      ∃ response, execute_command cmd map = some (response, map)) ∧
    (cmd.type = .CMD_SET → (cmd.args = none ∨ cmd.args = some []) →
      ∃ response, execute_command cmd map = some (response, map)) ∧
    (cmd.type = .CMD_REMOVE → ∀ key, cmd.key = some key →
      chain_get (map.buckets.getD (hash (remove_trailing_newline key) map.capacity) [])
        (remove_trailing_newline key) = none →
      ∃ response, execute_command cmd map = some (response, map)) ∧
    (cmd.type = .CMD_REMOVE → Reachable map → ∀ key, cmd.key = some key →
      hash_map_get map (remove_trailing_newline key) = none →
      ∃ response, execute_command cmd map = some (response, map)) ∧
    (cmd.type = .CMD_GET_ALL →
      (∀ response map2, execute_command cmd map = some (response, map2) → map2 = map) ∧
      ((∀ e ∈ entries map, wire_sized e) →
        ∃ response, execute_command cmd map = some (response, map)) ∧
      (ServerState map → ∃ response, execute_command cmd map = some (response, map))) := by
  obtain ⟨type, key, args⟩ := cmd
  have hdel : ∀ k, chain_get (map.buckets.getD (hash (remove_trailing_newline k) map.capacity) [])
        (remove_trailing_newline k) = none →
      ∃ response, execute_command ⟨.CMD_REMOVE, some k, args⟩ map = some (response, map) := by
    intro k hnone
    have hr := hash_map_remove_of_none map (remove_trailing_newline k)
      ((chain_remove_eq_none_iff _ _).2 hnone)
    simp only [execute_command, hr]
    exact ⟨_, rfl⟩
  have hall : (∀ e ∈ entries map, wire_sized e) →
      ∃ response, execute_command ⟨.CMD_GET_ALL, key, args⟩ map = some (response, map) := by
    intro hsized
    simp only [execute_command, hash_map_get_all_of_wire_sized map hsized]
    exact ⟨_, rfl⟩
  refine ⟨?_, ?_, ?_, ?_, ?_, ?_, ?_⟩
  · intro ht
    simp only at ht
    subst ht
    cases key with
    | none => exact ⟨_, rfl⟩
    | some k =>
      simp only [execute_command]
      cases hash_map_get map (remove_trailing_newline k) <;> exact ⟨_, rfl⟩
  · intro ht
    simp only at ht
    subst ht
    exact ⟨_, rfl⟩
  · intro ht hk
    simp only at ht hk
    subst hk
    cases type with
    | CMD_INVALID => exact ⟨_, rfl⟩
    | CMD_SET => exact ⟨_, rfl⟩
    | CMD_GET => exact ⟨_, rfl⟩
    | CMD_REMOVE => exact ⟨_, rfl⟩
    | CMD_GET_ALL => exact absurd rfl ht
  · intro ht ha
    simp only at ht ha
    subst ht
    cases key with
    | none => exact ⟨_, rfl⟩
    | some k =>
      rcases ha with ha | ha <;> subst ha <;> exact ⟨_, rfl⟩
  · intro ht k hk hnone
    simp only at ht hk
    subst ht
    subst hk
    exact hdel k hnone
  · intro ht hreach k hk hnone
    simp only at ht hk
    subst ht
    subst hk
    rw [hash_map_get_eq_chain_get _ _ hreach.wf] at hnone
    exact hdel k hnone
  · intro ht
    simp only at ht
    subst ht
    refine ⟨?_, hall, fun hs => hall hs.sized.2⟩
    intro response map2 hex
    simp only [execute_command] at hex
    cases hg : hash_map_get_all map with
    | none => rw [hg] at hex; simp at hex
    | some all_entries =>
      rw [hg] at hex
      simp only [Option.some.injEq, Prod.mk.injEq] at hex
      exact hex.2.symm

theorem C13_store_untouched_witness :
    ServerState (hash_map_set initial_map (cstr "a") (cstr "1")).2 ∧
    hash_map_get (hash_map_set initial_map (cstr "a") (cstr "1")).2 (cstr "a") =
      some (cstr "1") ∧
    (∃ response,
      execute_command ⟨.CMD_GET, some (cstr "a"), none⟩
          (hash_map_set initial_map (cstr "a") (cstr "1")).2 =
        some (response, (hash_map_set initial_map (cstr "a") (cstr "1")).2)) ∧
    (∃ response,
      execute_command ⟨.CMD_REMOVE, some (cstr "b"), some []⟩
          (hash_map_set initial_map (cstr "a") (cstr "1")).2 =
        some (response, (hash_map_set initial_map (cstr "a") (cstr "1")).2)) ∧
    (∃ response,
      execute_command ⟨.CMD_GET_ALL, none, none⟩
          (hash_map_set initial_map (cstr "a") (cstr "1")).2 =
        some (response, (hash_map_set initial_map (cstr "a") (cstr "1")).2)) :=
  ⟨ServerState.init.after_set (cstr "a") (cstr "1") (by decide) (by decide) (by decide)
      (by decide),
    hash_map_get_set_self initial_map _ _ initial_map_reachable.wf,
    (C13_store_untouched (hash_map_set initial_map (cstr "a") (cstr "1")).2
      ⟨.CMD_GET, some (cstr "a"), none⟩).1 rfl,
    (C13_store_untouched (hash_map_set initial_map (cstr "a") (cstr "1")).2
      ⟨.CMD_REMOVE, some (cstr "b"), some []⟩).2.2.2.2.2.1 rfl
      (Reachable.set _ _ _ initial_map_reachable) (cstr "b") rfl
      ((hash_map_get_set_ne initial_map (cstr "a") (cstr "1") (cstr "b")
        initial_map_reachable.wf (by decide)).trans (hash_map_get_create _ _)),
    ((C13_store_untouched (hash_map_set initial_map (cstr "a") (cstr "1")).2
      ⟨.CMD_GET_ALL, none, none⟩).2.2.2.2.2.2 rfl).2.2
      (ServerState.init.after_set (cstr "a") (cstr "1") (by decide) (by decide) (by decide)
        (by decide))⟩

/-- C14 fails as stated: on the new store the received bytes `GETALL` are
answered `{}\n` but the received bytes `GETALL\r\n` are answered
`INVALID_COMMAND\n`, and for `GET k\r\n` the key looked up is `k\r`. -/
theorem C14_counterexample :
    handle_read (cstr "GETALL") ⟨.CMD_INVALID, none, none⟩ initial_map =
      some (cstr "\x7b\x7d\n", initial_map) ∧
    handle_read (cstr "GETALL\r\n") ⟨.CMD_INVALID, none, none⟩ initial_map =
      some (cstr "INVALID_COMMAND\n", initial_map) ∧
    (parse_client_input (remove_trailing_newline (cstr "GET k\r\n"))
      ⟨.CMD_INVALID, none, none⟩).key = some (cstr "k\r") := by
  refine ⟨?_, ?_, by decide⟩
  · rw [handle_read_eq_process _ (by decide) (by decide),
      show c_string (cstr "GETALL") = cstr "GETALL" from by decide, process_getall_line,
      show initial_map = create_hash_map DEFAULT_HASHMAP_SIZE from rfl, hash_map_get_all_create]
    rfl
  · rw [handle_read_of_short _ (by decide),
      show remove_trailing_newline (c_string (cstr "GETALL\r\n")) = cstr "GETALL\r" from by decide]
    exact process_invalid _ _ _ (by decide)

/-- C14 (as amended): for every command line `L` without a newline, as long
as the bytes received leave a zero of the fill in the read buffer (at most
`READ_BUFFER_SIZE - 1` bytes): the data path gives the same response and the
same store for the received bytes `L` and `L` followed by `\n`, namely those
of parsing and executing the string `L`; of `L` followed by `\r\n` only the
`\n` is stripped, so these bytes are handled as `L` followed by `\r`, the
carriage return staying in the string that is parsed.  When `L` followed by
`\n` fills the whole buffer no terminator is left and the data path has no
result. -/
theorem C14_line_endings (l : List Nat) (h : 10 ∉ l) (cmd : Command) (map : HashMap) :
    (l.length + 1 < READ_BUFFER_SIZE →
      handle_read (l ++ [10]) cmd map = handle_read l cmd map ∧
      handle_read l cmd map = process (c_string l) cmd map) ∧
    (l.length + 2 < READ_BUFFER_SIZE →
      handle_read (l ++ [13, 10]) cmd map = handle_read (l ++ [13]) cmd map ∧
      handle_read (l ++ [13]) cmd map = process (c_string (l ++ [13])) cmd map) ∧
    (0 ∉ l → c_string l = l ∧ c_string (l ++ [13]) = l ++ [13]) ∧
    (READ_BUFFER_SIZE ≤ l.length + 1 → 0 ∉ l → handle_read (l ++ [10]) cmd map = none) := by
  have h13 : 10 ∉ l ++ [13] := by
    simp only [List.mem_append, List.mem_singleton, not_or]
    exact ⟨h, by decide⟩
  refine ⟨fun hlen => ⟨handle_read_newline l hlen h cmd map,
      handle_read_eq_process l (by omega) h cmd map⟩, fun hlen => ⟨?_, ?_⟩, fun h0 => ⟨?_, ?_⟩,
    fun hlen h0 => handle_read_full _
      (by rw [List.length_append, List.length_singleton]; exact hlen)
      (by
        simp only [List.mem_append, List.mem_singleton, not_or]
        exact ⟨h0, by decide⟩) cmd map⟩
  · have := handle_read_newline (l ++ [13])
      (by rw [List.length_append, List.length_singleton]; exact hlen) h13 cmd map
    simpa using this
  · exact handle_read_eq_process _
      (by rw [List.length_append, List.length_singleton]; omega) h13 cmd map
  · exact c_string_of_not_mem l h0
  · exact c_string_of_not_mem _ (by
      simp only [List.mem_append, List.mem_singleton, not_or]
      exact ⟨h0, by decide⟩)

theorem C14_line_endings_witness :
    10 ∉ cstr "GET k" ∧
    (handle_read (cstr "GET k" ++ [10]) ⟨.CMD_INVALID, none, none⟩ initial_map =
      handle_read (cstr "GET k") ⟨.CMD_INVALID, none, none⟩ initial_map ∧
    handle_read (cstr "GET k") ⟨.CMD_INVALID, none, none⟩ initial_map =
      process (c_string (cstr "GET k")) ⟨.CMD_INVALID, none, none⟩ initial_map) ∧
    (handle_read (cstr "GET k" ++ [13, 10]) ⟨.CMD_INVALID, none, none⟩ initial_map =
      handle_read (cstr "GET k" ++ [13]) ⟨.CMD_INVALID, none, none⟩ initial_map ∧
    handle_read (cstr "GET k" ++ [13]) ⟨.CMD_INVALID, none, none⟩ initial_map =
      process (c_string (cstr "GET k" ++ [13])) ⟨.CMD_INVALID, none, none⟩ initial_map) ∧
    (c_string (cstr "GET k") = cstr "GET k" ∧
      c_string (cstr "GET k" ++ [13]) = cstr "GET k" ++ [13]) :=
  ⟨by decide,
    (C14_line_endings (cstr "GET k") (by decide) _ initial_map).1 (by decide),
    (C14_line_endings (cstr "GET k") (by decide) _ initial_map).2.1 (by decide),
    (C14_line_endings (cstr "GET k") (by decide) ⟨.CMD_INVALID, none, none⟩ initial_map).2.2.1
      (by decide)⟩

/-- C15 at nine further tokens: the line `SET k v 1 2 3 4 5 6 7 8 9` (25 bytes)
makes `parse_client_input` store at `cmd->args[10]`, behind the last of the 10
slots it allocated. -/
theorem C15_nine_extra_tokens :
    (cstr "SET k v 1 2 3 4 5 6 7 8 9").length = 25 ∧
    cstr "SET k v 1 2 3 4 5 6 7 8 9" =
      set_line_extra (cstr "k") (cstr "v")
        [cstr "1", cstr "2", cstr "3", cstr "4", cstr "5", cstr "6", cstr "7", cstr "8",
         cstr "9"] ∧
    args_writes (cstr "SET k v 1 2 3 4 5 6 7 8 9") = [0, 1, 2, 3, 4, 5, 6, 7, 8, 9, 10, 10] ∧
    ¬ (10 < ARGS_SLOTS) := by
  decide

/-- C16: on every reachable map a second `hash_map_set(map, k, v)` right after
the first returns true and leaves the map as the first left it: the same size,
the same result of `hash_map_get` for every key and the same result of
`hash_map_get_all`. -/
theorem C16_set_idempotent (map : HashMap) (h : Reachable map) (k v : List Nat) :
    (hash_map_set (hash_map_set map k v).2 k v).1 = true ∧
    (hash_map_set (hash_map_set map k v).2 k v).2 = (hash_map_set map k v).2 ∧
    (hash_map_set (hash_map_set map k v).2 k v).2.size = (hash_map_set map k v).2.size ∧
    (∀ key, hash_map_get (hash_map_set (hash_map_set map k v).2 k v).2 key =
      hash_map_get (hash_map_set map k v).2 key) ∧
    hash_map_get_all (hash_map_set (hash_map_set map k v).2 k v).2 =
      hash_map_get_all (hash_map_set map k v).2 := by
  have e := hash_map_set_twice map k v h.wf
  refine ⟨hash_map_set_fst _ k v, e, ?_, ?_, ?_⟩
  · rw [e]
  · intro key; rw [e]
  · rw [e]

theorem C16_set_idempotent_witness :
    Reachable (hash_map_set (create_hash_map 4) (cstr "e") (cstr "0")).2 ∧
    ((hash_map_set (hash_map_set (hash_map_set (create_hash_map 4) (cstr "e") (cstr "0")).2
      (cstr "a") (cstr "1")).2 (cstr "a") (cstr "1")).1 = true ∧
    (hash_map_set (hash_map_set (hash_map_set (create_hash_map 4) (cstr "e") (cstr "0")).2
      (cstr "a") (cstr "1")).2 (cstr "a") (cstr "1")).2 =
      (hash_map_set (hash_map_set (create_hash_map 4) (cstr "e") (cstr "0")).2
        (cstr "a") (cstr "1")).2 ∧
    (hash_map_set (hash_map_set (hash_map_set (create_hash_map 4) (cstr "e") (cstr "0")).2
      (cstr "a") (cstr "1")).2 (cstr "a") (cstr "1")).2.size =
      (hash_map_set (hash_map_set (create_hash_map 4) (cstr "e") (cstr "0")).2
        (cstr "a") (cstr "1")).2.size ∧
    (∀ key, hash_map_get (hash_map_set (hash_map_set (hash_map_set (create_hash_map 4)
        (cstr "e") (cstr "0")).2 (cstr "a") (cstr "1")).2 (cstr "a") (cstr "1")).2 key =
      hash_map_get (hash_map_set (hash_map_set (create_hash_map 4) (cstr "e") (cstr "0")).2
        (cstr "a") (cstr "1")).2 key) ∧
    hash_map_get_all (hash_map_set (hash_map_set (hash_map_set (create_hash_map 4)
        (cstr "e") (cstr "0")).2 (cstr "a") (cstr "1")).2 (cstr "a") (cstr "1")).2 =
      hash_map_get_all (hash_map_set (hash_map_set (create_hash_map 4) (cstr "e") (cstr "0")).2
        (cstr "a") (cstr "1")).2) :=
  ⟨Reachable.set _ _ _ (Reachable.create 4 (by decide)),
    C16_set_idempotent _ (Reachable.set _ _ _ (Reachable.create 4 (by decide)))
      (cstr "a") (cstr "1")⟩

/-- C17: in every connection state the event loop can reach, `active_clients`
is between 0 and `MAX_CLIENTS` and equals the number of registered client
descriptors, none of them registered twice; and an accept event met while
`active_clients` equals `MAX_CLIENTS` registers nothing and leaves
`active_clients`, `total_clients_connected` and the registered clients as they
were. -/
theorem C17_connection_ceiling (st : LoopState) (h : LoopReachable st)
    (client_fd : Option Nat) (epoll_add_ok : Bool) :
    0 ≤ st.active_clients ∧ st.active_clients ≤ MAX_CLIENTS ∧
    st.active_clients = st.registered.length ∧ st.registered.Nodup ∧
    (st.active_clients = MAX_CLIENTS →
      loop_step st (.accept client_fd epoll_add_ok) = st) := by
  obtain ⟨hnd, hcount, hmax⟩ := h.inv
  refine ⟨by omega, hmax, hcount, hnd, ?_⟩
  intro hfull
  simp only [loop_step, hfull, ge_iff_le, le_refl, if_true]

theorem C17_connection_ceiling_witness :
    LoopReachable (loop_with_clients 10000) ∧
    (loop_with_clients 10000).active_clients = MAX_CLIENTS ∧
    (0 ≤ (loop_with_clients 10000).active_clients ∧
    (loop_with_clients 10000).active_clients ≤ MAX_CLIENTS ∧
    (loop_with_clients 10000).active_clients = (loop_with_clients 10000).registered.length ∧
    (loop_with_clients 10000).registered.Nodup ∧
    ((loop_with_clients 10000).active_clients = MAX_CLIENTS →
      loop_step (loop_with_clients 10000) (.accept (some 10000) true) =
        loop_with_clients 10000)) :=
  ⟨loop_with_clients_reachable 10000 (by decide), rfl,
    C17_connection_ceiling (loop_with_clients 10000)
      (loop_with_clients_reachable 10000 (by decide)) (some 10000) true⟩

/-- C18: for every positive bucket count and every key of fewer than 2^24
bytes, the accumulator of `hash` never wraps (it ends as the exact sum of the
bytes, each taken as an unsigned char), `hash(key, capacity)` is that sum
modulo `capacity` and is below `capacity`; the empty key hashes to 0. -/
theorem C18_hash_is_byte_sum (key : List Nat) (capacity : Nat) (hc : 0 < capacity)
    (hk : key.length < 2 ^ 24) :
    hash_loop key 0 = (key.map (fun c => c % 256)).sum ∧
    (key.map (fun c => c % 256)).sum < 2 ^ 32 ∧
    hash key capacity = (key.map (fun c => c % 256)).sum % capacity ∧
    hash key capacity < capacity ∧
    hash [] capacity = 0 := by
  have hsum := sum_bytes_le key
  have hloop : hash_loop key 0 = (key.map (fun c => c % 256)).sum := by
    rw [hash_loop_eq_sum key 0 (by omega)]; omega
  have hlt : (key.map (fun c => c % 256)).sum < 2 ^ 32 := by omega
  refine ⟨hloop, hlt, ?_, hash_lt key capacity hc, ?_⟩
  · unfold hash
    rw [hloop]
    exact Nat.mod_eq_of_lt (lt_of_le_of_lt (Nat.mod_le _ _) hlt)
  · simp [hash, hash_loop]

theorem C18_hash_is_byte_sum_witness :
    0 < 1024 ∧ (cstr "key1").length < 2 ^ 24 ∧
    (hash_loop (cstr "key1") 0 = ((cstr "key1").map (fun c => c % 256)).sum ∧
    ((cstr "key1").map (fun c => c % 256)).sum < 2 ^ 32 ∧
    hash (cstr "key1") 1024 = ((cstr "key1").map (fun c => c % 256)).sum % 1024 ∧
    hash (cstr "key1") 1024 < 1024 ∧
    hash [] 1024 = 0) :=
  ⟨by decide, by decide, C18_hash_is_byte_sum (cstr "key1") 1024 (by decide) (by decide)⟩

/-- C19 fails as stated: after `SET k (nil)` on the new store the key `k` has a
binding, with the value `(nil)`, and `GET k` answers the not-found line
`(nil)\n`. -/
theorem C19_counterexample :
    is_token (cstr "k") ∧ is_token (cstr "(nil)") ∧
    process (set_line (cstr "k") (cstr "(nil)")) ⟨.CMD_INVALID, none, none⟩ initial_map =
      some (cstr "OK\n", (hash_map_set initial_map (cstr "k") (cstr "(nil)")).2) ∧
    hash_map_get (hash_map_set initial_map (cstr "k") (cstr "(nil)")).2 (cstr "k") =
      some (cstr "(nil)") ∧
    process (get_line (cstr "k")) ⟨.CMD_INVALID, none, none⟩
        (hash_map_set initial_map (cstr "k") (cstr "(nil)")).2 =
      some (cstr "(nil)\n", (hash_map_set initial_map (cstr "k") (cstr "(nil)")).2) := by
  have hk : is_token (cstr "k") := by decide
  have hv : is_token (cstr "(nil)") := by decide
  have hg := hash_map_get_set_self initial_map (cstr "k") (cstr "(nil)") initial_map_reachable.wf
  refine ⟨hk, hv, process_set_line _ _ hk hv _ _, hg, ?_⟩
  rw [process_get_line _ hk, hg]
  rfl

/-- C19 (as amended): for every store and key token `k`, `GET k` is answered
and leaves the store alone, and the answer is the not-found line `(nil)\n`
exactly when `k` has no binding or the value bound to `k` is the string
`(nil)`; no other stored value makes `GET` answer the not-found line. -/
theorem C19_get_not_found (map : HashMap) (k : List Nat) (hk : is_token k) (cmd : Command) :
    ∃ response, process (get_line k) cmd map = some (response, map) ∧
      (response = cstr "(nil)\n" ↔
        hash_map_get map k = none ∨ hash_map_get map k = some (cstr "(nil)")) := by
  rw [process_get_line k hk]
  cases hg : hash_map_get map k with
  | none => exact ⟨_, rfl, by simp⟩
  | some v =>
    refine ⟨_, rfl, ?_⟩
    rw [snprintf_value_eq_nil_iff]
    simp

theorem C19_get_not_found_witness :
    is_token (cstr "k") ∧
    ∃ response,
      process (get_line (cstr "k")) ⟨.CMD_INVALID, none, none⟩
          (hash_map_set initial_map (cstr "k") (cstr "v")).2 =
        some (response, (hash_map_set initial_map (cstr "k") (cstr "v")).2) ∧
      (response = cstr "(nil)\n" ↔
        hash_map_get (hash_map_set initial_map (cstr "k") (cstr "v")).2 (cstr "k") = none ∨
        hash_map_get (hash_map_set initial_map (cstr "k") (cstr "v")).2 (cstr "k") =
          some (cstr "(nil)")) :=
  ⟨by decide, C19_get_not_found _ (cstr "k") (by decide) _⟩

/-- C20 at ten tokens behind the key: for the line `GET k a b c d e f g h i j`
(25 bytes) `parse_client_input` stores the ten tokens at `cmd->args[0]` to
`cmd->args[9]` and the terminating `NULL` at `cmd->args[10]`, and 10 is not
below the number of slots. -/
theorem C20_args_overrun :
    (cstr "GET k a b c d e f g h i j").length = 25 ∧
    args_writes (cstr "GET k a b c d e f g h i j") = [0, 1, 2, 3, 4, 5, 6, 7, 8, 9, 10, 10] ∧
    (parse_client_input (cstr "GET k a b c d e f g h i j") ⟨.CMD_INVALID, none, none⟩).args =
      some [cstr "a", cstr "b", cstr "c", cstr "d", cstr "e", cstr "f", cstr "g", cstr "h",
        cstr "i", cstr "j"] ∧
    ¬ (∀ i ∈ args_writes (cstr "GET k a b c d e f g h i j"), i < ARGS_SLOTS) := by
  decide

/-- C21: in every map whose pairs all have `strlen(key) + strlen(value)` of at
most 1018, the loops of `hash_map_get_all` meet every entry, in order; at
every entry met, `pos` is below `buffer_size` and behind the single doubling
step `pos + strlen(key) + strlen(value) + 6` is below `buffer_size`, so the
text of the entry is written whole and `pos` stays below `buffer_size`; at the
end the closing brace and the terminator are stored inside the buffer, and the
result is the whole snapshot. -/
theorem C21_snapshot_buffer_large_enough (map : HashMap)
    (h : ∀ e ∈ entries map, wire_sized e) :
    get_all_buckets map get_all_start (List.range map.capacity) =
      get_all_chain get_all_start (entries map) ∧
    (get_all_steps get_all_start (entries map)).map Prod.snd = entries map ∧
    (∀ p ∈ get_all_steps get_all_start (entries map),
      p.1.pos < p.1.buffer_size ∧
      p.1.pos + p.2.key.length + p.2.value.length + 6 < buffer_size_after_doubling p.1 p.2 ∧
      ∃ st2, get_all_entry p.1 p.2 = some st2 ∧
        st2.buffer_size = buffer_size_after_doubling p.1 p.2 ∧
        st2.result = p.1.result ++ entry_text p.2 ∧
        st2.pos = p.1.pos + p.2.key.length + p.2.value.length + 6 ∧
        st2.pos < st2.buffer_size) ∧
    (∃ st, get_all_chain get_all_start (entries map) = some st ∧
      st.pos = st.result.length ∧ 0 < st.pos ∧ st.pos < st.buffer_size ∧
      (st.has_entries = false → st.pos + 1 < st.buffer_size)) ∧
    hash_map_get_all map = some (snapshot_text (entries map)) := by
  have hgood : get_all_start.Good := ⟨rfl, by decide, by decide⟩
  obtain ⟨s1, s2⟩ := get_all_steps_of_wire_sized get_all_start (entries map) hgood h
  refine ⟨get_all_buckets_eq_chain map get_all_start (List.range map.capacity), s1, s2, ?_,
    hash_map_get_all_of_wire_sized map h⟩
  obtain ⟨st, h1, g, r, b⟩ := get_all_chain_of_wire_sized get_all_start (entries map) hgood h
  refine ⟨st, h1, g.pos_eq, ?_, g.pos_lt, ?_⟩
  · rw [g.pos_eq, r]
    simp [get_all_start]
  · intro hb
    rw [hb] at b
    have hnil : entries map = [] := by
      cases hent : entries map with
      | nil => rfl
      | cons e es => rw [hent] at b; simp [get_all_start] at b
    rw [hnil] at h1
    simp only [get_all_chain, Option.some.injEq] at h1
    rw [← h1]
    decide

theorem C21_snapshot_buffer_large_enough_witness :
    (∀ e ∈ entries (hash_map_set (hash_map_set (create_hash_map 4) (cstr "a") (cstr "1")).2
      (cstr "b") (cstr "2")).2, wire_sized e) ∧
    hash_map_get_all (hash_map_set (hash_map_set (create_hash_map 4) (cstr "a") (cstr "1")).2
      (cstr "b") (cstr "2")).2 =
      some (snapshot_text (entries (hash_map_set (hash_map_set (create_hash_map 4)
        (cstr "a") (cstr "1")).2 (cstr "b") (cstr "2")).2)) :=
  ⟨by decide,
    (C21_snapshot_buffer_large_enough _ (by decide)).2.2.2.2⟩

/-- C22: for the map `map` reached from an empty map of `capacity` buckets by
the calls `ops`: `hash_map_get_all` renders the entries in the order of
`entries map`; that order is ascending in the bucket index
`hash(key, capacity)`, and its keys are, bucket after bucket, the keys of the
bucket that are in the map in reverse order of the insertions that put them
there (newest first; a key removed and set again counts from its new
insertion).  A `hash_map_set` of a key that is in the map replaces the value
of its entry and moves nothing, so the keys keep their order; a
`hash_map_set` of a key that is not in the map puts it at the head of its
bucket; `hash_map_remove` takes the entry of the key out and keeps the order
of the others. -/
theorem C22_enumeration_order (capacity : Nat) (ops : List StoreOp) (map : HashMap)
    (k v : List Nat) (hc : 0 < capacity) (hmap : map = run_ops (create_hash_map capacity) ops) :
    (hash_map_get_all map =
      match get_all_chain get_all_start (entries map) with
      | none => none
      | some st =>
        if st.has_entries then some (st.result.set (st.pos - 1) 125)
        else some (st.result ++ [125])) ∧
    ((∀ e ∈ entries map, wire_sized e) →
      hash_map_get_all map = some (snapshot_text (entries map))) ∧
    (entries map).Pairwise (fun a b => hash a.key capacity ≤ hash b.key capacity) ∧
    (entries map).map KVPair.key =
      (List.range capacity).flatMap
        (fun i => ((live_keys ops).filter (fun key => hash key capacity = i)).reverse) ∧
    (hash_map_get map k ≠ none →
      entries (hash_map_set map k v).2 = (entries map).map (overwrite k v) ∧
      (entries (hash_map_set map k v).2).map KVPair.key = (entries map).map KVPair.key) ∧
    (hash_map_get map k = none →
      (hash_map_set map k v).2.buckets.getD (hash k capacity) [] =
        { key := k, value := v } :: map.buckets.getD (hash k capacity) [] ∧
      ∀ i, i ≠ hash k capacity →
        (hash_map_set map k v).2.buckets.getD i [] = map.buckets.getD i []) ∧
    entries (hash_map_remove map k).2 = (entries map).filter (fun e => e.key ≠ k) ∧
    ((entries (hash_map_remove map k).2).map KVPair.key).Sublist
      ((entries map).map KVPair.key) := by
  have hwf : WF map := by
    rw [hmap]; exact ((Reachable.create capacity hc).run_ops ops).wf
  have hcap : map.capacity = capacity := by rw [hmap]; exact run_ops_capacity _ _
  refine ⟨hash_map_get_all_eq_chain map, hash_map_get_all_of_wire_sized map, ?_, ?_, ?_, ?_,
    entries_remove map hwf k, ?_⟩
  · have := entries_sorted_by_bucket map hwf
    rw [hcap] at this
    exact this
  · rw [hmap]; exact entries_keys_eq capacity hc ops
  · intro hk
    have h1 := entries_set_existing map hwf k v hk
    refine ⟨h1, ?_⟩
    rw [h1, List.map_map]
    congr 1
    funext e
    simp only [Function.comp, overwrite]
    split <;> rfl
  · intro hk
    have h1 := set_bucket_new map hwf k v hk
    rw [hcap] at h1
    refine ⟨by rw [h1, if_pos rfl], fun i hi => by rw [h1, if_neg hi]⟩
  · rw [entries_remove map hwf k]
    exact (List.filter_sublist _).map _

theorem C22_enumeration_order_witness :
    0 < 4 ∧
    (entries (run_ops (create_hash_map 4)
        [.set (cstr "a") (cstr "1"), .set (cstr "e") (cstr "2"), .set (cstr "b") (cstr "3"),
          .remove (cstr "a"), .set (cstr "a") (cstr "4"), .set (cstr "e") (cstr "5")])).map
        KVPair.key =
      (List.range 4).flatMap
        (fun i => ((live_keys
          [.set (cstr "a") (cstr "1"), .set (cstr "e") (cstr "2"), .set (cstr "b") (cstr "3"),
            .remove (cstr "a"), .set (cstr "a") (cstr "4"), .set (cstr "e") (cstr "5")]).filter
          (fun key => hash key 4 = i)).reverse) ∧
    (entries (run_ops (create_hash_map 4)
        [.set (cstr "a") (cstr "1"), .set (cstr "e") (cstr "2"), .set (cstr "b") (cstr "3"),
          .remove (cstr "a"), .set (cstr "a") (cstr "4"), .set (cstr "e") (cstr "5")])).map
        KVPair.key = [cstr "a", cstr "e", cstr "b"] :=
  ⟨by decide,
    (C22_enumeration_order 4
      [.set (cstr "a") (cstr "1"), .set (cstr "e") (cstr "2"), .set (cstr "b") (cstr "3"),
        .remove (cstr "a"), .set (cstr "a") (cstr "4"), .set (cstr "e") (cstr "5")]
      _ (cstr "a") (cstr "0") (by decide) rfl).2.2.2.1,
    by decide⟩

/-- C23 at twelve tokens: for the tokens `SET`, `k`, `v`, `1`, ..., `9`, joined
by single spaces (25 bytes) as well as joined by runs of two spaces behind two
leading spaces and with a trailing space, `parse_client_input` stores the ten
tokens behind the key at `cmd->args[0]` to `cmd->args[9]` and the terminating
`NULL` at `cmd->args[10]`, and 10 is not below the number of slots. -/
theorem C23_twelve_tokens_overrun :
    single_spaced
        [cstr "SET", cstr "k", cstr "v", cstr "1", cstr "2", cstr "3", cstr "4", cstr "5",
          cstr "6", cstr "7", cstr "8", cstr "9"] =
      cstr "SET k v 1 2 3 4 5 6 7 8 9" ∧
    cstr "  " ++ spaced
        [(cstr "SET", 2), (cstr "k", 2), (cstr "v", 2), (cstr "1", 2), (cstr "2", 2),
          (cstr "3", 2), (cstr "4", 2), (cstr "5", 2), (cstr "6", 2), (cstr "7", 2),
          (cstr "8", 2), (cstr "9", 1)] =
      cstr "  SET  k  v  1  2  3  4  5  6  7  8  9 " ∧
    args_writes (cstr "SET k v 1 2 3 4 5 6 7 8 9") = [0, 1, 2, 3, 4, 5, 6, 7, 8, 9, 10, 10] ∧
    args_writes (cstr "  SET  k  v  1  2  3  4  5  6  7  8  9 ") =
      [0, 1, 2, 3, 4, 5, 6, 7, 8, 9, 10, 10] ∧
    ¬ (∀ i ∈ args_writes (cstr "SET k v 1 2 3 4 5 6 7 8 9"), i < ARGS_SLOTS) ∧
    ¬ (∀ i ∈ args_writes (cstr "  SET  k  v  1  2  3  4  5  6  7  8  9 "), i < ARGS_SLOTS) := by
  decide

/-- C24 at a read of 1024 bytes: when the read fills the buffer with 1024 bytes
`a`, the buffer holds 1024 bytes and none of them is 0, so no index below 1024
holds the terminator. -/
theorem C24_full_read_not_terminated :
    (List.replicate 1024 97).length = READ_BUFFER_SIZE ∧
    read_buffer (List.replicate 1024 97) = List.replicate 1024 97 ∧
    (read_buffer (List.replicate 1024 97)).length = 1024 ∧
    ¬ ∃ i, i < 1024 ∧ (read_buffer (List.replicate 1024 97)).getD i 1 = 0 := by
  have hlen : (List.replicate 1024 97).length = 1024 := List.length_replicate _ _
  have hbuf : read_buffer (List.replicate 1024 97) = List.replicate 1024 97 := by
    unfold read_buffer
    have hz : READ_BUFFER_SIZE - 1024 = 0 := by decide
    rw [hlen, List.take_of_length_le (by rw [hlen]; decide), hz, List.replicate_zero,
      List.append_nil]
  refine ⟨hlen, hbuf, by rw [hbuf, hlen], ?_⟩
  rintro ⟨i, hi, h0⟩
  rw [hbuf, List.getD_eq_getElem?_getD, List.getElem?_replicate, if_pos hi] at h0
  simp at h0

end CEpollion
